import Mathlib

/-!
# apipe: applying a line diff as a sequence of scoped edits

A shallow embedding of `cmd/apipe/apply.go`: the hunk-header parser
(`cmdPat`, `parseDiffOp`, `atoi`), the body reader (`eatLines`) and the patch
applier (`apply`), together with the parts of the Go standard library they
rest on (`bufio.Scanner` with `bufio.ScanLines`, `strconv.Atoi`,
`bytes.HasPrefix`, `fmt.Sprintf("%d")`).

Go `int` is taken to be 64 bits wide; arithmetic on it wraps around.
-/

namespace Apipe

/-! ## Bytes, errors, machine integers -/

/-- Go strings and byte slices: finite sequences of bytes. -/
abbrev Bytes := List UInt8

/-- The bytes of an ASCII literal. -/
def ascii (s : String) : Bytes := s.data.map (fun c => UInt8.ofNat c.toNat)

/-- Go `error` values. `Errorf` keeps the format string and its arguments. -/
inductive GoError where
  | ErrUnexpectedEOF : GoError
  | ErrTooLong : GoError
  | Errorf (format : String) (args : List Bytes) : GoError
  | other (msg : String) : GoError
  deriving DecidableEq, Repr

/-- A Go computation either yields a value or panics. -/
inductive Res (α : Type) where
  | val (a : α) : Res α
  | panic (v : GoError) : Res α
  deriving DecidableEq, Repr

/-- Largest value of a Go `int` (64 bit). -/
def maxInt : Int := 9223372036854775807

/-- Smallest value of a Go `int` (64 bit). -/
def minInt : Int := -9223372036854775808

/-- Two's-complement wrap-around of a mathematical integer into a Go `int`. -/
def wrapInt (x : Int) : Int := (x + 9223372036854775808) % 18446744073709551616 - 9223372036854775808

/-- Go `a + b` on `int`. -/
def iadd (a b : Int) : Int := wrapInt (a + b)

/-- Go `a - b` on `int`. -/
def isub (a b : Int) : Int := wrapInt (a - b)

/-! ## Standard library: strconv, bytes, fmt -/

/-- ASCII decimal digit. -/
def isDigit (b : UInt8) : Bool := decide (48 ≤ b.toNat) && decide (b.toNat ≤ 57)

/-- Value of a string of decimal digits, most significant first. -/
def digitsVal (s : Bytes) : Nat := s.foldl (fun acc b => 10 * acc + (b.toNat - 48)) 0

/-- Unsigned part of `strconv.Atoi`: one or more decimal digits. -/
def atoiDigits (neg : Bool) (ds : Bytes) : Option Int :=
  if ds = [] ∨ ds.all isDigit = false then none
  else if neg then
    (if (digitsVal ds : Int) ≤ 9223372036854775808 then some (-(digitsVal ds : Int)) else none)
  else
    (if (digitsVal ds : Int) ≤ maxInt then some (digitsVal ds : Int) else none)

/-- Go `strconv.Atoi`: base 10, optional sign, `none` on a syntax or range
error. -/
def strconvAtoi (s : Bytes) : Option Int :=
  match s with
  | [] => none
  | b :: t =>
    if b = 43 then atoiDigits false t
    else if b = 45 then atoiDigits true t
    else atoiDigits false (b :: t)

/-- Go `bytes.HasPrefix`. -/
def HasPrefix : Bytes → Bytes → Bool
  | _, [] => true
  | [], _ :: _ => false
  | a :: s, b :: p => a == b && HasPrefix s p

/-- Decimal digits of a natural number, most significant first; `fuel` bounds
the number of digits. -/
def natDigits : Nat → Nat → Bytes → Bytes
  | 0, _, acc => acc
  | fuel + 1, n, acc =>
    if n / 10 = 0 then UInt8.ofNat (48 + n % 10) :: acc
    else natDigits fuel (n / 10) (UInt8.ofNat (48 + n % 10) :: acc)

/-- Decimal rendering of a natural number. -/
def fmtNat (n : Nat) : Bytes := natDigits (n + 1) n []

/-- Go `fmt.Sprintf("%d", n)` for an `int`. -/
def fmtInt (n : Int) : Bytes :=
  if n < 0 then 45 :: fmtNat n.natAbs else fmtNat n.natAbs

/-! ## Hunk headers -/

/-- Source `diffOp`: the four line numbers and the operation rune. -/
structure diffOp where
  n1 : Int
  n2 : Int
  n3 : Int
  n4 : Int
  op : UInt8
  deriving DecidableEq, Repr

/-- The optional group `(,([0-9]+))?` of `cmdPat`, tried at the head of `s`:
the text of the outer group, of the inner group, and what follows. Both groups
are empty when the group does not take part in the match. -/
def optGroup (s : Bytes) : Bytes × Bytes × Bytes :=
  match s with
  | [] => ([], [], [])
  | c :: t =>
    if c = 44 ∧ (t.span isDigit).1 ≠ [] then (c :: (t.span isDigit).1, (t.span isDigit).1, (t.span isDigit).2)
    else ([], [], c :: t)

/-- Source `cmdPat.FindStringSubmatch` for
`^([0-9]+)(,([0-9]+))?([acd])([0-9]+)(,([0-9]+))?$`: the empty list when the
line does not match, else the eight submatches `r[0]` to `r[7]`. -/
def cmdPatFind (cmd : Bytes) : List Bytes :=
  if (cmd.span isDigit).1 = [] then []
  else
    match (optGroup (cmd.span isDigit).2).2.2 with
    | [] => []
    | o :: r3 =>
      if o = 97 ∨ o = 99 ∨ o = 100 then
        if (r3.span isDigit).1 = [] then []
        else if (optGroup (r3.span isDigit).2).2.2 = [] then
          [cmd, (cmd.span isDigit).1, (optGroup (cmd.span isDigit).2).1,
            (optGroup (cmd.span isDigit).2).2.1, [o], (r3.span isDigit).1,
            (optGroup (r3.span isDigit).2).1, (optGroup (r3.span isDigit).2).2.1]
        else []
      else []

/-- Source `atoi`: panics when `strconv.Atoi` fails. -/
def atoi (s : Bytes) : Res Int :=
  match strconvAtoi s with
  | some n => .val n
  | none => .panic (.Errorf "unexpected bad number %q" [s])

/-- The zero `diffOp`. -/
def diffOp.zero : diffOp := ⟨0, 0, 0, 0, 0⟩

/-- Source `parseDiffOp`. The Go function returns the pair `(op, err)`. -/
def parseDiffOp (cmd : Bytes) : Res (diffOp × Option GoError) :=
  let r := cmdPatFind cmd
  if r.length = 0 then .val (diffOp.zero, some (.Errorf "%q is not a valid diff operation" [cmd]))
  else
    match atoi (r.getD 1 []) with
    | .panic v => .panic v
    | .val n1 =>
      match (if r.getD 3 [] ≠ [] then atoi (r.getD 3 []) else .val n1) with
      | .panic v => .panic v
      | .val n2 =>
        match atoi (r.getD 5 []) with
        | .panic v => .panic v
        | .val n3 =>
          match (if r.getD 7 [] ≠ [] then atoi (r.getD 7 []) else .val n3) with
          | .panic v => .panic v
          | .val n4 => .val (⟨n1, n2, n3, n4, (r.getD 4 []).headD 0⟩, none)

/-! ## Standard library: bufio.Scanner with the default split function -/

/-- Go `bufio.dropCR`: drop one trailing carriage return. -/
def dropCR (data : Bytes) : Bytes :=
  if data.getLast? = some 13 then data.dropLast else data

/-- Go `bufio.MaxScanTokenSize`, the size limit of the scanner's buffer. -/
def maxScanTokenSize : Nat := 65536

/-- The tokens that successive calls of `Scan` deliver on the input `data`
with `bufio.ScanLines`, and the error that stopped the scanner early, if any.
`cur` is the part of the current line already buffered. A line is delivered
without its newline and without one trailing carriage return; a final line
without newline is delivered when it is not empty; a line that does not fit
the buffer together with its newline stops the scanner with `ErrTooLong`.
The reader is taken to report the end of its data on a call of its own. -/
def scanTokens : Bytes → Bytes → List Bytes × Option GoError
  | [], cur => (if cur = [] then [] else [dropCR cur], none)
  | b :: bs, cur =>
    if b = 10 then (dropCR cur :: (scanTokens bs []).1, (scanTokens bs []).2)
    else if maxScanTokenSize ≤ cur.length + 1 then ([], some .ErrTooLong)
    else scanTokens bs (cur ++ [b])

/-- An `io.Reader` over a finite input: the bytes it yields and the error it
reports after them (`none` stands for `io.EOF`). -/
structure Reader where
  data : Bytes
  err : Option GoError
  deriving DecidableEq, Repr

/-- Go `bufio.NewScanner` followed by all the calls of `Scan`: the state of a
scanner is the list of tokens it has still to deliver. `scan.Scan()` returns
false on the empty list, and otherwise removes the head, which is then
`scan.Bytes()` and `scan.Text()`. -/
def NewScanner (r : Reader) : List Bytes := (scanTokens r.data []).1

/-- Go `scan.Err()` once `Scan` has returned false: `io.EOF` is not an
error. -/
def scanErr (r : Reader) : Option GoError :=
  match (scanTokens r.data []).2 with
  | some e => some e
  | none => r.err

/-! ## The patch applier -/

/-- Source `eatLines`, the loop `for i := 0; i < n; i++` started at `i`.
Returns the scanner after the loop and the error. -/
def eatLinesLoop (pfx : Bytes) (n : Int) : Int → List Bytes → List Bytes × Option GoError
  | i, [] => if i < n then ([], some .ErrUnexpectedEOF) else ([], none)
  | i, l :: ls =>
    if i < n then
      if HasPrefix l pfx then eatLinesLoop pfx n (iadd i 1) ls
      else (ls, some (.Errorf "line %q does not have expected prefix %q" [l, pfx]))
    else (l :: ls, none)

/-- Source `eatLines`. -/
def eatLines (scan : List Bytes) (pfx : Bytes) (n : Int) : List Bytes × Option GoError :=
  eatLinesLoop pfx n 0 scan

/-- Source `apply`, lines 192 to 202: the loop `for i := op.n3; i <= op.n4; i++`
started at `i` with the buffer `buf`. -/
def addedLoop (n4 : Int) : Int → List Bytes → Bytes → List Bytes × Bytes × Option GoError
  | i, [], buf => if i ≤ n4 then ([], buf, some .ErrUnexpectedEOF) else ([], buf, none)
  | i, l :: ls, buf =>
    if i ≤ n4 then
      if HasPrefix l (ascii "> ") then addedLoop n4 (iadd i 1) ls (buf ++ l.drop 2 ++ [10])
      else (ls, buf, some (.Errorf "expected line starting with '> ', got %q" [l]))
    else (l :: ls, buf, none)

/-- Source `apply`, lines 180 to 203: read the body of the hunk `op`. Returns
the scanner after the body, the buffer `buf` and the error. -/
def hunkBody (op : diffOp) (scan : List Bytes) : List Bytes × Bytes × Option GoError :=
  match (if op.op = 99 ∨ op.op = 100 then
      eatLines scan (ascii "< ") (iadd (isub op.n2 op.n1) 1) else (scan, none)) with
  | (scan1, some err) => (scan1, [], some err)
  | (scan1, none) =>
    match (if op.op = 99 then eatLines scan1 (ascii "---") 1 else (scan1, none)) with
    | (scan2, some err) => (scan2, [], some err)
    | (scan2, none) =>
      if op.op ≠ 100 then addedLoop op.n4 op.n3 scan2 [] else (scan2, [], none)

/-- Source `apply`, lines 204 to 215: the address of the hunk, or the error
for an append over a range. -/
def hunkAddr (op : diffOp) (offset : Int) : Bytes × Option GoError :=
  if op.n1 = op.n2 then
    (fmtInt (iadd op.n1 offset) ++ (if op.op = 97 then ascii "+#0" else []), none)
  else if op.op = 97 then
    (fmtInt (iadd op.n1 offset) ++ ascii "," ++ fmtInt (iadd op.n2 offset),
      some (.Errorf "append with multiple line source" []))
  else (fmtInt (iadd op.n1 offset) ++ ascii "," ++ fmtInt (iadd op.n2 offset), none)

/-- Source `apply`, lines 219 to 226: the offset after the hunk. -/
def nextOffset (op : diffOp) (offset : Int) : Int :=
  if op.op = 97 then iadd offset (iadd (isub op.n4 op.n3) 1)
  else if op.op = 100 then isub offset (iadd (isub op.n2 op.n1) 1)
  else if op.op = 99 then
    iadd offset (isub (iadd (isub op.n4 op.n3) 1) (iadd (isub op.n2 op.n1) 1))
  else offset

/-- Source `apply`, the loop `for scan.Scan()`. The edit sink is a function on
a sink state `σ`. Every iteration removes at least one line from the scanner,
so `fuel` above the number of lines is never used up; `none` is fuel used up. -/
def applyLoop {σ : Type} (edit : σ → Bytes → Bytes → σ × Option GoError) :
    Nat → List Bytes → Int → σ → Option (σ × Res (Option GoError))
  | 0, _, _, _ => none
  | _ + 1, [], _, st => some (st, .val none)
  | fuel + 1, cmd :: scan, offset, st =>
    match parseDiffOp cmd with
    | .panic v => some (st, .panic v)
    | .val (_, some err) => some (st, .val (some err))
    | .val (op, none) =>
      match hunkBody op scan with
      | (_, _, some err) => some (st, .val (some err))
      | (scan1, buf, none) =>
        match hunkAddr op offset with
        | (_, some err) => some (st, .val (some err))
        | (addr, none) =>
          match edit st addr buf with
          | (st1, some err) => some (st1, .val (some err))
          | (st1, none) => applyLoop edit fuel scan1 (nextOffset op offset) st1

/-- Source `apply`: the final state of the edit sink and the returned error
(`none` is `nil`). -/
def apply {σ : Type} (diffOut : Reader) (edit : σ → Bytes → Bytes → σ × Option GoError)
    (st : σ) : Option (σ × Res (Option GoError)) :=
  applyLoop edit ((NewScanner diffOut).length + 1) (NewScanner diffOut) 0 st

/-- One invocation of the edit sink: the address and the payload it was
given, and the error it returned. -/
structure Call where
  addr : Bytes
  data : Bytes
  err : Option GoError
  deriving DecidableEq, Repr

/-- The edit of an invocation: its address and payload. -/
def Call.args (c : Call) : Bytes × Bytes := (c.addr, c.data)

/-- The sink `edit` observed: its state is paired with the list of the
invocations made so far, oldest first. -/
def recording {σ : Type} (edit : σ → Bytes → Bytes → σ × Option GoError) :
    σ × List Call → Bytes → Bytes → (σ × List Call) × Option GoError :=
  fun st addr data =>
    (((edit st.1 addr data).1, st.2 ++ [⟨addr, data, (edit st.1 addr data).2⟩]),
      (edit st.1 addr data).2)

/-- The sink `edit` had it not failed: the same change of state, no error. -/
def succeeding {σ : Type} (edit : σ → Bytes → Bytes → σ × Option GoError) :
    σ → Bytes → Bytes → σ × Option GoError :=
  fun st addr data => ((edit st addr data).1, none)

/-- A sink that counts its invocations and returns the error `e` on the
`k`-th of them. -/
def failingSink (k : Nat) (e : GoError) : Nat → Bytes → Bytes → Nat × Option GoError :=
  fun n _ _ => (n + 1, if n + 1 = k then some e else none)

/-- A sink without state that accepts every edit. -/
def okSink : Unit → Bytes → Bytes → Unit × Option GoError := fun _ _ _ => ((), none)

/-! ## The header grammar of the specification -/

/-- A non-empty string of decimal digits. -/
def IsDigits (d : Bytes) : Prop := d ≠ [] ∧ ∀ b ∈ d, isDigit b = true

/-- The operation letters `a`, `c` and `d`. -/
def IsOp (o : UInt8) : Prop := o = 97 ∨ o = 99 ∨ o = 100

/-- The optional part `"," digits` of a header. -/
def optPart : Option Bytes → Bytes
  | none => []
  | some d => 44 :: d

/-- A header line `L1 ["," L2] OP L3 ["," L4]` put together from its parts. -/
def headerLine (d1 : Bytes) (d2 : Option Bytes) (o : UInt8) (d3 : Bytes) (d4 : Option Bytes) :
    Bytes :=
  d1 ++ optPart d2 ++ o :: (d3 ++ optPart d4)

/-- The grammar `digits ["," digits] (a|c|d) digits ["," digits]`, with
nothing before, between or after. -/
def HeaderGrammar (cmd : Bytes) : Prop :=
  ∃ (d1 : Bytes) (d2 : Option Bytes) (o : UInt8) (d3 : Bytes) (d4 : Option Bytes),
    IsDigits d1 ∧ (∀ d, d2 = some d → IsDigits d) ∧ IsOp o ∧ IsDigits d3 ∧
    (∀ d, d4 = some d → IsDigits d) ∧ cmd = headerLine d1 d2 o d3 d4

/-- The header line written with the decimal numbers `L1`, `L3` and, when
present, `L2` and `L4`. -/
def decimalHeader (L1 : Nat) (L2 : Option Nat) (o : UInt8) (L3 : Nat) (L4 : Option Nat) : Bytes :=
  headerLine (fmtNat L1) (L2.map fmtNat) o (fmtNat L3) (L4.map fmtNat)

/-! ## Diff streams as lists of hunks -/

/-- One hunk of a diff stream, line by line: the header line, the texts that
follow the marker on the lines of the deleted block, on the separator lines
and on the lines of the added block. -/
structure Hunk where
  cmd : Bytes
  dels : List Bytes
  seps : List Bytes
  adds : List Bytes
  deriving DecidableEq, Repr

/-- The lines of a hunk, in stream order. -/
def Hunk.lines (h : Hunk) : List Bytes :=
  h.cmd :: (h.dels.map (fun t => ascii "< " ++ t) ++
    (h.seps.map (fun t => ascii "---" ++ t) ++ h.adds.map (fun t => ascii "> " ++ t)))

/-- The descriptor that `parseDiffOp` yields on the header of the hunk. -/
def Hunk.op (h : Hunk) : diffOp :=
  match parseDiffOp h.cmd with
  | .val (op, _) => op
  | .panic _ => diffOp.zero

/-- The hunk has the shape `apply` reads: the header parses, a Change or
Delete has `n2 - n1 + 1` deleted lines, a Change has one separator line, an
Add or Change has `n4 - n3 + 1` added lines, and there is nothing else. Counts
below zero count as zero. -/
def Hunk.WellFormed (h : Hunk) : Prop :=
  parseDiffOp h.cmd = .val (h.op, none) ∧
  h.dels.length = (if h.op.op = 97 then 0 else (h.op.n2 - h.op.n1 + 1).toNat) ∧
  h.seps.length = (if h.op.op = 99 then 1 else 0) ∧
  h.adds.length = (if h.op.op = 100 then 0 else (h.op.n4 - h.op.n3 + 1).toNat)

/-- The line counts of the hunk are computed without overflow of the Go
`int`, and the loop over the added lines ends below the largest `int`. -/
def Hunk.InRange (h : Hunk) : Prop :=
  (h.op.op ≠ 97 → h.op.n2 - h.op.n1 < maxInt) ∧ (h.op.op ≠ 100 → h.op.n4 < maxInt)

/-- An Add hunk names a single original line. -/
def Hunk.PointAdd (h : Hunk) : Prop := h.op.op = 97 → h.op.n1 = h.op.n2

/-- The replacement text of a hunk: its added texts, each followed by a
newline. -/
def Hunk.payload (h : Hunk) : Bytes := (h.adds.map (fun t => t ++ [10])).flatten

/-- The change of the line count that a hunk brings: `+(n4-n3+1)` for Add,
`-(n2-n1+1)` for Delete, `(n4-n3+1)-(n2-n1+1)` for Change. -/
def delta (op : diffOp) : Int :=
  if op.op = 97 then op.n4 - op.n3 + 1
  else if op.op = 100 then -(op.n2 - op.n1 + 1)
  else (op.n4 - op.n3 + 1) - (op.n2 - op.n1 + 1)

/-- The address of a hunk at the offset `off`, computed on the integers. -/
def specAddr (op : diffOp) (off : Int) : Bytes :=
  if op.n1 = op.n2 then fmtInt (op.n1 + off) ++ (if op.op = 97 then ascii "+#0" else [])
  else fmtInt (op.n1 + off) ++ ascii "," ++ fmtInt (op.n2 + off)

/-- The edits of a list of hunks from the offset `off` on: address and
payload of each hunk, the offset growing by `delta`. -/
def specEdits : Int → List Hunk → List (Bytes × Bytes)
  | _, [] => []
  | off, h :: hs => (specAddr h.op off, h.payload) :: specEdits (off + delta h.op) hs

/-- A Go `int` holds the integer `x`. -/
def inRange (x : Int) : Prop := minInt ≤ x ∧ x ≤ maxInt

/-- The addresses and offsets of the hunks, from the offset `off` on, stay
within the Go `int`. -/
def OffsetsInRange : Int → List Hunk → Prop
  | _, [] => True
  | off, h :: hs =>
    inRange (h.op.n1 + off) ∧ inRange (h.op.n2 + off) ∧ inRange (off + delta h.op) ∧
      OffsetsInRange (off + delta h.op) hs

/-- The lines of a list of hunks, in stream order. -/
def streamLines (hs : List Hunk) : List Bytes := hs.flatMap Hunk.lines

/-! ## Comparing sinks -/

/-- How the run of `apply` with an arbitrary sink compares with its run with a
sink that never fails: the edits of the first are an initial part of the edits
of the second, and either no invocation failed and both return the same, or the
last invocation failed and its error is returned. -/
def SinkCompare (ext1 : List Call) (res1 : Res (Option GoError)) (ext2 : List Call)
    (res2 : Res (Option GoError)) : Prop :=
  ext1.map Call.args = (ext2.map Call.args).take ext1.length ∧
  (∀ c ∈ ext2, c.err = none) ∧
  (((∀ c ∈ ext1, c.err = none) ∧ res1 = res2 ∧ ext1.length = ext2.length) ∨
    (∃ init c e, ext1 = init ++ [c] ∧ (∀ d ∈ init, d.err = none) ∧ c.err = some e ∧
      res1 = .val (some e)))

/-- The line numbers of a descriptor are those of a header: between zero and
the largest `int`, with an operation among `a`, `c`, `d`. -/
def diffOp.Valid (op : diffOp) : Prop :=
  (0 ≤ op.n1 ∧ op.n1 ≤ maxInt) ∧ (0 ≤ op.n2 ∧ op.n2 ≤ maxInt) ∧ (0 ≤ op.n3 ∧ op.n3 ≤ maxInt) ∧
    (0 ≤ op.n4 ∧ op.n4 ≤ maxInt) ∧ IsOp op.op

/-- The edits of a list of hunks from the offset `off` on, with the address
and the offset as `apply` computes them on the Go `int`. -/
def codeEdits : Int → List Hunk → List (Bytes × Bytes)
  | _, [] => []
  | off, h :: hs => ((hunkAddr h.op off).1, h.payload) :: codeEdits (nextOffset h.op off) hs

/-- The offset at the `i`-th hunk: the sum of `delta` over the hunks before
it. -/
def offsetAt (hs : List Hunk) (i : Nat) : Int := ((hs.take i).map (fun h => delta h.op)).sum

/-- The bytes of a list of lines, each followed by a newline. -/
def encodeLines (ls : List Bytes) : Bytes := (ls.map (fun l => l ++ [10])).flatten

/-- A line as the stream carries it: no newline inside, and short enough to fit
the buffer of the scanner together with its newline. -/
def ScanLine (l : Bytes) : Prop := (10 : UInt8) ∉ l ∧ l.length < maxScanTokenSize

/-- The hunk as the scanner delivers it: one trailing carriage return is gone
from each of its lines. -/
def Hunk.scanned (h : Hunk) : Hunk :=
  ⟨dropCR h.cmd, h.dels.map dropCR, h.seps.map dropCR, h.adds.map dropCR⟩

/-- The lines of a payload: the texts that its newlines end. `cur` is the part
of the current line already read. -/
def payloadLines : Bytes → Bytes → List Bytes
  | [], cur => if cur = [] then [] else [cur]
  | b :: bs, cur => if b = 10 then cur :: payloadLines bs [] else payloadLines bs (cur ++ [b])

/-- The addresses given to the edit sink: the line `n`, the point after the
line `n`, the lines `n` to `m`. -/
inductive Address where
  | line (n : Nat) : Address
  | after (n : Nat) : Address
  | range (n m : Nat) : Address
  deriving DecidableEq, Repr

/-- Reads an address `N`, `N+#0` or `N,M` written in decimal. -/
def parseAddress (addr : Bytes) : Option Address :=
  if (addr.span isDigit).1 = [] then none
  else if (addr.span isDigit).2 = [] then some (.line (digitsVal (addr.span isDigit).1))
  else if (addr.span isDigit).2 = ascii "+#0" then
    some (.after (digitsVal (addr.span isDigit).1))
  else
    match (addr.span isDigit).2 with
    | [] => none
    | c :: d2 =>
      if c = 44 ∧ d2 ≠ [] ∧ d2.all isDigit = true then
        some (.range (digitsVal (addr.span isDigit).1) (digitsVal d2))
      else none

/-- An in-memory document as edit sink: the address `N` replaces the line
`N`, `N+#0` inserts after the line `N`, `N,M` replaces the lines `N` to `M`,
each by the lines of the payload; an empty payload removes the addressed
lines. An address outside the document is an error. -/
def memEdit (doc : List Bytes) (addr data : Bytes) : List Bytes × Option GoError :=
  match parseAddress addr with
  | some (.line n) =>
    if 1 ≤ n ∧ n ≤ doc.length then (doc.take (n - 1) ++ payloadLines data [] ++ doc.drop n, none)
    else (doc, some (.other "address out of range"))
  | some (.after n) =>
    if n ≤ doc.length then (doc.take n ++ payloadLines data [] ++ doc.drop n, none)
    else (doc, some (.other "address out of range"))
  | some (.range n m) =>
    if 1 ≤ n ∧ n ≤ m ∧ m ≤ doc.length then
      (doc.take (n - 1) ++ payloadLines data [] ++ doc.drop m, none)
    else (doc, some (.other "address out of range"))
  | none => (doc, some (.other "bad address"))

/-- A line of a document: no newline and no carriage return inside, and short
enough to fit the buffer of the scanner behind a two-byte marker. -/
def TextLine (l : Bytes) : Prop :=
  (10 : UInt8) ∉ l ∧ (13 : UInt8) ∉ l ∧ l.length + 2 < maxScanTokenSize

/-- The hunks `hs` correctly describe the original document `O` against the
new document `N`, from the point where `pos` lines of `O` have been read and
`npos` lines of `N` written. Before each hunk come `k` lines that both
documents share; an Add inserts `m` lines of `N` after the original line
`n1 = pos + k`, a Delete covers the `d` original lines `n1..n2`, a Change
covers `d` original lines and brings `m` lines of `N`; the added lines are the
lines `n3..n4` of `N`; after the last hunk the rest of both documents is the
same. Hunks so come in increasing order over disjoint original ranges. -/
inductive Describes (O N : List Bytes) : Nat → Nat → List Hunk → Prop where
  | done (pos npos : Nat) (h : O.drop pos = N.drop npos) : Describes O N pos npos []
  | add (pos npos k m : Nat) (cmd : Bytes) (hs : List Hunk)
      (hp : parseDiffOp cmd = .val (⟨((pos + k : Nat) : Int), ((pos + k : Nat) : Int),
        ((npos + k + 1 : Nat) : Int), ((npos + k + m : Nat) : Int), 97⟩, none))
      (hc : ScanLine cmd) (hm : 1 ≤ m) (hO : pos + k ≤ O.length)
      (hN : npos + k + m ≤ N.length) (hk : (O.drop pos).take k = (N.drop npos).take k)
      (hrest : Describes O N (pos + k) (npos + k + m) hs) :
      Describes O N pos npos (⟨cmd, [], [], (N.drop (npos + k)).take m⟩ :: hs)
  | delete (pos npos k d : Nat) (n3 n4 : Int) (cmd : Bytes) (hs : List Hunk)
      (hp : parseDiffOp cmd = .val (⟨((pos + k + 1 : Nat) : Int), ((pos + k + d : Nat) : Int),
        n3, n4, 100⟩, none))
      (hc : ScanLine cmd) (hd : 1 ≤ d) (hO : pos + k + d ≤ O.length)
      (hN : npos + k ≤ N.length) (hk : (O.drop pos).take k = (N.drop npos).take k)
      (hrest : Describes O N (pos + k + d) (npos + k) hs) :
      Describes O N pos npos (⟨cmd, (O.drop (pos + k)).take d, [], []⟩ :: hs)
  | change (pos npos k d m : Nat) (cmd : Bytes) (hs : List Hunk)
      (hp : parseDiffOp cmd = .val (⟨((pos + k + 1 : Nat) : Int), ((pos + k + d : Nat) : Int),
        ((npos + k + 1 : Nat) : Int), ((npos + k + m : Nat) : Int), 99⟩, none))
      (hc : ScanLine cmd) (hd : 1 ≤ d) (hm : 1 ≤ m) (hO : pos + k + d ≤ O.length)
      (hN : npos + k + m ≤ N.length) (hk : (O.drop pos).take k = (N.drop npos).take k)
      (hrest : Describes O N (pos + k + d) (npos + k + m) hs) :
      Describes O N pos npos
        (⟨cmd, (O.drop (pos + k)).take d, [[]], (N.drop (npos + k)).take m⟩ :: hs)

/-- A line of 65534 bytes `x`. -/
def longLine : Bytes := List.replicate 65534 120

/-- Two hunks that are identical except for the texts that follow the marker
on their deleted lines and on their separator lines. -/
def Hunk.SameButDeleted (h1 h2 : Hunk) : Prop :=
  h1.cmd = h2.cmd ∧ h1.dels.length = h2.dels.length ∧ h1.seps.length = h2.seps.length ∧
    h1.adds = h2.adds

/-! ## Standard library: unicode/utf8 -/

/-- Go `utf8.UTFMax`: the largest number of bytes of an encoded character. -/
def UTFMax : Nat := 4

/-- Go `utf8.RuneError`, the replacement character U+FFFD. -/
def RuneError : Nat := 0xFFFD

/-- Go `utf8.first`, the table on the first byte of an encoding, as the ranges
of its entries: `0xF0` is an ASCII byte, `0xF1` a byte that starts no
encoding; otherwise the low three bits are the size of the encoding and the
high four bits the index into `acceptRanges`. -/
def first (b : Nat) : Nat :=
  if b < 0x80 then 0xF0
  else if b < 0xC2 then 0xF1
  else if b < 0xE0 then 0x02
  else if b = 0xE0 then 0x13
  else if b < 0xED then 0x03
  else if b = 0xED then 0x23
  else if b < 0xF0 then 0x03
  else if b = 0xF0 then 0x34
  else if b < 0xF4 then 0x04
  else if b = 0xF4 then 0x44
  else 0xF1

/-- Go `utf8.acceptRanges`: the lowest and the highest value accepted for the
second byte of an encoding. -/
def acceptRanges (i : Nat) : Nat × Nat :=
  if i = 0 then (0x80, 0xBF)
  else if i = 1 then (0xA0, 0xBF)
  else if i = 2 then (0x80, 0x9F)
  else if i = 3 then (0x90, 0xBF)
  else if i = 4 then (0x80, 0x8F)
  else (0, 0)

/-- Go `utf8.DecodeRune`: the first character of `p` and the number of bytes
of its encoding; `(RuneError, 0)` on the empty input and `(RuneError, 1)` on an
encoding that is invalid or cut short. The mask `rune(x) << 31 >> 31` of the
source is all ones when `x` is odd and zero otherwise. -/
def DecodeRune (p : Bytes) : Nat × Nat :=
  if p.length < 1 then (RuneError, 0)
  else
    let p0 := (p.getD 0 0).toNat
    let x := first p0
    if x ≥ 0xF0 then (if x % 2 = 1 then RuneError else p0, 1)
    else
      let sz := x &&& 7
      let accept := acceptRanges (x >>> 4)
      if p.length < sz then (RuneError, 1)
      else
        let b1 := (p.getD 1 0).toNat
        if b1 < accept.1 ∨ accept.2 < b1 then (RuneError, 1)
        else if sz ≤ 2 then ((p0 &&& 0x1F) <<< 6 ||| (b1 &&& 0x3F), 2)
        else
          let b2 := (p.getD 2 0).toNat
          if b2 < 0x80 ∨ 0xBF < b2 then (RuneError, 1)
          else if sz ≤ 3 then
            ((p0 &&& 0x0F) <<< 12 ||| (b1 &&& 0x3F) <<< 6 ||| (b2 &&& 0x3F), 3)
          else
            let b3 := (p.getD 3 0).toNat
            if b3 < 0x80 ∨ 0xBF < b3 then (RuneError, 1)
            else
              ((p0 &&& 0x07) <<< 18 ||| (b1 &&& 0x3F) <<< 12 ||| (b2 &&& 0x3F) <<< 6 |||
                (b3 &&& 0x3F), 4)

/-- Go `utf8.RuneStart`: the byte is not a continuation byte. -/
def RuneStart (b : UInt8) : Bool := b.toNat &&& 0xC0 != 0x80

/-! ## The chunked writer -/

/-- Source `trimIncompleteRune`, the loop `for ; i < len(b); i++`: `rest` is
`b[i:]` and `len` is `len(b)`. Returns `lastStart` after the loop. -/
def trimLoop (len : Nat) : Bytes → Nat → Nat → Nat
  | [], _, lastStart => lastStart
  | x :: rest, i, lastStart =>
    if (DecodeRune (x :: rest)).1 ≠ RuneError ∨ (DecodeRune (x :: rest)).2 > 1 then
      trimLoop len rest (i + 1) len
    else if RuneStart x then trimLoop len rest (i + 1) i
    else trimLoop len rest (i + 1) lastStart

/-- Source `trimIncompleteRune`. The subtraction on the natural numbers stops
at zero, as `if i < 0 { i = 0 }` does. -/
def trimIncompleteRune (b : Bytes) : Bytes :=
  b.take (trimLoop b.length (b.drop (b.length - UTFMax)) (b.length - UTFMax) b.length)

/-- Source `writeData`, the loop `for len(data) > 0`. The sink `write` stands
for `win.Write("data", ·)`: from its state and the bytes it is given it
returns its new state, the count `n` and the error. The loop need not end (a
sink may return `n = 0` for ever): the outcome is `none` when `fuel` iterations
have not ended it; the state of the sink is returned in every case. The
slice `data[n:]` panics when `n` is not between 0 and `len(data)`. -/
def writeDataLoop {σ : Type} (write : σ → Bytes → σ × Int × Option GoError) :
    Nat → Bytes → σ → σ × Option (Res (Option GoError))
  | 0, _, st => (st, none)
  | fuel + 1, data, st =>
    if data.length > 0 then
      match write st (if data.length > 8000 then trimIncompleteRune (data.take 8000) else data) with
      | (st1, _, some err) => (st1, some (.val (some err)))
      | (st1, n, none) =>
        if n < 0 ∨ (data.length : Int) < n then
          (st1, some (.panic (.other "slice bounds out of range")))
        else writeDataLoop write fuel (data.drop n.toNat) st1
    else (st, some (.val none))

/-- Source `writeData`: the final state of the sink and the returned error
(`none` is `nil`), or no outcome when the loop has not ended within `fuel`
iterations. -/
def writeData {σ : Type} (write : σ → Bytes → σ × Int × Option GoError) (fuel : Nat)
    (data : Bytes) (st : σ) : σ × Option (Res (Option GoError)) :=
  if data.length = 0 then
    match write st [] with
    | (st1, _, err) => (st1, some (.val err))
  else writeDataLoop write fuel data st

/-- The sink `write` observed: its state is paired with the list of the byte
chunks written so far, oldest first. -/
def recordingWrites {σ : Type} (write : σ → Bytes → σ × Int × Option GoError) :
    σ × List Bytes → Bytes → (σ × List Bytes) × Int × Option GoError :=
  fun st d => (((write st.1 d).1, st.2 ++ [d]), (write st.1 d).2)

/-- A sink without state that accepts every write in full. -/
def acceptAll : Unit → Bytes → Unit × Int × Option GoError := fun _ d => ((), d.length, none)

/-! ## Valid UTF-8 text -/

/-- A continuation byte of UTF-8, `0x80` to `0xBF`. -/
def IsCont (b : UInt8) : Prop := 0x80 ≤ b.toNat ∧ b.toNat ≤ 0xBF

/-- The well-formed UTF-8 encodings of one character (the Unicode Standard,
table 3-7): one byte up to `0x7F`, or a leading byte followed by one, two or
three continuation bytes, the second byte restricted after `0xE0`, `0xED`,
`0xF0` and `0xF4`. -/
def IsEncoding : Bytes → Prop
  | [b0] => b0.toNat ≤ 0x7F
  | [b0, b1] => 0xC2 ≤ b0.toNat ∧ b0.toNat ≤ 0xDF ∧ IsCont b1
  | [b0, b1, b2] =>
    ((b0.toNat = 0xE0 ∧ 0xA0 ≤ b1.toNat ∧ b1.toNat ≤ 0xBF) ∨
      (0xE1 ≤ b0.toNat ∧ b0.toNat ≤ 0xEC ∧ IsCont b1) ∨
      (b0.toNat = 0xED ∧ 0x80 ≤ b1.toNat ∧ b1.toNat ≤ 0x9F) ∨
      (0xEE ≤ b0.toNat ∧ b0.toNat ≤ 0xEF ∧ IsCont b1)) ∧ IsCont b2
  | [b0, b1, b2, b3] =>
    ((b0.toNat = 0xF0 ∧ 0x90 ≤ b1.toNat ∧ b1.toNat ≤ 0xBF) ∨
      (0xF1 ≤ b0.toNat ∧ b0.toNat ≤ 0xF3 ∧ IsCont b1) ∨
      (b0.toNat = 0xF4 ∧ 0x80 ≤ b1.toNat ∧ b1.toNat ≤ 0x8F)) ∧ IsCont b2 ∧ IsCont b3
  | _ => False

/-- Valid UTF-8 text: the encodings of a sequence of characters, one after
the other. -/
def ValidUTF8 (b : Bytes) : Prop := ∃ cs : List Bytes, (∀ c ∈ cs, IsEncoding c) ∧ b = cs.flatten

/-- An incomplete character: a non-empty proper initial part of the encoding
of one character. -/
def IsIncomplete (p : Bytes) : Prop := p ≠ [] ∧ ∃ q, q ≠ [] ∧ IsEncoding (p ++ q)

/-- The bytes end on an incomplete character. -/
def EndsIncomplete (w : Bytes) : Prop := ∃ u p, w = u ++ p ∧ IsIncomplete p

/-! # Proofs -/

/-! ## Machine integers and decimal numbers -/


theorem wrapInt_of_range (x : Int) (h1 : minInt ≤ x) (h2 : x ≤ maxInt) : wrapInt x = x := by
  unfold wrapInt; unfold minInt at h1; unfold maxInt at h2; omega

theorem toNat_digitByte (d : Nat) (h : d < 10) : (UInt8.ofNat (48 + d)).toNat = 48 + d := by
  apply UInt8.toNat_ofNat_of_lt
  show 48 + d < 256
  omega

theorem isDigit_digitByte (d : Nat) (h : d < 10) : isDigit (UInt8.ofNat (48 + d)) = true := by
  simp only [isDigit, toNat_digitByte d h]
  simp; omega

theorem digitsVal_append_singleton (ds : Bytes) (b : UInt8) :
    digitsVal (ds ++ [b]) = 10 * digitsVal ds + (b.toNat - 48) := by
  simp [digitsVal, List.foldl_append]

theorem natDigits_spec (fuel : Nat) : ∀ (n : Nat) (acc : Bytes), n < fuel →
    ∃ ds : Bytes, natDigits fuel n acc = ds ++ acc ∧ ds ≠ [] ∧ (∀ b ∈ ds, isDigit b = true) ∧
      digitsVal ds = n := by
  induction fuel with
  | zero => intro n acc h; omega
  | succ fuel ih =>
    intro n acc h
    by_cases h0 : n / 10 = 0
    · refine ⟨[UInt8.ofNat (48 + n % 10)], ?_, by simp, ?_, ?_⟩
      · simp [natDigits, h0]
      · intro b hb
        simp only [List.mem_singleton] at hb
        subst hb
        exact isDigit_digitByte _ (Nat.mod_lt _ (by decide))
      · simp only [digitsVal, List.foldl_cons, List.foldl_nil]
        rw [toNat_digitByte _ (Nat.mod_lt _ (by decide))]
        omega
    · obtain ⟨ds, h1, _, h3, h4⟩ := ih (n / 10) (UInt8.ofNat (48 + n % 10) :: acc) (by omega)
      refine ⟨ds ++ [UInt8.ofNat (48 + n % 10)], ?_, by simp, ?_, ?_⟩
      · simp [natDigits, h0, h1]
      · intro b hb
        rcases List.mem_append.1 hb with hb | hb
        · exact h3 b hb
        · simp only [List.mem_singleton] at hb
          subst hb
          exact isDigit_digitByte _ (Nat.mod_lt _ (by decide))
      · rw [digitsVal_append_singleton, h4, toNat_digitByte _ (Nat.mod_lt _ (by decide))]
        omega

theorem fmtNat_spec (n : Nat) :
    fmtNat n ≠ [] ∧ (∀ b ∈ fmtNat n, isDigit b = true) ∧ digitsVal (fmtNat n) = n := by
  obtain ⟨ds, h1, h2, h3, h4⟩ := natDigits_spec (n + 1) n [] (by omega)
  simp only [List.append_nil] at h1
  unfold fmtNat
  rw [h1]
  exact ⟨h2, h3, h4⟩

/-! ## The header pattern -/

theorem isDigit_false_of_lt (c : UInt8) (h : c.toNat < 48) : isDigit c = false := by
  simp [isDigit]; omega

theorem isDigit_false_of_gt (c : UInt8) (h : 57 < c.toNat) : isDigit c = false := by
  simp [isDigit]; omega

theorem isDigit_comma : isDigit 44 = false := by decide

theorem isDigit_op (o : UInt8) (h : IsOp o) : isDigit o = false := by
  rcases h with h | h | h <;> subst h <;> decide

theorem span_digits (d rest : Bytes) (hd : ∀ b ∈ d, isDigit b = true)
    (hr : ∀ c t, rest = c :: t → isDigit c = false) :
    (d ++ rest).span isDigit = (d, rest) := by
  rw [List.span_eq_take_drop, List.takeWhile_append_of_pos hd, List.dropWhile_append_of_pos hd]
  cases rest with
  | nil => simp
  | cons c t =>
    have := hr c t rfl
    simp [List.takeWhile_cons, List.dropWhile_cons, this]

theorem span_digits_fst (s : Bytes) : ∀ b ∈ (s.span isDigit).1, isDigit b = true := by
  intro b hb
  rw [List.span_eq_take_drop] at hb
  exact List.mem_takeWhile_imp hb

theorem span_digits_append (s : Bytes) : (s.span isDigit).1 ++ (s.span isDigit).2 = s := by
  rw [List.span_eq_take_drop]
  exact List.takeWhile_append_dropWhile _ _

theorem optGroup_cons (c : UInt8) (t : Bytes) : optGroup (c :: t) =
    if c = 44 ∧ (t.span isDigit).1 ≠ [] then
      (c :: (t.span isDigit).1, (t.span isDigit).1, (t.span isDigit).2)
    else ([], [], c :: t) := rfl

theorem optGroup_optPart (d2 : Option Bytes) (rest : Bytes) (h2 : ∀ d, d2 = some d → IsDigits d)
    (hr : ∀ c t, rest = c :: t → isDigit c = false ∧ c ≠ 44) :
    optGroup (optPart d2 ++ rest) = (optPart d2, d2.getD [], rest) := by
  cases d2 with
  | none =>
    cases rest with
    | nil => rfl
    | cons c t =>
      have := (hr c t rfl).2
      simp [optPart, optGroup, this]
  | some d =>
    obtain ⟨hne, hd⟩ := h2 d rfl
    have hs := span_digits d rest hd (fun c t h => (hr c t h).1)
    rw [optPart, List.cons_append, optGroup_cons, hs, if_pos ⟨rfl, hne⟩]
    rfl

theorem optGroup_spec (s : Bytes) : ∃ d2 : Option Bytes, (∀ d, d2 = some d → IsDigits d) ∧
    (optGroup s).1 = optPart d2 ∧ (optGroup s).2.1 = d2.getD [] ∧
    s = optPart d2 ++ (optGroup s).2.2 := by
  cases s with
  | nil => exact ⟨none, by simp, rfl, rfl, rfl⟩
  | cons c t =>
    by_cases h : c = 44 ∧ (t.span isDigit).1 ≠ []
    · rw [optGroup_cons, if_pos h]
      obtain ⟨rfl, hne⟩ := h
      refine ⟨some (t.span isDigit).1, ?_, rfl, rfl, ?_⟩
      · intro d hd
        cases hd
        exact ⟨hne, span_digits_fst t⟩
      · simp only [optPart, List.cons_append, span_digits_append]
    · rw [optGroup_cons, if_neg h]
      exact ⟨none, by simp, rfl, rfl, rfl⟩

theorem cmdPatFind_headerLine (d1 : Bytes) (d2 : Option Bytes) (o : UInt8) (d3 : Bytes)
    (d4 : Option Bytes) (h1 : IsDigits d1) (h2 : ∀ d, d2 = some d → IsDigits d) (ho : IsOp o)
    (h3 : IsDigits d3) (h4 : ∀ d, d4 = some d → IsDigits d) :
    cmdPatFind (headerLine d1 d2 o d3 d4) =
      [headerLine d1 d2 o d3 d4, d1, optPart d2, d2.getD [], [o], d3, optPart d4, d4.getD []] := by
  have hoc : o ≠ 44 := by rcases ho with h | h | h <;> subst h <;> decide
  have e1 : (headerLine d1 d2 o d3 d4).span isDigit = (d1, optPart d2 ++ o :: (d3 ++ optPart d4)) := by
    unfold headerLine
    rw [List.append_assoc]
    apply span_digits d1 _ h1.2
    intro c t hct
    cases d2 with
    | none => simp only [optPart, List.nil_append, List.cons.injEq] at hct; rw [← hct.1]; exact isDigit_op o ho
    | some d => simp only [optPart, List.cons_append, List.cons.injEq] at hct; rw [← hct.1]; exact isDigit_comma
  have e2 : optGroup (optPart d2 ++ o :: (d3 ++ optPart d4)) = (optPart d2, d2.getD [], o :: (d3 ++ optPart d4)) := by
    apply optGroup_optPart d2 _ h2
    intro c t hct
    simp only [List.cons.injEq] at hct
    rw [← hct.1]
    exact ⟨isDigit_op o ho, hoc⟩
  have e3 : (d3 ++ optPart d4).span isDigit = (d3, optPart d4) := by
    apply span_digits d3 _ h3.2
    intro c t hct
    cases d4 with
    | none => simp [optPart] at hct
    | some d => simp only [optPart, List.cons.injEq] at hct; rw [← hct.1]; exact isDigit_comma
  have e4 : optGroup (optPart d4) = (optPart d4, d4.getD [], []) := by
    have := optGroup_optPart d4 [] h4 (by intro c t h; cases h)
    simpa using this
  unfold cmdPatFind
  rw [e1]
  simp only [e2, e3, e4]
  have ho2 : o = 97 ∨ o = 99 ∨ o = 100 := ho
  rw [if_neg h1.1]
  simp only [if_pos ho2, if_neg h3.1, if_true]

theorem cmdPatFind_grammar (cmd : Bytes) (h : cmdPatFind cmd ≠ []) : HeaderGrammar cmd := by
  unfold cmdPatFind at h
  by_cases h1 : (cmd.span isDigit).1 = []
  · rw [if_pos h1] at h
    exact absurd rfl h
  · rw [if_neg h1] at h
    obtain ⟨d2, hd2, -, -, e2⟩ := optGroup_spec (cmd.span isDigit).2
    cases hr : (optGroup (cmd.span isDigit).2).2.2 with
    | nil =>
      rw [hr] at h
      exact absurd rfl h
    | cons o r3 =>
      rw [hr] at h e2
      dsimp only at h
      by_cases ho : o = 97 ∨ o = 99 ∨ o = 100
      · rw [if_pos ho] at h
        by_cases h3 : (r3.span isDigit).1 = []
        · rw [if_pos h3] at h
          exact absurd rfl h
        · rw [if_neg h3] at h
          obtain ⟨d4, hd4, -, -, e4⟩ := optGroup_spec (r3.span isDigit).2
          by_cases h5 : (optGroup (r3.span isDigit).2).2.2 = []
          · rw [h5, List.append_nil] at e4
            refine ⟨(cmd.span isDigit).1, d2, o, (r3.span isDigit).1, d4,
              ⟨h1, span_digits_fst cmd⟩, hd2, ho, ⟨h3, span_digits_fst r3⟩, hd4, ?_⟩
            unfold headerLine
            rw [← e4, span_digits_append r3, List.append_assoc, ← e2, span_digits_append cmd]
          · rw [if_neg h5] at h
            exact absurd rfl h
      · rw [if_neg ho] at h
        exact absurd rfl h

/-! ## Parsing a header -/

theorem atoiDigits_of_isDigits (d : Bytes) (h : IsDigits d) :
    atoiDigits false d = if (digitsVal d : Int) ≤ maxInt then some (digitsVal d : Int) else none := by
  have hall : d.all isDigit = true := List.all_eq_true.2 h.2
  unfold atoiDigits
  rw [if_neg (by rw [hall]; simp [h.1])]
  simp

theorem strconvAtoi_of_isDigits (d : Bytes) (h : IsDigits d) :
    strconvAtoi d = if (digitsVal d : Int) ≤ maxInt then some (digitsVal d : Int) else none := by
  cases d with
  | nil => exact absurd rfl h.1
  | cons b t =>
    have hb : isDigit b = true := h.2 b (List.mem_cons_self _ _)
    have h43 : b ≠ 43 := by intro e; subst e; revert hb; decide
    have h45 : b ≠ 45 := by intro e; subst e; revert hb; decide
    unfold strconvAtoi
    dsimp only
    rw [if_neg h43, if_neg h45]
    exact atoiDigits_of_isDigits _ h

theorem atoi_of_isDigits (d : Bytes) (h : IsDigits d) (hr : (digitsVal d : Int) ≤ maxInt) :
    atoi d = .val (digitsVal d : Int) := by
  unfold atoi
  rw [strconvAtoi_of_isDigits d h, if_pos hr]

theorem atoi_of_large (d : Bytes) (h : IsDigits d) (hr : maxInt < (digitsVal d : Int)) :
    atoi d = .panic (.Errorf "unexpected bad number %q" [d]) := by
  unfold atoi
  rw [strconvAtoi_of_isDigits d h, if_neg (by omega)]

theorem parseDiffOp_headerLine (d1 : Bytes) (d2 : Option Bytes) (o : UInt8) (d3 : Bytes)
    (d4 : Option Bytes) (h1 : IsDigits d1) (h2 : ∀ d, d2 = some d → IsDigits d) (ho : IsOp o)
    (h3 : IsDigits d3) (h4 : ∀ d, d4 = some d → IsDigits d)
    (r1 : (digitsVal d1 : Int) ≤ maxInt) (r2 : ∀ d, d2 = some d → (digitsVal d : Int) ≤ maxInt)
    (r3 : (digitsVal d3 : Int) ≤ maxInt) (r4 : ∀ d, d4 = some d → (digitsVal d : Int) ≤ maxInt) :
    parseDiffOp (headerLine d1 d2 o d3 d4) =
      .val (⟨(digitsVal d1 : Int), ((d2.map digitsVal).getD (digitsVal d1) : Nat),
        (digitsVal d3 : Int), ((d4.map digitsVal).getD (digitsVal d3) : Nat), o⟩, none) := by
  unfold parseDiffOp
  rw [cmdPatFind_headerLine d1 d2 o d3 d4 h1 h2 ho h3 h4]
  simp only [List.length_cons, List.length_nil, List.getD_cons_succ, List.getD_cons_zero,
    List.headD_cons]
  rw [if_neg (by omega), atoi_of_isDigits d1 h1 r1, atoi_of_isDigits d3 h3 r3]
  cases d2 with
  | none =>
    cases d4 with
    | none => simp
    | some e4 =>
      have := atoi_of_isDigits e4 (h4 e4 rfl) (r4 e4 rfl)
      simp [(h4 e4 rfl).1, this]
  | some e2 =>
    have a2 := atoi_of_isDigits e2 (h2 e2 rfl) (r2 e2 rfl)
    cases d4 with
    | none => simp [(h2 e2 rfl).1, a2]
    | some e4 =>
      have := atoi_of_isDigits e4 (h4 e4 rfl) (r4 e4 rfl)
      simp [(h4 e4 rfl).1, this, (h2 e2 rfl).1, a2]

theorem isDigits_fmtNat (n : Nat) : IsDigits (fmtNat n) :=
  ⟨(fmtNat_spec n).1, (fmtNat_spec n).2.1⟩

theorem digitsVal_fmtNat (n : Nat) : digitsVal (fmtNat n) = n := (fmtNat_spec n).2.2

/-- C5. Header parsing: for non-negative integers `L1`, `L2`, `L3`, `L4` that
fit in a Go `int` and an operation letter among `a`, `c`, `d`, `parseDiffOp`
on the line written as decimal `L1`, optional `,L2`, the letter, decimal `L3`,
optional `,L4` returns, without error, the descriptor with `n1 = L1`,
`n3 = L3`, that operation, `n2 = L2` when `,L2` is present and `L1` when it
is omitted, `n4 = L4` when `,L4` is present and `L3` when it is omitted. -/
theorem parseDiffOp_decimalHeader (L1 : Nat) (L2 : Option Nat) (o : UInt8) (L3 : Nat)
    (L4 : Option Nat) (ho : IsOp o) (r1 : (L1 : Int) ≤ maxInt)
    (r2 : ∀ v, L2 = some v → (v : Int) ≤ maxInt) (r3 : (L3 : Int) ≤ maxInt)
    (r4 : ∀ v, L4 = some v → (v : Int) ≤ maxInt) :
    parseDiffOp (decimalHeader L1 L2 o L3 L4) =
      .val (⟨(L1 : Int), ((L2.getD L1 : Nat) : Int), (L3 : Int), ((L4.getD L3 : Nat) : Int), o⟩,
        none) := by
  unfold decimalHeader
  rw [parseDiffOp_headerLine (fmtNat L1) (L2.map fmtNat) o (fmtNat L3) (L4.map fmtNat)
    (isDigits_fmtNat L1) ?h2 ho (isDigits_fmtNat L3) ?h4 ?r1 ?r2 ?r3 ?r4]
  · rw [digitsVal_fmtNat, digitsVal_fmtNat]
    cases L2 <;> cases L4 <;> simp [digitsVal_fmtNat]
  case h2 => intro d hd; cases L2 <;> simp at hd; subst hd; exact isDigits_fmtNat _
  case h4 => intro d hd; cases L4 <;> simp at hd; subst hd; exact isDigits_fmtNat _
  case r1 => rw [digitsVal_fmtNat]; exact r1
  case r3 => rw [digitsVal_fmtNat]; exact r3
  case r2 =>
    intro d hd; cases L2 <;> simp at hd; subst hd; rw [digitsVal_fmtNat]; exact r2 _ rfl
  case r4 =>
    intro d hd; cases L4 <;> simp at hd; subst hd; rw [digitsVal_fmtNat]; exact r4 _ rfl

theorem parseDiffOp_decimalHeader_witness :
    parseDiffOp (decimalHeader 12 (some 34) 100 5 none) = .val (⟨12, 34, 5, 5, 100⟩, none) :=
  parseDiffOp_decimalHeader 12 (some 34) 100 5 none (Or.inr (Or.inr rfl)) (by decide)
    (by intro v hv; cases hv; decide) (by decide) (by intro v hv; cases hv)

/-! ## The loop of `apply`: fuel -/

theorem eatLinesLoop_length (pfx : Bytes) (n : Int) (ls : List Bytes) :
    ∀ i, (eatLinesLoop pfx n i ls).1.length ≤ ls.length := by
  induction ls with
  | nil => intro i; unfold eatLinesLoop; split <;> simp
  | cons l ls ih =>
    intro i
    unfold eatLinesLoop
    split
    · split
      · exact Nat.le_succ_of_le (ih _)
      · simp
    · simp

theorem addedLoop_length (n4 : Int) (ls : List Bytes) :
    ∀ i buf, (addedLoop n4 i ls buf).1.length ≤ ls.length := by
  induction ls with
  | nil => intro i buf; unfold addedLoop; split <;> simp
  | cons l ls ih =>
    intro i buf
    unfold addedLoop
    split
    · split
      · exact Nat.le_succ_of_le (ih _ _)
      · simp
    · simp

theorem hunkBody_length (op : diffOp) (scan : List Bytes) :
    (hunkBody op scan).1.length ≤ scan.length := by
  have e1 : ∀ (c : Prop) [Decidable c] (s : List Bytes) (p : Bytes) (n : Int),
      (if c then eatLines s p n else (s, none)).1.length ≤ s.length := by
    intro c _ s p n
    split
    · exact eatLinesLoop_length _ _ _ _
    · exact Nat.le_refl _
  unfold hunkBody
  have h1 := e1 (op.op = 99 ∨ op.op = 100) scan (ascii "< ") (iadd (isub op.n2 op.n1) 1)
  split
  · rename_i scan1 err heq
    rw [heq] at h1; exact h1
  · rename_i scan1 heq
    rw [heq] at h1
    have h2 := e1 (op.op = 99) scan1 (ascii "---") 1
    split
    · rename_i scan2 err heq2
      rw [heq2] at h2; exact Nat.le_trans h2 h1
    · rename_i scan2 heq2
      rw [heq2] at h2
      split
      · exact Nat.le_trans (addedLoop_length _ _ _ _) (Nat.le_trans h2 h1)
      · exact Nat.le_trans h2 h1

theorem applyLoop_fuel {σ : Type} (edit : σ → Bytes → Bytes → σ × Option GoError) :
    ∀ (f1 f2 : Nat) (ls : List Bytes) (off : Int) (st : σ), ls.length < f1 → ls.length < f2 →
      applyLoop edit f1 ls off st = applyLoop edit f2 ls off st := by
  intro f1
  induction f1 with
  | zero => intro f2 ls off st h; omega
  | succ f1 ih =>
    intro f2 ls off st h1 h2
    cases f2 with
    | zero => omega
    | succ f2 =>
      cases ls with
      | nil => rfl
      | cons cmd scan =>
        simp only [applyLoop]
        split
        · rfl
        · rfl
        · rename_i op hp
          have hl := hunkBody_length op scan
          split
          · rfl
          · rename_i scan1 buf hb
            rw [hb] at hl
            simp only [List.length_cons] at h1 h2
            split
            · rfl
            · split
              · rfl
              · exact ih f2 scan1 _ _ (by simp at hl; omega) (by simp at hl; omega)

theorem applyLoop_isSome {σ : Type} (edit : σ → Bytes → Bytes → σ × Option GoError) :
    ∀ (f : Nat) (ls : List Bytes) (off : Int) (st : σ), ls.length < f →
      (applyLoop edit f ls off st).isSome = true := by
  intro f
  induction f with
  | zero => intro ls off st h; omega
  | succ f ih =>
    intro ls off st h
    cases ls with
    | nil => rfl
    | cons cmd scan =>
      simp only [applyLoop]
      split
      · rfl
      · rfl
      · rename_i op hp
        have hl := hunkBody_length op scan
        split
        · rfl
        · rename_i scan1 buf hb
          rw [hb] at hl
          simp only [List.length_cons] at h
          split
          · rfl
          · split
            · rfl
            · exact ih scan1 _ _ (by simp at hl; omega)

/-! ## The loop of `apply`: a stream continued -/

theorem eatLinesLoop_append (pfx : Bytes) (n : Int) (post : List Bytes) (ls : List Bytes) :
    ∀ i ls1, eatLinesLoop pfx n i ls = (ls1, none) →
      eatLinesLoop pfx n i (ls ++ post) = (ls1 ++ post, none) := by
  induction ls with
  | nil =>
    intro i ls1 h
    unfold eatLinesLoop at h
    by_cases hi : i < n
    · rw [if_pos hi] at h; cases h
    · rw [if_neg hi] at h
      cases h
      cases post with
      | nil => simp only [List.append_nil]; unfold eatLinesLoop; rw [if_neg hi]
      | cons p ps => simp only [List.nil_append]; unfold eatLinesLoop; rw [if_neg hi]
  | cons l ls ih =>
    intro i ls1 h
    simp only [List.cons_append]
    unfold eatLinesLoop at h ⊢
    by_cases hi : i < n
    · rw [if_pos hi] at h ⊢
      by_cases hp : HasPrefix l pfx = true
      · rw [if_pos hp] at h ⊢
        exact ih _ _ h
      · rw [if_neg hp] at h; cases h
    · rw [if_neg hi] at h ⊢
      cases h
      rfl

theorem addedLoop_append (n4 : Int) (post : List Bytes) (ls : List Bytes) :
    ∀ i buf ls1 buf1, addedLoop n4 i ls buf = (ls1, buf1, none) →
      addedLoop n4 i (ls ++ post) buf = (ls1 ++ post, buf1, none) := by
  induction ls with
  | nil =>
    intro i buf ls1 buf1 h
    unfold addedLoop at h
    by_cases hi : i ≤ n4
    · rw [if_pos hi] at h; cases h
    · rw [if_neg hi] at h
      cases h
      cases post with
      | nil => simp only [List.append_nil]; unfold addedLoop; rw [if_neg hi]
      | cons p ps => simp only [List.nil_append]; unfold addedLoop; rw [if_neg hi]
  | cons l ls ih =>
    intro i buf ls1 buf1 h
    simp only [List.cons_append]
    unfold addedLoop at h ⊢
    by_cases hi : i ≤ n4
    · rw [if_pos hi] at h ⊢
      by_cases hp : HasPrefix l (ascii "> ") = true
      · rw [if_pos hp] at h ⊢
        exact ih _ _ _ _ h
      · rw [if_neg hp] at h; cases h
    · rw [if_neg hi] at h ⊢
      cases h
      rfl

theorem hunkBody_append (op : diffOp) (scan post scan1 : List Bytes) (buf : Bytes)
    (h : hunkBody op scan = (scan1, buf, none)) :
    hunkBody op (scan ++ post) = (scan1 ++ post, buf, none) := by
  have e1 : ∀ (c : Prop) [Decidable c] (s s1 : List Bytes) (p : Bytes) (n : Int),
      (if c then eatLines s p n else (s, none)) = (s1, none) →
      (if c then eatLines (s ++ post) p n else (s ++ post, none)) = (s1 ++ post, none) := by
    intro c _ s s1 p n hh
    by_cases hc : c
    · rw [if_pos hc] at hh ⊢
      exact eatLinesLoop_append _ _ _ _ _ _ hh
    · rw [if_neg hc] at hh ⊢
      cases hh; rfl
  unfold hunkBody at h ⊢
  split at h
  · cases h
  · rename_i sA hA
    rw [e1 _ _ _ _ _ hA]
    dsimp only
    split at h
    · cases h
    · rename_i sB hB
      rw [e1 _ _ _ _ _ hB]
      dsimp only
      by_cases hd : op.op ≠ 100
      · rw [if_pos hd] at h ⊢
        exact addedLoop_append _ _ _ _ _ _ _ h
      · rw [if_neg hd] at h ⊢
        cases h; rfl

theorem applyLoop_cons {σ : Type} (edit : σ → Bytes → Bytes → σ × Option GoError) (fuel : Nat)
    (cmd : Bytes) (scan : List Bytes) (offset : Int) (st : σ) :
    applyLoop edit (fuel + 1) (cmd :: scan) offset st =
      match parseDiffOp cmd with
      | .panic v => some (st, .panic v)
      | .val (_, some err) => some (st, .val (some err))
      | .val (op, none) =>
        match hunkBody op scan with
        | (_, _, some err) => some (st, .val (some err))
        | (scan1, buf, none) =>
          match hunkAddr op offset with
          | (_, some err) => some (st, .val (some err))
          | (addr, none) =>
            match edit st addr buf with
            | (st1, some err) => some (st1, .val (some err))
            | (st1, none) => applyLoop edit fuel scan1 (nextOffset op offset) st1 := rfl

theorem applyLoop_append {σ : Type} (edit : σ → Bytes → Bytes → σ × Option GoError) :
    ∀ (f : Nat) (pre : List Bytes) (off : Int) (st st1 : σ), pre.length < f →
      applyLoop edit f pre off st = some (st1, .val none) →
      ∃ off1 : Int, ∀ (post : List Bytes) (f2 : Nat), (pre ++ post).length < f2 →
        applyLoop edit f2 (pre ++ post) off st = applyLoop edit (post.length + 1) post off1 st1 := by
  intro f
  induction f with
  | zero => intro pre off st st1 h; omega
  | succ f ih =>
    intro pre off st st1 hlen h
    cases pre with
    | nil =>
      cases h
      refine ⟨off, ?_⟩
      intro post f2 hf2
      exact applyLoop_fuel edit _ _ _ _ _ hf2 (Nat.lt_succ_self _)
    | cons cmd scan =>
      simp only [applyLoop] at h
      split at h
      · cases h
      · cases h
      · rename_i op hp
        split at h
        · cases h
        · rename_i scan1 buf hb
          split at h
          · cases h
          · rename_i addr ha
            split at h
            · cases h
            · rename_i st2 he
              have hl := hunkBody_length op scan
              rw [hb] at hl
              simp only [List.length_cons] at hlen
              obtain ⟨off1, hoff⟩ := ih scan1 _ st2 st1 (by simp at hl; omega) h
              refine ⟨off1, ?_⟩
              intro post f2 hf2
              cases f2 with
              | zero => omega
              | succ f2 =>
                rw [List.cons_append, applyLoop_cons, hp]
                dsimp only
                rw [hunkBody_append op scan post scan1 buf hb]
                dsimp only
                rw [ha]
                dsimp only
                rw [he]
                dsimp only
                apply hoff
                simp only [List.cons_append, List.length_cons, List.length_append] at hf2
                simp only [List.length_append]
                simp at hl
                omega

/-! ## Lines that are not headers -/

theorem headerGrammar_cmdPatFind (cmd : Bytes) (h : HeaderGrammar cmd) : cmdPatFind cmd ≠ [] := by
  obtain ⟨d1, d2, o, d3, d4, h1, h2, ho, h3, h4, rfl⟩ := h
  rw [cmdPatFind_headerLine d1 d2 o d3 d4 h1 h2 ho h3 h4]
  exact List.cons_ne_nil _ _

theorem parseDiffOp_of_not_grammar (cmd : Bytes) (h : ¬ HeaderGrammar cmd) :
    parseDiffOp cmd = .val (diffOp.zero, some (.Errorf "%q is not a valid diff operation" [cmd])) := by
  have e : cmdPatFind cmd = [] := by
    by_contra hne
    exact h (cmdPatFind_grammar cmd hne)
  unfold parseDiffOp
  rw [e]
  rfl

theorem parseDiffOp_error_not_grammar (cmd : Bytes) (op : diffOp) (e : GoError)
    (h : parseDiffOp cmd = .val (op, some e)) : ¬ HeaderGrammar cmd := by
  intro hg
  have hne := headerGrammar_cmdPatFind cmd hg
  unfold parseDiffOp at h
  have hl : ¬ (cmdPatFind cmd).length = 0 := by
    intro h0; exact hne (List.length_eq_zero.1 h0)
  simp only [if_neg hl] at h
  split at h
  · cases h
  · split at h
    · cases h
    · split at h
      · cases h
      · split at h
        · cases h
        · cases h

theorem apply_after {σ : Type} (edit : σ → Bytes → Bytes → σ × Option GoError) (r0 r : Reader)
    (st st1 : σ) (post : List Bytes) (h0 : apply r0 edit st = some (st1, .val none))
    (hr : NewScanner r = NewScanner r0 ++ post) :
    ∃ off1 : Int, apply r edit st = applyLoop edit (post.length + 1) post off1 st1 := by
  unfold apply at h0 ⊢
  obtain ⟨off1, h⟩ := applyLoop_append edit _ _ _ _ _ (Nat.lt_succ_self _) h0
  refine ⟨off1, ?_⟩
  rw [hr]
  exact h post _ (Nat.lt_succ_self _)

/-- C6. Invalid header rejection: `parseDiffOp` returns an error exactly when
the line does not match the grammar `digits ["," digits] (a|c|d) digits
["," digits]` with nothing before, between or after, as it does on `abc`, the
empty line, `2 c 2`, `2x2` and `-1d1`; and when `apply` meets such a line
where a header is expected, after a stream `r0` it has applied in full, it
returns that error and leaves the edit sink in the state `st1` it was in after
`r0`, so the sink is invoked neither for that line nor for anything after
it. -/
theorem parseDiffOp_error_iff :
    (∀ cmd : Bytes, (∃ op e, parseDiffOp cmd = .val (op, some e)) ↔ ¬ HeaderGrammar cmd) ∧
    (∀ cmd ∈ [ascii "abc", ascii "", ascii "2 c 2", ascii "2x2", ascii "-1d1"],
      parseDiffOp cmd =
        .val (diffOp.zero, some (.Errorf "%q is not a valid diff operation" [cmd]))) ∧
    (∀ (σ : Type) (edit : σ → Bytes → Bytes → σ × Option GoError) (r0 r : Reader) (st st1 : σ)
      (cmd : Bytes) (rest : List Bytes) (op : diffOp) (e : GoError),
      apply r0 edit st = some (st1, .val none) →
      NewScanner r = NewScanner r0 ++ cmd :: rest →
      parseDiffOp cmd = .val (op, some e) →
      apply r edit st = some (st1, .val (some e))) := by
  refine ⟨?_, by decide, ?_⟩
  · intro cmd
    constructor
    · rintro ⟨op, e, h⟩
      exact parseDiffOp_error_not_grammar cmd op e h
    · intro h
      exact ⟨_, _, parseDiffOp_of_not_grammar cmd h⟩
  · intro σ edit r0 r st st1 cmd rest op e h0 hr hp
    obtain ⟨off1, h⟩ := apply_after edit r0 r st st1 (cmd :: rest) h0 hr
    rw [h, List.length_cons, applyLoop_cons, hp]

theorem parseDiffOp_error_iff_witness :
    apply ⟨ascii "2c2\n< bar\n---\n> BAR\nabc\n3a4\n> qux\n", none⟩ (recording okSink) ((), []) =
      some (((), [⟨ascii "2", ascii "BAR\n", none⟩]),
        .val (some (.Errorf "%q is not a valid diff operation" [ascii "abc"]))) :=
  parseDiffOp_error_iff.2.2 (Unit × List Call) (recording okSink)
    ⟨ascii "2c2\n< bar\n---\n> BAR\n", none⟩
    ⟨ascii "2c2\n< bar\n---\n> BAR\nabc\n3a4\n> qux\n", none⟩ ((), [])
    ((), [⟨ascii "2", ascii "BAR\n", none⟩]) (ascii "abc") [ascii "3a4", ascii "> qux"] diffOp.zero
    (.Errorf "%q is not a valid diff operation" [ascii "abc"]) (by decide) (by decide) (by decide)

/-! ## The edits do not depend on the sink -/

theorem sinkCompare_nil (res : Res (Option GoError)) : SinkCompare [] res [] res :=
  ⟨rfl, by simp, Or.inl ⟨by simp, rfl, rfl⟩⟩

theorem sinkCompare_fail (addr buf : Bytes) (e : GoError) (ext2 : List Call)
    (res2 : Res (Option GoError)) (h : ∀ c ∈ ext2, c.err = none) :
    SinkCompare [⟨addr, buf, some e⟩] (.val (some e)) (⟨addr, buf, none⟩ :: ext2) res2 := by
  refine ⟨by simp [Call.args], ?_, Or.inr ⟨[], _, e, rfl, by simp, rfl, rfl⟩⟩
  intro c hc
  rcases List.mem_cons.1 hc with hc | hc
  · subst hc; rfl
  · exact h c hc

theorem sinkCompare_cons (addr buf : Bytes) (ext1 ext2 : List Call)
    (res1 res2 : Res (Option GoError)) (h : SinkCompare ext1 res1 ext2 res2) :
    SinkCompare (⟨addr, buf, none⟩ :: ext1) res1 (⟨addr, buf, none⟩ :: ext2) res2 := by
  obtain ⟨h1, h2, h3⟩ := h
  refine ⟨?_, ?_, ?_⟩
  · simp only [List.map_cons, List.length_cons, List.take_succ_cons, h1]
  · intro c hc
    rcases List.mem_cons.1 hc with hc | hc
    · subst hc; rfl
    · exact h2 c hc
  · rcases h3 with ⟨a, b, c⟩ | ⟨init, c, e, a, b, hc, d⟩
    · left
      refine ⟨?_, b, by simp [c]⟩
      intro x hx
      rcases List.mem_cons.1 hx with hx | hx
      · subst hx; rfl
      · exact a x hx
    · right
      refine ⟨⟨addr, buf, none⟩ :: init, c, e, by simp [a], ?_, hc, d⟩
      intro x hx
      rcases List.mem_cons.1 hx with hx | hx
      · subst hx; rfl
      · exact b x hx

theorem applyLoop_two_sinks {σ1 σ2 : Type} (e1 : σ1 → Bytes → Bytes → σ1 × Option GoError)
    (e2 : σ2 → Bytes → Bytes → σ2 × Option GoError) (h2 : ∀ s a d, (e2 s a d).2 = none) :
    ∀ (f : Nat) (ls : List Bytes) (off : Int) (s1 : σ1) (lg1 : List Call) (s2 : σ2)
      (lg2 : List Call), ls.length < f →
      ∃ s1' ext1 res1 s2' ext2 res2,
        applyLoop (recording e1) f ls off (s1, lg1) = some ((s1', lg1 ++ ext1), res1) ∧
        applyLoop (recording e2) f ls off (s2, lg2) = some ((s2', lg2 ++ ext2), res2) ∧
        SinkCompare ext1 res1 ext2 res2 := by
  intro f
  induction f with
  | zero => intro ls off s1 lg1 s2 lg2 h; omega
  | succ f ih =>
    intro ls off s1 lg1 s2 lg2 hlen
    cases ls with
    | nil =>
      exact ⟨s1, [], .val none, s2, [], .val none, by simp [applyLoop], by simp [applyLoop],
        sinkCompare_nil _⟩
    | cons cmd scan =>
      rw [applyLoop_cons, applyLoop_cons]
      rcases hp : parseDiffOp cmd with ⟨op, _ | err⟩ | v
      · dsimp only
        have hl := hunkBody_length op scan
        rcases hb : hunkBody op scan with ⟨scan1, buf, _ | err⟩
        · dsimp only
          rw [hb] at hl
          have hl1 : scan1.length < f := by
            simp only [List.length_cons] at hlen
            simp only at hl
            omega
          rcases ha : hunkAddr op off with ⟨addr, _ | err⟩
          · dsimp only
            have hr2 : recording e2 (s2, lg2) addr buf =
                (((e2 s2 addr buf).1, lg2 ++ [⟨addr, buf, none⟩]), none) := by
              simp only [recording, h2]
            rw [hr2]
            dsimp only
            rcases he : e1 s1 addr buf with ⟨s1a, _ | e⟩
            · have hr1 : recording e1 (s1, lg1) addr buf =
                  ((s1a, lg1 ++ [⟨addr, buf, none⟩]), none) := by
                simp only [recording, he]
              rw [hr1]
              dsimp only
              obtain ⟨s1', ext1, res1, s2', ext2, res2, a1, a2, a3⟩ :=
                ih scan1 (nextOffset op off) s1a (lg1 ++ [⟨addr, buf, none⟩]) (e2 s2 addr buf).1
                  (lg2 ++ [⟨addr, buf, none⟩]) hl1
              refine ⟨s1', ⟨addr, buf, none⟩ :: ext1, res1, s2', ⟨addr, buf, none⟩ :: ext2, res2,
                ?_, ?_, sinkCompare_cons _ _ _ _ _ _ a3⟩
              · rw [a1]; simp
              · rw [a2]; simp
            · have hr1 : recording e1 (s1, lg1) addr buf =
                  ((s1a, lg1 ++ [⟨addr, buf, some e⟩]), some e) := by
                simp only [recording, he]
              rw [hr1]
              dsimp only
              obtain ⟨_, _, _, s2', ext2, res2, _, a2, a3⟩ :=
                ih scan1 (nextOffset op off) s1a (lg1 ++ [⟨addr, buf, none⟩]) (e2 s2 addr buf).1
                  (lg2 ++ [⟨addr, buf, none⟩]) hl1
              refine ⟨s1a, [⟨addr, buf, some e⟩], .val (some e), s2', ⟨addr, buf, none⟩ :: ext2,
                res2, rfl, ?_, sinkCompare_fail _ _ _ _ _ a3.2.1⟩
              rw [a2]; simp
          · exact ⟨s1, [], .val (some err), s2, [], .val (some err), by simp, by simp,
              sinkCompare_nil _⟩
        · exact ⟨s1, [], .val (some err), s2, [], .val (some err), by simp, by simp,
            sinkCompare_nil _⟩
      · exact ⟨s1, [], .val (some err), s2, [], .val (some err), by simp, by simp,
          sinkCompare_nil _⟩
      · exact ⟨s1, [], .panic v, s2, [], .panic v, by simp, by simp, sinkCompare_nil _⟩


theorem apply_two_sinks {σ1 σ2 : Type} (e1 : σ1 → Bytes → Bytes → σ1 × Option GoError)
    (e2 : σ2 → Bytes → Bytes → σ2 × Option GoError) (h2 : ∀ s a d, (e2 s a d).2 = none)
    (r : Reader) (s1 : σ1) (s2 : σ2) :
    ∃ s1' ext1 res1 s2' ext2 res2,
      apply r (recording e1) (s1, []) = some ((s1', ext1), res1) ∧
      apply r (recording e2) (s2, []) = some ((s2', ext2), res2) ∧
      SinkCompare ext1 res1 ext2 res2 := by
  obtain ⟨s1', ext1, res1, s2', ext2, res2, a1, a2, a3⟩ :=
    applyLoop_two_sinks e1 e2 h2 ((NewScanner r).length + 1) (NewScanner r) 0 s1 [] s2 []
      (Nat.lt_succ_self _)
  rw [List.nil_append] at a1 a2
  exact ⟨s1', ext1, res1, s2', ext2, res2, a1, a2, a3⟩

/-- C9. Fail-stop on sink error: if the edit sink returns an error `e` on its
`k`-th invocation, `apply` returns exactly `e`, the sink is invoked exactly
`k` times in total, and the first `k - 1` invocations are the edits issued, in
the same order, to a sink that does not fail. -/
theorem apply_sink_error {σ1 σ2 : Type} (e1 : σ1 → Bytes → Bytes → σ1 × Option GoError)
    (e2 : σ2 → Bytes → Bytes → σ2 × Option GoError) (h2 : ∀ s a d, (e2 s a d).2 = none)
    (r : Reader) (s1 s1' : σ1) (s2 : σ2) (log : List Call) (res : Res (Option GoError))
    (k : Nat) (c : Call) (e : GoError) (hk : 1 ≤ k)
    (hrun : apply r (recording e1) (s1, []) = some ((s1', log), res))
    (hc : log[k - 1]? = some c) (he : c.err = some e) :
    res = .val (some e) ∧ log.length = k ∧
    ∃ s2' log2 res2, apply r (recording e2) (s2, []) = some ((s2', log2), res2) ∧
      (log.map Call.args).take (k - 1) = (log2.map Call.args).take (k - 1) := by
  obtain ⟨t1, ext1, res1, s2', ext2, res2, a1, a2, a3, a4, a5⟩ := apply_two_sinks e1 e2 h2 r s1 s2
  rw [hrun] at a1
  simp only [Option.some.injEq, Prod.mk.injEq] at a1
  obtain ⟨⟨-, rfl⟩, rfl⟩ := a1
  rcases a5 with ⟨b1, -, -⟩ | ⟨init, c', e', b1, b2, b3, b4⟩
  · have := b1 c (List.getElem?_mem hc)
    rw [this] at he
    cases he
  · subst b1
    have hlt : ¬ k - 1 < init.length := by
      intro hlt
      rw [List.getElem?_append_left hlt] at hc
      have := b2 c (List.getElem?_mem hc)
      rw [this] at he
      cases he
    have hlen := (List.getElem?_eq_some.1 hc).1
    simp only [List.length_append, List.length_singleton] at hlen
    have hki : k - 1 = init.length := by omega
    rw [hki, List.getElem?_concat_length] at hc
    cases hc
    rw [b3] at he
    cases he
    refine ⟨b4, by simp only [List.length_append, List.length_singleton]; omega, s2', ext2, res2,
      a2, ?_⟩
    rw [a3, List.take_take]
    congr 1
    simp only [List.length_append, List.length_singleton]
    omega

theorem apply_sink_error_witness :
    apply ⟨ascii "2c2\n< bar\n---\n> BAR\n3a4\n> qux\n5d5\n< x\n", none⟩
        (recording (failingSink 2 (.other "full"))) (0, []) =
      some ((2, [⟨ascii "2", ascii "BAR\n", none⟩,
        ⟨ascii "3+#0", ascii "qux\n", some (.other "full")⟩]), .val (some (.other "full"))) ∧
    ∃ s2' log2 res2,
      apply ⟨ascii "2c2\n< bar\n---\n> BAR\n3a4\n> qux\n5d5\n< x\n", none⟩
        (recording (succeeding (failingSink 2 (.other "full")))) (0, []) =
          some ((s2', log2), res2) ∧
      [(ascii "2", ascii "BAR\n")] = (log2.map Call.args).take 1 :=
  ⟨by decide,
    (apply_sink_error (failingSink 2 (.other "full"))
      (succeeding (failingSink 2 (.other "full"))) (fun _ _ _ => rfl)
      ⟨ascii "2c2\n< bar\n---\n> BAR\n3a4\n> qux\n5d5\n< x\n", none⟩
      0 2 0 [⟨ascii "2", ascii "BAR\n", none⟩, ⟨ascii "3+#0", ascii "qux\n", some (.other "full")⟩]
      (.val (some (.other "full"))) 2 ⟨ascii "3+#0", ascii "qux\n", some (.other "full")⟩
      (.other "full") (by decide) (by decide) (by decide) rfl).2.2⟩

/-! ## The loops over the lines of a block -/

theorem wrapInt_inRange (x : Int) : minInt ≤ wrapInt x ∧ wrapInt x ≤ maxInt := by
  unfold wrapInt minInt maxInt; omega

theorem iadd_of_range (a b : Int) (h1 : minInt ≤ a + b) (h2 : a + b ≤ maxInt) : iadd a b = a + b :=
  wrapInt_of_range _ h1 h2

theorem isub_of_range (a b : Int) (h1 : minInt ≤ a - b) (h2 : a - b ≤ maxInt) : isub a b = a - b :=
  wrapInt_of_range _ h1 h2

theorem wrapInt_add_wrapInt (a b : Int) : wrapInt (a + wrapInt b) = wrapInt (a + b) := by
  unfold wrapInt; omega

theorem wrapInt_wrapInt_add (a b : Int) : wrapInt (wrapInt a + b) = wrapInt (a + b) := by
  unfold wrapInt; omega

theorem wrapInt_sub_wrapInt (a b : Int) : wrapInt (a - wrapInt b) = wrapInt (a - b) := by
  unfold wrapInt; omega

theorem wrapInt_wrapInt_sub (a b : Int) : wrapInt (wrapInt a - b) = wrapInt (a - b) := by
  unfold wrapInt; omega

theorem hasPrefix_append (m t : Bytes) : HasPrefix (m ++ t) m = true := by
  induction m with
  | nil => cases t <;> rfl
  | cons a m ih => simp [HasPrefix, ih]

theorem eatLinesLoop_nil (pfx : Bytes) (n i : Int) :
    eatLinesLoop pfx n i [] = if i < n then ([], some .ErrUnexpectedEOF) else ([], none) := by
  unfold eatLinesLoop; rfl

theorem eatLinesLoop_cons (pfx : Bytes) (n i : Int) (l : Bytes) (ls : List Bytes) :
    eatLinesLoop pfx n i (l :: ls) =
      if i < n then
        if HasPrefix l pfx then eatLinesLoop pfx n (iadd i 1) ls
        else (ls, some (.Errorf "line %q does not have expected prefix %q" [l, pfx]))
      else (l :: ls, none) := by
  rw [eatLinesLoop]

theorem addedLoop_nil (n4 i : Int) (buf : Bytes) :
    addedLoop n4 i [] buf =
      if i ≤ n4 then ([], buf, some .ErrUnexpectedEOF) else ([], buf, none) := by
  unfold addedLoop; rfl

theorem addedLoop_cons (n4 i : Int) (l : Bytes) (ls : List Bytes) (buf : Bytes) :
    addedLoop n4 i (l :: ls) buf =
      if i ≤ n4 then
        if HasPrefix l (ascii "> ") then addedLoop n4 (iadd i 1) ls (buf ++ l.drop 2 ++ [10])
        else (ls, buf, some (.Errorf "expected line starting with '> ', got %q" [l]))
      else (l :: ls, buf, none) := by
  rw [addedLoop]

theorem eatLinesLoop_done (pfx : Bytes) (n i : Int) (ls : List Bytes) (h : n ≤ i) :
    eatLinesLoop pfx n i ls = (ls, none) := by
  cases ls <;> (unfold eatLinesLoop; rw [if_neg (by omega)])

theorem eatLinesLoop_block (pfx : Bytes) (n : Int) (rest : List Bytes) (hn : n ≤ maxInt)
    (texts : List Bytes) : ∀ i : Int, minInt ≤ i → i + texts.length ≤ n →
      eatLinesLoop pfx n i (texts.map (fun t => pfx ++ t) ++ rest) =
        eatLinesLoop pfx n (i + texts.length) rest := by
  have hmin : minInt = -9223372036854775808 := rfl
  have hmax : maxInt = 9223372036854775807 := rfl
  induction texts with
  | nil => intro i _ _; simp
  | cons t ts ih =>
    intro i h1 h2
    have e : i + ((t :: ts).length : Int) = i + 1 + ts.length := by
      simp only [List.length_cons, Nat.cast_succ]; omega
    rw [e] at h2 ⊢
    simp only [List.map_cons, List.cons_append]
    rw [eatLinesLoop_cons, if_pos (by omega), if_pos (hasPrefix_append pfx t),
      iadd_of_range i 1 (by omega) (by omega), ih (i + 1) (by omega) (by omega)]

theorem addedLoop_done (n4 i : Int) (ls : List Bytes) (buf : Bytes) (h : n4 < i) :
    addedLoop n4 i ls buf = (ls, buf, none) := by
  cases ls <;> (unfold addedLoop; rw [if_neg (by omega)])

theorem addedLoop_block (n4 : Int) (rest : List Bytes) (texts : List Bytes) :
    ∀ (i : Int) (buf : Bytes), minInt ≤ i → i + texts.length ≤ n4 + 1 →
      i + texts.length ≤ maxInt →
      addedLoop n4 i (texts.map (fun t => ascii "> " ++ t) ++ rest) buf =
        addedLoop n4 (i + texts.length) rest (buf ++ (texts.map (fun t => t ++ [10])).flatten) := by
  have hmin : minInt = -9223372036854775808 := rfl
  have hmax : maxInt = 9223372036854775807 := rfl
  induction texts with
  | nil => intro i buf _ _ _; simp
  | cons t ts ih =>
    intro i buf h1 h2 h3
    have e : i + ((t :: ts).length : Int) = i + 1 + ts.length := by
      simp only [List.length_cons, Nat.cast_succ]; omega
    rw [e] at h2 h3 ⊢
    simp only [List.map_cons, List.cons_append]
    rw [addedLoop_cons, if_pos (by omega), if_pos (hasPrefix_append _ t),
      iadd_of_range i 1 (by omega) (by omega), ih (i + 1) _ (by omega) (by omega) (by omega)]
    rw [show (ascii "> " ++ t).drop 2 = t from rfl]
    simp only [List.flatten_cons, List.append_assoc]

/-! ## Descriptors, offsets and addresses -/

theorem atoi_val_of_isDigits (d : Bytes) (n : Int) (h : IsDigits d) (ha : atoi d = .val n) :
    0 ≤ n ∧ n ≤ maxInt := by
  unfold atoi at ha
  rw [strconvAtoi_of_isDigits d h] at ha
  by_cases hr : (digitsVal d : Int) ≤ maxInt
  · rw [if_pos hr] at ha
    cases ha
    exact ⟨Int.ofNat_nonneg _, hr⟩
  · rw [if_neg hr] at ha
    cases ha

theorem atoi_opt_val (d2 : Option Bytes) (n1 n : Int) (h2 : ∀ d, d2 = some d → IsDigits d)
    (h1 : 0 ≤ n1 ∧ n1 ≤ maxInt)
    (ha : (if d2.getD [] ≠ [] then atoi (d2.getD []) else .val n1) = .val n) :
    0 ≤ n ∧ n ≤ maxInt := by
  cases d2 with
  | none =>
    simp only [Option.getD_none, ne_eq, not_true_eq_false, if_false] at ha
    cases ha
    exact h1
  | some e =>
    have he := h2 e rfl
    simp only [Option.getD_some] at ha
    rw [if_pos he.1] at ha
    exact atoi_val_of_isDigits e n he ha

theorem parseDiffOp_valid (cmd : Bytes) (op : diffOp) (h : parseDiffOp cmd = .val (op, none)) :
    op.Valid := by
  have hne : cmdPatFind cmd ≠ [] := by
    intro e
    unfold parseDiffOp at h
    rw [e] at h
    simp at h
  obtain ⟨d1, d2, o, d3, d4, h1, h2, ho, h3, h4, rfl⟩ := cmdPatFind_grammar cmd hne
  unfold parseDiffOp at h
  rw [cmdPatFind_headerLine d1 d2 o d3 d4 h1 h2 ho h3 h4] at h
  simp only [List.length_cons, List.length_nil, List.getD_cons_succ, List.getD_cons_zero,
    List.headD_cons] at h
  rw [if_neg (by omega)] at h
  rcases a1 : atoi d1 with n1 | v
  · rw [a1] at h
    dsimp only at h
    have r1 := atoi_val_of_isDigits d1 n1 h1 a1
    rcases a2 : (if d2.getD [] ≠ [] then atoi (d2.getD []) else Res.val n1) with n2 | v
    · rw [a2] at h
      dsimp only at h
      have r2 := atoi_opt_val d2 n1 n2 h2 r1 a2
      rcases a3 : atoi d3 with n3 | v
      · rw [a3] at h
        dsimp only at h
        have r3 := atoi_val_of_isDigits d3 n3 h3 a3
        rcases a4 : (if d4.getD [] ≠ [] then atoi (d4.getD []) else Res.val n3) with n4 | v
        · rw [a4] at h
          dsimp only at h
          have r4 := atoi_opt_val d4 n3 n4 h4 r3 a4
          cases h
          exact ⟨r1, r2, r3, r4, ho⟩
        · rw [a4] at h; cases h
      · rw [a3] at h; cases h
    · rw [a2] at h; cases h
  · rw [a1] at h; cases h

theorem Hunk.WellFormed.valid {h : Hunk} (hw : h.WellFormed) : h.op.Valid :=
  parseDiffOp_valid h.cmd h.op hw.1

theorem nextOffset_eq (op : diffOp) (off : Int) (ho : IsOp op.op) :
    nextOffset op off = wrapInt (off + delta op) := by
  unfold nextOffset delta iadd isub
  rcases ho with h | h | h
  · rw [if_pos h, if_pos h]
    unfold wrapInt; omega
  · have h97 : ¬ op.op = 97 := by rw [h]; decide
    have h100 : ¬ op.op = 100 := by rw [h]; decide
    rw [if_neg h97, if_neg h100, if_pos h, if_neg h97, if_neg h100]
    unfold wrapInt; omega
  · have h97 : ¬ op.op = 97 := by rw [h]; decide
    rw [if_neg h97, if_pos h, if_neg h97, if_pos h]
    unfold wrapInt; omega

theorem hunkAddr_eq (op : diffOp) (off : Int) (h1 : inRange (op.n1 + off))
    (h2 : inRange (op.n2 + off)) :
    (hunkAddr op off).1 = specAddr op off := by
  unfold hunkAddr specAddr
  rw [iadd_of_range _ _ h1.1 h1.2, iadd_of_range _ _ h2.1 h2.2]
  split
  · rfl
  · split <;> rfl

/-! ## Well-formed hunks -/

theorem eatLines_texts (pfx : Bytes) (n : Int) (texts rest : List Bytes) (hn : n ≤ maxInt)
    (hl : texts.length = n.toNat) :
    eatLines (texts.map (fun t => pfx ++ t) ++ rest) pfx n = (rest, none) := by
  have hmin : minInt = -9223372036854775808 := rfl
  unfold eatLines
  by_cases h0 : 0 ≤ n
  · rw [eatLinesLoop_block pfx n rest hn texts 0 (by omega) (by omega)]
    exact eatLinesLoop_done _ _ _ _ (by omega)
  · have : texts = [] := List.length_eq_zero.1 (by omega)
    subst this
    exact eatLinesLoop_done _ _ _ _ (by omega)

theorem addedLoop_texts (n3 n4 : Int) (texts rest : List Bytes) (h3 : 0 ≤ n3) (h4 : n4 < maxInt)
    (hl : texts.length = (n4 - n3 + 1).toNat) :
    addedLoop n4 n3 (texts.map (fun t => ascii "> " ++ t) ++ rest) [] =
      (rest, (texts.map (fun t => t ++ [10])).flatten, none) := by
  have hmin : minInt = -9223372036854775808 := rfl
  by_cases h0 : 0 ≤ n4 - n3 + 1
  · rw [addedLoop_block n4 rest texts n3 [] (by omega) (by omega) (by omega)]
    exact addedLoop_done _ _ _ _ (by omega)
  · have : texts = [] := List.length_eq_zero.1 (by omega)
    subst this
    exact addedLoop_done _ _ _ _ (by omega)

theorem count_eq (n1 n2 : Int) (h1 : 0 ≤ n1 ∧ n1 ≤ maxInt) (h2 : 0 ≤ n2 ∧ n2 ≤ maxInt)
    (hr : n2 - n1 < maxInt) : iadd (isub n2 n1) 1 = n2 - n1 + 1 := by
  have hmin : minInt = -9223372036854775808 := rfl
  have hmax : maxInt = 9223372036854775807 := rfl
  unfold iadd isub wrapInt
  omega

theorem hunkBody_wellFormed (h : Hunk) (hw : h.WellFormed) (hr : h.InRange) (rest : List Bytes) :
    hunkBody h.op (h.dels.map (fun t => ascii "< " ++ t) ++
      (h.seps.map (fun t => ascii "---" ++ t) ++ h.adds.map (fun t => ascii "> " ++ t)) ++ rest) =
      (rest, h.payload, none) := by
  have hmax : maxInt = 9223372036854775807 := rfl
  obtain ⟨v1, v2, v3, v4, ho⟩ := hw.valid
  obtain ⟨-, hd, hs, ha⟩ := hw
  unfold hunkBody Hunk.payload
  rcases ho with o | o | o
  · have n99 : ¬ h.op.op = 99 := by rw [o]; decide
    have n100 : ¬ h.op.op = 100 := by rw [o]; decide
    rw [if_pos o] at hd
    rw [if_neg n99] at hs
    rw [if_neg n100] at ha
    rw [List.length_eq_zero.1 hd, List.length_eq_zero.1 hs]
    rw [if_neg (by rw [o]; decide)]
    dsimp only
    rw [if_neg n99]
    dsimp only
    rw [if_pos n100]
    exact addedLoop_texts _ _ _ _ v3.1 (hr.2 n100) ha
  · have n97 : ¬ h.op.op = 97 := by rw [o]; decide
    have n100 : ¬ h.op.op = 100 := by rw [o]; decide
    rw [if_neg n97] at hd
    rw [if_pos o] at hs
    rw [if_neg n100] at ha
    rw [if_pos (Or.inl o), List.append_assoc,
      eatLines_texts (ascii "< ") (iadd (isub h.op.n2 h.op.n1) 1) h.dels _ (wrapInt_inRange _).2
        (by rw [count_eq _ _ v1 v2 (hr.1 n97)]; exact hd)]
    dsimp only
    rw [if_pos o, List.append_assoc, eatLines_texts (ascii "---") 1 h.seps _ (by rw [hmax]; omega)
      (by simpa using hs)]
    dsimp only
    rw [if_pos n100]
    exact addedLoop_texts _ _ _ _ v3.1 (hr.2 n100) ha
  · have n97 : ¬ h.op.op = 97 := by rw [o]; decide
    have n99 : ¬ h.op.op = 99 := by rw [o]; decide
    rw [if_neg n97] at hd
    rw [if_neg n99] at hs
    rw [if_pos o] at ha
    rw [List.length_eq_zero.1 hs, List.length_eq_zero.1 ha]
    rw [if_pos (Or.inr o), List.append_assoc,
      eatLines_texts (ascii "< ") (iadd (isub h.op.n2 h.op.n1) 1) h.dels _ (wrapInt_inRange _).2
        (by rw [count_eq _ _ v1 v2 (hr.1 n97)]; exact hd)]
    dsimp only
    rw [if_neg n99]
    dsimp only
    rw [if_neg (by simp [o])]
    simp

theorem applyLoop_hunk {σ : Type} (edit : σ → Bytes → Bytes → σ × Option GoError) (h : Hunk)
    (hw : h.WellFormed) (hr : h.InRange) (rest : List Bytes) (fuel : Nat) (off : Int) (st : σ) :
    applyLoop edit (fuel + 1) (h.lines ++ rest) off st =
      match hunkAddr h.op off with
      | (_, some err) => some (st, .val (some err))
      | (addr, none) =>
        match edit st addr h.payload with
        | (st1, some err) => some (st1, .val (some err))
        | (st1, none) => applyLoop edit fuel rest (nextOffset h.op off) st1 := by
  unfold Hunk.lines
  rw [List.cons_append, applyLoop_cons, hw.1]
  dsimp only
  rw [hunkBody_wellFormed h hw hr rest]

theorem hunkAddr_err (op : diffOp) (off : Int) (addr : Bytes) (err : GoError)
    (h : hunkAddr op off = (addr, some err)) :
    (op.op = 97 ∧ op.n1 ≠ op.n2) ∧ err = .Errorf "append with multiple line source" [] := by
  unfold hunkAddr at h
  by_cases h1 : op.n1 = op.n2
  · rw [if_pos h1] at h; cases h
  · rw [if_neg h1] at h
    by_cases h2 : op.op = 97
    · rw [if_pos h2] at h
      cases h
      exact ⟨⟨h2, h1⟩, rfl⟩
    · rw [if_neg h2] at h; cases h

theorem streamLines_cons (h : Hunk) (hs : List Hunk) :
    streamLines (h :: hs) = h.lines ++ streamLines hs := by
  simp [streamLines]

theorem Hunk.lines_length_pos (h : Hunk) : 0 < h.lines.length := by
  simp [Hunk.lines]

theorem applyLoop_hunks {σ : Type} (e2 : σ → Bytes → Bytes → σ × Option GoError)
    (h2 : ∀ s a d, (e2 s a d).2 = none) (hs : List Hunk) :
    ∀ (off : Int) (s : σ) (lg : List Call) (f : Nat),
      (∀ h ∈ hs, h.WellFormed ∧ h.InRange) → (streamLines hs).length < f →
      ∃ s' ext res, applyLoop (recording e2) f (streamLines hs) off (s, lg) =
          some ((s', lg ++ ext), res) ∧
        ext.map Call.args = (codeEdits off hs).take ext.length ∧
        ((∀ h ∈ hs, h.PointAdd) →
          ext.map Call.args = codeEdits off hs ∧ res = .val none ∧ ∀ c ∈ ext, c.err = none) := by
  induction hs with
  | nil =>
    intro off s lg f _ hf
    cases f with
    | zero => omega
    | succ f =>
      exact ⟨s, [], .val none, by simp [streamLines, applyLoop], rfl, fun _ => ⟨rfl, rfl, by simp⟩⟩
  | cons h hs ih =>
    intro off s lg f hwf hf
    obtain ⟨hw, hr⟩ := hwf h (List.mem_cons_self _ _)
    rw [streamLines_cons] at hf ⊢
    have hpos := h.lines_length_pos
    rw [List.length_append] at hf
    cases f with
    | zero => omega
    | succ f =>
      rw [applyLoop_hunk _ h hw hr]
      rcases ha : hunkAddr h.op off with ⟨addr, _ | err⟩
      · dsimp only
        have hrec : recording e2 (s, lg) addr h.payload =
            (((e2 s addr h.payload).1, lg ++ [⟨addr, h.payload, none⟩]), none) := by
          simp only [recording, h2]
        rw [hrec]
        dsimp only
        obtain ⟨s', ext, res, a1, a2, a3⟩ := ih (nextOffset h.op off)
          (e2 s addr h.payload).1 (lg ++ [⟨addr, h.payload, none⟩]) f
          (fun x hx => hwf x (List.mem_cons_of_mem _ hx)) (by omega)
        refine ⟨s', ⟨addr, h.payload, none⟩ :: ext, res, ?_, ?_, ?_⟩
        · rw [a1]; simp
        · simp only [List.map_cons, List.length_cons, codeEdits, List.take_succ_cons, a2, ha]
          rfl
        · intro hp
          obtain ⟨b1, b2, b3⟩ := a3 (fun x hx => hp x (List.mem_cons_of_mem _ hx))
          refine ⟨?_, b2, ?_⟩
          · simp only [List.map_cons, codeEdits, b1, ha]; rfl
          · intro c hc
            rcases List.mem_cons.1 hc with hc | hc
            · subst hc; rfl
            · exact b3 c hc
      · dsimp only
        refine ⟨s, [], .val (some err), by simp, rfl, ?_⟩
        intro hp
        have := (hunkAddr_err _ _ _ _ ha).1
        exact absurd (hp h (List.mem_cons_self _ _) this.1) this.2

theorem codeEdits_eq_specEdits (hs : List Hunk) : ∀ (off : Int),
    (∀ h ∈ hs, h.WellFormed) → OffsetsInRange off hs → codeEdits off hs = specEdits off hs := by
  induction hs with
  | nil => intro off _ _; rfl
  | cons h hs ih =>
    intro off hwf hoff
    obtain ⟨o1, o2, o3, o4⟩ := hoff
    have hw := hwf h (List.mem_cons_self _ _)
    simp only [codeEdits, specEdits]
    rw [hunkAddr_eq h.op off o1 o2, nextOffset_eq _ _ hw.valid.2.2.2.2,
      wrapInt_of_range _ o3.1 o3.2, ih _ (fun x hx => hwf x (List.mem_cons_of_mem _ hx)) o4]

theorem codeEdits_length (hs : List Hunk) : ∀ off : Int, (codeEdits off hs).length = hs.length := by
  induction hs with
  | nil => intro off; rfl
  | cons h hs ih => intro off; simp [codeEdits, ih]

theorem apply_hunks {σ : Type} (e2 : σ → Bytes → Bytes → σ × Option GoError)
    (h2 : ∀ s a d, (e2 s a d).2 = none) (hs : List Hunk) (r : Reader) (s : σ)
    (hr : NewScanner r = streamLines hs) (hwf : ∀ h ∈ hs, h.WellFormed ∧ h.InRange) :
    ∃ s' ext res, apply r (recording e2) (s, []) = some ((s', ext), res) ∧
      ext.map Call.args = (codeEdits 0 hs).take ext.length ∧
      ((∀ h ∈ hs, h.PointAdd) →
        ext.map Call.args = codeEdits 0 hs ∧ res = .val none ∧ ∀ c ∈ ext, c.err = none) := by
  unfold apply
  rw [hr]
  obtain ⟨s', ext, res, a1, a2⟩ :=
    applyLoop_hunks e2 h2 hs 0 s [] _ hwf (Nat.lt_succ_self _)
  rw [List.nil_append] at a1
  exact ⟨s', ext, res, a1, a2⟩

/-! ## One edit per hunk -/

theorem take_take_of_map_eq {α β : Type} (f : α → β) (l1 l2 : List α) (spec : List β)
    (h1 : l1.map f = (l2.map f).take l1.length) (h2 : l2.map f = spec.take l2.length) :
    l1.map f = spec.take l1.length := by
  have hlen : l1.length ≤ l2.length := by
    have := congrArg List.length h1
    simp only [List.length_map, List.length_take] at this
    omega
  rw [h1, h2, List.take_take, Nat.min_eq_left hlen]

theorem apply_hunks_any {σ : Type} (e1 : σ → Bytes → Bytes → σ × Option GoError)
    (hs : List Hunk) (r : Reader) (s : σ) (hr : NewScanner r = streamLines hs)
    (hwf : ∀ h ∈ hs, h.WellFormed ∧ h.InRange) :
    ∃ s' ext res, apply r (recording e1) (s, []) = some ((s', ext), res) ∧
      ext.map Call.args = (codeEdits 0 hs).take ext.length := by
  obtain ⟨s1', ext1, res1, s2', ext2, res2, a1, a2, a3, -, -⟩ :=
    apply_two_sinks e1 okSink (fun _ _ _ => rfl) r s ()
  obtain ⟨t', ext, res, b1, b2, -⟩ := apply_hunks okSink (fun _ _ _ => rfl) hs r () hr hwf
  rw [a2] at b1
  simp only [Option.some.injEq, Prod.mk.injEq] at b1
  obtain ⟨⟨-, rfl⟩, rfl⟩ := b1
  exact ⟨s1', ext1, res1, a1, take_take_of_map_eq _ _ _ _ a3 b2⟩

theorem specEdits_getElem? (hs : List Hunk) : ∀ (off : Int) (i : Nat),
    (specEdits off hs)[i]? =
      (hs[i]?).map (fun h => (specAddr h.op (off + offsetAt hs i), h.payload)) := by
  induction hs with
  | nil => intro off i; simp [specEdits]
  | cons h hs ih =>
    intro off i
    cases i with
    | zero => simp [specEdits, offsetAt]
    | succ i =>
      simp only [specEdits, List.getElem?_cons_succ, ih, offsetAt, List.take_succ_cons,
        List.map_cons, List.sum_cons]
      cases hs[i]? with
      | none => rfl
      | some x => simp only [Option.map_some', add_assoc]

theorem codeEdits_getElem?_snd (hs : List Hunk) : ∀ (off : Int) (i : Nat),
    ((codeEdits off hs)[i]?).map Prod.snd = (hs[i]?).map Hunk.payload := by
  induction hs with
  | nil => intro off i; simp [codeEdits]
  | cons h hs ih =>
    intro off i
    cases i with
    | zero => simp [codeEdits]
    | succ i => simp only [codeEdits, List.getElem?_cons_succ, ih]

theorem codeEdits_map_snd (hs : List Hunk) : ∀ off : Int,
    (codeEdits off hs).map Prod.snd = hs.map Hunk.payload := by
  induction hs with
  | nil => intro off; rfl
  | cons h hs ih =>
    intro off
    simp only [codeEdits, List.map_cons, ih]

/-- C3 (as amended). One edit per hunk, in order: for a diff stream that the
scanner delivers as the lines of `n` well-formed hunks, in which line counts
are computed without overflow, the added lines end below the largest `int`
and every Add names a single original line, and for a sink that never fails,
`apply` returns success and invokes the sink exactly `n` times, none of the
invocations failing, the `i`-th invocation being the edit of the `i`-th hunk:
its payload is the added texts of that hunk, each followed by a newline, and,
where the addresses and offsets stay within the Go `int`, its address is built
from the original line numbers of the hunk plus the sum of `delta` over the
hunks before it. An empty stream causes no invocation, the stream `2c2 / < bar
/ --- / > BAR / 3a4 / > qux` causes exactly the edits `("2", "BAR\n")` and
`("3+#0", "qux\n")`, and the stream `1a2,3 / > x / > y / 3d5 / < z`, whose
first hunk adds two lines, exactly the edits `("1+#0", "x\ny\n")` and
`("5", "")`. -/
theorem apply_one_edit_per_hunk :
    (∀ (σ : Type) (edit : σ → Bytes → Bytes → σ × Option GoError) (hs : List Hunk) (r : Reader)
      (s : σ), (∀ s a d, (edit s a d).2 = none) → NewScanner r = streamLines hs →
      (∀ h ∈ hs, h.WellFormed ∧ h.InRange ∧ h.PointAdd) →
      ∃ s' log, apply r (recording edit) (s, []) = some ((s', log), .val none) ∧
        log.length = hs.length ∧ log.map Call.args = codeEdits 0 hs ∧
        (∀ c ∈ log, c.err = none) ∧
        (∀ (i : Nat) (h : Hunk), hs[i]? = some h →
          ∃ c, log[i]? = some c ∧ c.data = h.payload ∧
            (OffsetsInRange 0 hs → c.addr = specAddr h.op (offsetAt hs i)))) ∧
    apply ⟨[], none⟩ (recording okSink) ((), []) = some (((), []), .val none) ∧
    apply ⟨ascii "2c2\n< bar\n---\n> BAR\n3a4\n> qux\n", none⟩ (recording okSink) ((), []) =
      some (((), [⟨ascii "2", ascii "BAR\n", none⟩, ⟨ascii "3+#0", ascii "qux\n", none⟩]),
        .val none) ∧
    apply ⟨ascii "1a2,3\n> x\n> y\n3d5\n< z\n", none⟩ (recording okSink) ((), []) =
      some (((), [⟨ascii "1+#0", ascii "x\ny\n", none⟩, ⟨ascii "5", [], none⟩]), .val none) := by
  refine ⟨?_, by decide, by decide, by decide⟩
  intro σ edit hs r s h2 hr hwf
  obtain ⟨s', ext, res, a1, -, a3⟩ :=
    apply_hunks edit h2 hs r s hr (fun h hh => ⟨(hwf h hh).1, (hwf h hh).2.1⟩)
  obtain ⟨b1, b2, b3⟩ := a3 (fun h hh => (hwf h hh).2.2)
  subst b2
  have hlen : ext.length = hs.length := by
    have := congrArg List.length b1
    rw [List.length_map, codeEdits_length] at this
    exact this
  refine ⟨s', ext, a1, hlen, b1, b3, ?_⟩
  intro i h hh
  have hi : i < ext.length := by
    rw [hlen]
    exact (List.getElem?_eq_some.1 hh).1
  have hc : ext[i]? = some ext[i] := List.getElem?_eq_getElem hi
  have e1 : (ext.map Call.args)[i]? = some (ext[i]).args := by
    rw [List.getElem?_map, hc]; rfl
  refine ⟨ext[i], hc, ?_, ?_⟩
  · have e2 := congrArg (Option.map Prod.snd) e1
    rw [b1, codeEdits_getElem?_snd, hh] at e2
    simp only [Option.map_some', Option.some.injEq] at e2
    exact e2.symm
  · intro hoff
    rw [b1, codeEdits_eq_specEdits hs 0 (fun h hh => (hwf h hh).1) hoff, specEdits_getElem?,
      hh] at e1
    simp only [Option.map_some', Option.some.injEq, zero_add] at e1
    exact (congrArg Prod.fst e1).symm

theorem apply_one_edit_per_hunk_witness :
    ∃ s' log, apply ⟨ascii "1a2,3\n> x\n> y\n3d5\n< z\n", none⟩ (recording okSink)
        ((), []) = some ((s', log), .val none) ∧
      log.length = 2 ∧
      log.map Call.args = codeEdits 0 [⟨ascii "1a2,3", [], [], [ascii "x", ascii "y"]⟩,
        ⟨ascii "3d5", [ascii "z"], [], []⟩] ∧
      (∀ c ∈ log, c.err = none) ∧
      (∀ (i : Nat) (h : Hunk),
        [(⟨ascii "1a2,3", [], [], [ascii "x", ascii "y"]⟩ : Hunk),
          ⟨ascii "3d5", [ascii "z"], [], []⟩][i]? = some h →
        ∃ c, log[i]? = some c ∧ c.data = h.payload ∧
          (OffsetsInRange 0 [⟨ascii "1a2,3", [], [], [ascii "x", ascii "y"]⟩,
              ⟨ascii "3d5", [ascii "z"], [], []⟩] →
            c.addr = specAddr h.op (offsetAt [⟨ascii "1a2,3", [], [], [ascii "x", ascii "y"]⟩,
              ⟨ascii "3d5", [ascii "z"], [], []⟩] i))) :=
  apply_one_edit_per_hunk.1 Unit okSink
    [⟨ascii "1a2,3", [], [], [ascii "x", ascii "y"]⟩, ⟨ascii "3d5", [ascii "z"], [], []⟩]
    ⟨ascii "1a2,3\n> x\n> y\n3d5\n< z\n", none⟩ () (fun _ _ _ => rfl) (by decide)
    (by
      intro h hh
      simp only [List.mem_cons, List.mem_singleton, List.not_mem_nil, or_false] at hh
      rcases hh with rfl | rfl
      · exact ⟨by unfold Hunk.WellFormed; decide, by unfold Hunk.InRange; decide,
          by unfold Hunk.PointAdd; decide⟩
      · exact ⟨by unfold Hunk.WellFormed; decide, by unfold Hunk.InRange; decide,
          by unfold Hunk.PointAdd; decide⟩)

theorem apply_one_edit_per_hunk_counterexample :
    Hunk.WellFormed ⟨ascii "1a9223372036854775807", [], [], [ascii "x"]⟩ ∧
    Hunk.PointAdd ⟨ascii "1a9223372036854775807", [], [], [ascii "x"]⟩ ∧
    NewScanner ⟨ascii "1a9223372036854775807\n> x\n", none⟩ =
      streamLines [⟨ascii "1a9223372036854775807", [], [], [ascii "x"]⟩] ∧
    apply ⟨ascii "1a9223372036854775807\n> x\n", none⟩ (recording okSink) ((), []) =
      some (((), []), .val (some .ErrUnexpectedEOF)) := by
  refine ⟨by unfold Hunk.WellFormed; decide, by unfold Hunk.PointAdd; decide, by decide, by decide⟩

/-! ## Addresses and offsets -/

/-- C2 (as amended). Offset and address correctness: for a diff stream that
the scanner delivers as the lines of well-formed hunks `h1..hn` whose line
counts, addresses `n1 + off_i`, `n2 + off_i` and offsets stay within the Go
`int`, the address passed to the edit sink for `hi` is built from the
original line numbers of `hi` plus `off_i`, the sum over `j < i` of
`delta(hj)`: the decimal string of `n1 + off_i` when `n1 = n2` (followed by
`+#0` for an Add), and otherwise the decimal strings of `n1 + off_i` and
`n2 + off_i` joined by a comma. The stream `2c2 / < bar / --- / > BAR / 3a4 /
> qux` gives the addresses `2` and `3+#0`. -/
theorem apply_address :
    (∀ (σ : Type) (edit : σ → Bytes → Bytes → σ × Option GoError) (hs : List Hunk) (r : Reader)
      (s : σ), NewScanner r = streamLines hs → (∀ h ∈ hs, h.WellFormed ∧ h.InRange) →
      OffsetsInRange 0 hs →
      ∃ s' log res, apply r (recording edit) (s, []) = some ((s', log), res) ∧
        ∀ (i : Nat) (c : Call), log[i]? = some c →
          ∃ h, hs[i]? = some h ∧ c.addr = specAddr h.op (offsetAt hs i)) ∧
    (∃ s' res, apply ⟨ascii "2c2\n< bar\n---\n> BAR\n3a4\n> qux\n", none⟩ (recording okSink)
      ((), []) = some ((s', [⟨ascii "2", ascii "BAR\n", none⟩,
        ⟨ascii "3+#0", ascii "qux\n", none⟩]), res)) := by
  refine ⟨?_, ⟨(), .val none, by decide⟩⟩
  intro σ edit hs r s hr hwf hoff
  obtain ⟨s', log, res, a1, a2⟩ := apply_hunks_any edit hs r s hr hwf
  refine ⟨s', log, res, a1, ?_⟩
  intro i c hc
  rw [codeEdits_eq_specEdits hs 0 (fun h hh => (hwf h hh).1) hoff] at a2
  have hi := (List.getElem?_eq_some.1 hc).1
  have e1 : (log.map Call.args)[i]? = some c.args := by
    rw [List.getElem?_map, hc]; rfl
  rw [a2, List.getElem?_take_of_lt hi, specEdits_getElem?] at e1
  cases hh : hs[i]? with
  | none => rw [hh] at e1; cases e1
  | some h =>
    rw [hh] at e1
    simp only [Option.map_some', Option.some.injEq, zero_add] at e1
    exact ⟨h, rfl, (congrArg Prod.fst e1).symm⟩

theorem apply_address_witness :
    ∃ s' log res, apply ⟨ascii "2c2\n< bar\n---\n> BAR\n3a4\n> qux\n", none⟩ (recording okSink)
        ((), []) = some ((s', log), res) ∧
      ∀ (i : Nat) (c : Call), log[i]? = some c →
        ∃ h, [(⟨ascii "2c2", [ascii "bar"], [[]], [ascii "BAR"]⟩ : Hunk),
            ⟨ascii "3a4", [], [], [ascii "qux"]⟩][i]? = some h ∧
          c.addr = specAddr h.op (offsetAt [⟨ascii "2c2", [ascii "bar"], [[]], [ascii "BAR"]⟩,
            ⟨ascii "3a4", [], [], [ascii "qux"]⟩] i) :=
  apply_address.1 Unit okSink
    [⟨ascii "2c2", [ascii "bar"], [[]], [ascii "BAR"]⟩, ⟨ascii "3a4", [], [], [ascii "qux"]⟩]
    ⟨ascii "2c2\n< bar\n---\n> BAR\n3a4\n> qux\n", none⟩ () (by decide)
    (by
      intro h hh
      simp only [List.mem_cons, List.mem_singleton, List.not_mem_nil, or_false] at hh
      rcases hh with rfl | rfl
      · exact ⟨by unfold Hunk.WellFormed; decide, by unfold Hunk.InRange; decide⟩
      · exact ⟨by unfold Hunk.WellFormed; decide, by unfold Hunk.InRange; decide⟩)
    (by
      simp only [OffsetsInRange, inRange]
      decide)

theorem apply_address_counterexample :
    Hunk.WellFormed ⟨ascii "9223372036854775806a1", [], [], [ascii "x"]⟩ ∧
    Hunk.WellFormed ⟨ascii "9223372036854775807a2", [], [], [ascii "y"]⟩ ∧
    NewScanner ⟨ascii "9223372036854775806a1\n> x\n9223372036854775807a2\n> y\n", none⟩ =
      streamLines [⟨ascii "9223372036854775806a1", [], [], [ascii "x"]⟩,
        ⟨ascii "9223372036854775807a2", [], [], [ascii "y"]⟩] ∧
    apply ⟨ascii "9223372036854775806a1\n> x\n9223372036854775807a2\n> y\n", none⟩
      (recording okSink) ((), []) =
      some (((), [⟨ascii "9223372036854775806+#0", ascii "x\n", none⟩,
        ⟨ascii "-9223372036854775808+#0", ascii "y\n", none⟩]), .val none) ∧
    specAddr (Hunk.op ⟨ascii "9223372036854775807a2", [], [], [ascii "y"]⟩)
      (offsetAt [⟨ascii "9223372036854775806a1", [], [], [ascii "x"]⟩,
        ⟨ascii "9223372036854775807a2", [], [], [ascii "y"]⟩] 1) =
      ascii "9223372036854775808+#0" := by
  refine ⟨by unfold Hunk.WellFormed; decide, by unfold Hunk.WellFormed; decide, by decide,
    by decide, by decide⟩

/-! ## The separator of a Change -/

theorem hasPrefix_lt_sep (t : Bytes) : HasPrefix (ascii "< " ++ t) (ascii "---") = false := rfl

theorem hunkBody_bad_separator (op : diffOp) (dels : List Bytes) (l : Bytes) (rest : List Bytes)
    (hv : op.Valid) (ho : op.op = 99) (hd : dels.length = (op.n2 - op.n1 + 1).toNat)
    (hl : HasPrefix l (ascii "---") = false) :
    ∃ e, (hunkBody op (dels.map (fun t => ascii "< " ++ t) ++ l :: rest)).2.2 = some e := by
  have hmin : minInt = -9223372036854775808 := rfl
  have hmax : maxInt = 9223372036854775807 := rfl
  obtain ⟨v1, v2, -, -, -⟩ := hv
  unfold hunkBody
  rw [if_pos (Or.inl ho)]
  by_cases hr : op.n2 - op.n1 < maxInt
  · rw [eatLines_texts (ascii "< ") (iadd (isub op.n2 op.n1) 1) dels _ (wrapInt_inRange _).2
      (by rw [count_eq _ _ v1 v2 hr]; exact hd)]
    dsimp only
    rw [if_pos ho]
    unfold eatLines
    rw [eatLinesLoop_cons, if_pos (by omega), hl]
    exact ⟨_, rfl⟩
  · have hn : iadd (isub op.n2 op.n1) 1 ≤ 0 := by
      unfold iadd isub wrapInt; omega
    unfold eatLines
    rw [eatLinesLoop_done _ _ _ _ hn]
    dsimp only
    rw [if_pos ho]
    cases dels with
    | nil => simp only [List.length_nil] at hd; omega
    | cons t ts =>
      simp only [List.map_cons, List.cons_append]
      rw [eatLinesLoop_cons, if_pos (by omega), hasPrefix_lt_sep]
      exact ⟨_, rfl⟩

/-- C7 (as amended). Separator check: for every Change hunk met where a header
is expected, after a stream `r0` that `apply` has applied in full, if the line
`l` that follows the block of `n2 - n1 + 1` deleted lines does not start with
the separator `---`, `apply` returns an error and leaves the edit sink in the
state `st1` it was in after `r0`, so the sink is not invoked for that hunk. -/
theorem apply_bad_separator {σ : Type} (edit : σ → Bytes → Bytes → σ × Option GoError)
    (r0 r : Reader) (st st1 : σ) (cmd : Bytes) (op : diffOp) (dels : List Bytes) (l : Bytes)
    (rest : List Bytes) (h0 : apply r0 edit st = some (st1, .val none))
    (hr : NewScanner r =
      NewScanner r0 ++ cmd :: (dels.map (fun t => ascii "< " ++ t) ++ l :: rest))
    (hp : parseDiffOp cmd = .val (op, none)) (ho : op.op = 99)
    (hd : dels.length = (op.n2 - op.n1 + 1).toNat) (hl : HasPrefix l (ascii "---") = false) :
    ∃ e, apply r edit st = some (st1, .val (some e)) := by
  obtain ⟨off1, h⟩ := apply_after edit r0 r st st1 _ h0 hr
  obtain ⟨e, he⟩ := hunkBody_bad_separator op dels l rest (parseDiffOp_valid cmd op hp) ho hd hl
  refine ⟨e, ?_⟩
  rw [h, List.length_cons, applyLoop_cons, hp]
  dsimp only
  rcases hb : hunkBody op (dels.map (fun t => ascii "< " ++ t) ++ l :: rest) with ⟨s1, buf, e1⟩
  rw [hb] at he
  dsimp only at he
  subst he
  rfl

theorem apply_bad_separator_witness :
    ∃ e, apply ⟨ascii "3a4\n> qux\n2c2\n< bar\n--\n> BAR\n", none⟩ (recording okSink) ((), []) =
      some (((), [⟨ascii "3+#0", ascii "qux\n", none⟩]), .val (some e)) :=
  apply_bad_separator (recording okSink) ⟨ascii "3a4\n> qux\n", none⟩
    ⟨ascii "3a4\n> qux\n2c2\n< bar\n--\n> BAR\n", none⟩ ((), [])
    ((), [⟨ascii "3+#0", ascii "qux\n", none⟩]) (ascii "2c2") ⟨2, 2, 2, 2, 99⟩ [ascii "bar"]
    (ascii "--") [ascii "> BAR"] (by decide) (by decide) (by decide) rfl (by decide) (by decide)

theorem apply_bad_separator_counterexample :
    ascii "---junk" ≠ ascii "---" ∧
    apply ⟨ascii "1c1\n< a\n---junk\n> b\n", none⟩ (recording okSink) ((), []) =
      some (((), [⟨ascii "1", ascii "b\n", none⟩]), .val none) := by
  refine ⟨by decide, by decide⟩

/-! ## An Add over a range -/

theorem addedLoop_max (ls : List Bytes) : ∀ (i : Int) (buf : Bytes), i ≤ maxInt →
    ∃ e, (addedLoop maxInt i ls buf).2.2 = some e := by
  induction ls with
  | nil =>
    intro i buf hi
    rw [addedLoop_nil, if_pos hi]
    exact ⟨_, rfl⟩
  | cons l ls ih =>
    intro i buf hi
    rw [addedLoop_cons, if_pos hi]
    by_cases hp : HasPrefix l (ascii "> ") = true
    · rw [if_pos hp]
      exact ih _ _ (wrapInt_inRange _).2
    · rw [if_neg hp]
      exact ⟨_, rfl⟩

theorem hunkBody_add (op : diffOp) (scan : List Bytes) (ho : op.op = 97) :
    hunkBody op scan = addedLoop op.n4 op.n3 scan [] := by
  unfold hunkBody
  rw [if_neg (by rw [ho]; decide)]
  dsimp only
  rw [if_neg (by rw [ho]; decide)]
  dsimp only
  rw [if_pos (by rw [ho]; decide)]

/-- C10 (as amended). Append over a range is rejected: for every Add hunk
whose header has `n1 ≠ n2` and whose body is the `n4 - n3 + 1` added lines,
met where a header is expected after a stream `r0` that `apply` has applied in
full, `apply` returns an error, which is `append with multiple line source`
when `n4` is below the largest `int`, and leaves the edit sink in the state
`st1` it was in after `r0`: the sink is invoked neither for that hunk nor for a
later one, and the edits of the hunks before are issued unchanged. -/
theorem apply_append_range {σ : Type} (edit : σ → Bytes → Bytes → σ × Option GoError)
    (r0 r : Reader) (st st1 : σ) (cmd : Bytes) (op : diffOp) (adds : List Bytes)
    (rest : List Bytes) (h0 : apply r0 edit st = some (st1, .val none))
    (hr : NewScanner r = NewScanner r0 ++ cmd :: (adds.map (fun t => ascii "> " ++ t) ++ rest))
    (hp : parseDiffOp cmd = .val (op, none)) (ho : op.op = 97) (hne : op.n1 ≠ op.n2)
    (ha : adds.length = (op.n4 - op.n3 + 1).toNat) :
    ∃ e, apply r edit st = some (st1, .val (some e)) ∧
      (op.n4 < maxInt → e = .Errorf "append with multiple line source" []) := by
  obtain ⟨off1, h⟩ := apply_after edit r0 r st st1 _ h0 hr
  obtain ⟨-, -, v3, v4, -⟩ := parseDiffOp_valid cmd op hp
  rw [h, List.length_cons, applyLoop_cons, hp]
  dsimp only
  rw [hunkBody_add op _ ho]
  by_cases h4 : op.n4 < maxInt
  · rw [addedLoop_texts _ _ _ _ v3.1 h4 ha]
    dsimp only
    refine ⟨.Errorf "append with multiple line source" [], ?_, fun _ => rfl⟩
    unfold hunkAddr
    rw [if_neg hne, if_pos ho]
  · have e4 : op.n4 = maxInt := le_antisymm v4.2 (not_lt.1 h4)
    rw [e4]
    obtain ⟨e, he⟩ := addedLoop_max (adds.map (fun t => ascii "> " ++ t) ++ rest) op.n3 [] v3.2
    refine ⟨e, ?_, fun hlt => absurd hlt (lt_irrefl _)⟩
    rcases hb : addedLoop maxInt op.n3 (adds.map (fun t => ascii "> " ++ t) ++ rest) []
      with ⟨s1, buf, e1⟩
    rw [hb] at he
    dsimp only at he
    subst he
    rfl

theorem apply_append_range_witness :
    ∃ e, apply ⟨ascii "3a4\n> qux\n1,2a5,6\n> x\n> y\n7d7\n< z\n", none⟩ (recording okSink)
        ((), []) = some (((), [⟨ascii "3+#0", ascii "qux\n", none⟩]), .val (some e)) ∧
      ((6 : Int) < maxInt → e = .Errorf "append with multiple line source" []) :=
  apply_append_range (recording okSink) ⟨ascii "3a4\n> qux\n", none⟩
    ⟨ascii "3a4\n> qux\n1,2a5,6\n> x\n> y\n7d7\n< z\n", none⟩ ((), [])
    ((), [⟨ascii "3+#0", ascii "qux\n", none⟩]) (ascii "1,2a5,6") ⟨1, 2, 5, 6, 97⟩
    [ascii "x", ascii "y"] [ascii "7d7", ascii "< z"] (by decide) (by decide) (by decide) rfl
    (by decide) (by decide)

theorem apply_append_range_counterexample :
    parseDiffOp (ascii "1,2a9223372036854775807") =
      .val (⟨1, 2, 9223372036854775807, 9223372036854775807, 97⟩, none) ∧
    NewScanner ⟨ascii "1,2a9223372036854775807\n> x\n", none⟩ =
      [ascii "1,2a9223372036854775807", ascii "> x"] ∧
    apply ⟨ascii "1,2a9223372036854775807\n> x\n", none⟩ (recording okSink) ((), []) =
      some (((), []), .val (some .ErrUnexpectedEOF)) := by
  refine ⟨by decide, by decide, by decide⟩

/-! ## A stream that ends inside a hunk -/

theorem eatLines_truncated (pfx : Bytes) (n : Int) (texts : List Bytes) (j : Nat) (hn : n ≤ maxInt)
    (hl : texts.length = n.toNat) (hj : j < texts.length) :
    eatLines ((texts.map (fun t => pfx ++ t)).take j) pfx n = ([], some .ErrUnexpectedEOF) := by
  have hmin : minInt = -9223372036854775808 := rfl
  have hlen : (texts.take j).length = j := by rw [List.length_take]; omega
  unfold eatLines
  rw [← List.map_take, ← List.append_nil ((texts.take j).map _),
    eatLinesLoop_block pfx n [] hn (texts.take j) 0 (by omega) (by rw [hlen]; omega), hlen,
    eatLinesLoop_nil, if_pos (by omega)]

theorem addedLoop_truncated (n3 n4 : Int) (texts : List Bytes) (j : Nat) (h3 : 0 ≤ n3)
    (h4 : n4 ≤ maxInt) (hl : texts.length = (n4 - n3 + 1).toNat) (hj : j < texts.length) :
    (addedLoop n4 n3 ((texts.map (fun t => ascii "> " ++ t)).take j) []).2.2 =
      some .ErrUnexpectedEOF := by
  have hmin : minInt = -9223372036854775808 := rfl
  have hlen : (texts.take j).length = j := by rw [List.length_take]; omega
  rw [← List.map_take, ← List.append_nil ((texts.take j).map _),
    addedLoop_block n4 [] (texts.take j) n3 [] (by omega) (by rw [hlen]; omega)
      (by rw [hlen]; omega), hlen, addedLoop_nil, if_pos (by omega)]

theorem hunkBody_truncated (h : Hunk) (hw : h.WellFormed)
    (hr : h.op.op ≠ 97 → h.op.n2 - h.op.n1 < maxInt) (k : Nat)
    (hk : k < (h.dels.map (fun t => ascii "< " ++ t) ++
      (h.seps.map (fun t => ascii "---" ++ t) ++ h.adds.map (fun t => ascii "> " ++ t))).length) :
    (hunkBody h.op ((h.dels.map (fun t => ascii "< " ++ t) ++
      (h.seps.map (fun t => ascii "---" ++ t) ++
        h.adds.map (fun t => ascii "> " ++ t))).take k)).2.2 = some .ErrUnexpectedEOF := by
  have hmax : maxInt = 9223372036854775807 := rfl
  obtain ⟨v1, v2, v3, v4, ho⟩ := hw.valid
  obtain ⟨-, hd, hs, ha⟩ := hw
  simp only [List.length_append, List.length_map] at hk
  rcases ho with o | o | o
  · have n99 : ¬ h.op.op = 99 := by rw [o]; decide
    have n100 : ¬ h.op.op = 100 := by rw [o]; decide
    rw [if_pos o] at hd
    rw [if_neg n99] at hs
    rw [if_neg n100] at ha
    rw [hd, hs] at hk
    rw [List.length_eq_zero.1 hd, List.length_eq_zero.1 hs, hunkBody_add _ _ o]
    exact addedLoop_truncated _ _ _ _ v3.1 v4.2 ha (by omega)
  · have n97 : ¬ h.op.op = 97 := by rw [o]; decide
    have n100 : ¬ h.op.op = 100 := by rw [o]; decide
    rw [if_neg n97] at hd
    rw [if_pos o] at hs
    rw [if_neg n100] at ha
    have hcount := count_eq _ _ v1 v2 (hr n97)
    unfold hunkBody
    rw [if_pos (Or.inl o), List.take_append_eq_append_take, List.length_map]
    by_cases hkd : k < h.dels.length
    · rw [show k - h.dels.length = 0 by omega, List.take_zero, List.append_nil,
        eatLines_truncated (ascii "< ") (iadd (isub h.op.n2 h.op.n1) 1) h.dels k (wrapInt_inRange _).2
          (by rw [hcount]; exact hd) hkd]
    · rw [List.take_of_length_le (by rw [List.length_map]; omega),
        eatLines_texts (ascii "< ") (iadd (isub h.op.n2 h.op.n1) 1) h.dels _ (wrapInt_inRange _).2 (by rw [hcount]; exact hd)]
      dsimp only
      rw [if_pos o]
      obtain ⟨sp, hsp⟩ : ∃ sp, h.seps = [sp] := by
        match hh : h.seps, hs with
        | [sp], _ => exact ⟨sp, rfl⟩
      rw [hsp]
      cases hj : k - h.dels.length with
      | zero =>
        rw [List.take_zero]
        unfold eatLines
        rw [eatLinesLoop_nil, if_pos (by omega)]
      | succ j =>
        simp only [List.map_cons, List.map_nil, List.cons_append, List.nil_append,
          List.take_succ_cons]
        unfold eatLines
        rw [eatLinesLoop_cons, if_pos (by omega), if_pos (hasPrefix_append _ _),
          eatLinesLoop_done _ _ _ _ (by unfold iadd wrapInt; omega)]
        dsimp only
        rw [if_pos n100]
        exact addedLoop_truncated _ _ _ _ v3.1 v4.2 ha (by rw [hs] at hk; omega)
  · have n97 : ¬ h.op.op = 97 := by rw [o]; decide
    have n99 : ¬ h.op.op = 99 := by rw [o]; decide
    rw [if_neg n97] at hd
    rw [if_neg n99] at hs
    rw [if_pos o] at ha
    rw [hs, ha] at hk
    have hcount := count_eq _ _ v1 v2 (hr n97)
    unfold hunkBody
    rw [List.length_eq_zero.1 hs, List.length_eq_zero.1 ha, if_pos (Or.inr o)]
    simp only [List.map_nil, List.append_nil]
    rw [eatLines_truncated (ascii "< ") (iadd (isub h.op.n2 h.op.n1) 1) h.dels k (wrapInt_inRange _).2
      (by rw [hcount]; exact hd) (by omega)]

/-- C8 (as amended). Truncated stream: when the diff stream ends after a
header the parser accepts, met where a header is expected after a stream `r0`
that `apply` has applied in full, with only the first `k` lines of the body of
the hunk present, fewer than the body has (`n2 - n1 + 1` deleted lines for
Change and Delete, one separator for Change, `n4 - n3 + 1` added lines for Add
and Change), these lines being well formed and the count `n2 - n1 + 1` not
overflowing the Go `int`, `apply` returns `io.ErrUnexpectedEOF` and leaves the
edit sink in the state `st1` it was in after `r0`, so the sink is not invoked
for that hunk. -/
theorem apply_truncated {σ : Type} (edit : σ → Bytes → Bytes → σ × Option GoError)
    (r0 r : Reader) (st st1 : σ) (h : Hunk) (k : Nat)
    (h0 : apply r0 edit st = some (st1, .val none)) (hw : h.WellFormed)
    (hrange : h.op.op ≠ 97 → h.op.n2 - h.op.n1 < maxInt) (hk : k + 1 < h.lines.length)
    (hr : NewScanner r = NewScanner r0 ++ h.lines.take (k + 1)) :
    apply r edit st = some (st1, .val (some .ErrUnexpectedEOF)) := by
  obtain ⟨off1, e⟩ := apply_after edit r0 r st st1 _ h0 hr
  unfold Hunk.lines at hk e
  simp only [List.length_cons, Nat.add_lt_add_iff_right] at hk
  have hb := hunkBody_truncated h hw hrange k hk
  rw [e, List.take_succ_cons, List.length_cons, applyLoop_cons, hw.1]
  dsimp only
  rcases hbb : hunkBody h.op ((h.dels.map (fun t => ascii "< " ++ t) ++
      (h.seps.map (fun t => ascii "---" ++ t) ++
        h.adds.map (fun t => ascii "> " ++ t))).take k) with ⟨s1, buf, e1⟩
  rw [hbb] at hb
  dsimp only at hb
  subst hb
  rfl

theorem apply_truncated_witness :
    apply ⟨ascii "3a4\n> qux\n2,3c2,3\n< bar\n< baz\n---\n> BAR\n", none⟩ (recording okSink)
        ((), []) =
      some (((), [⟨ascii "3+#0", ascii "qux\n", none⟩]), .val (some .ErrUnexpectedEOF)) :=
  apply_truncated (recording okSink) ⟨ascii "3a4\n> qux\n", none⟩
    ⟨ascii "3a4\n> qux\n2,3c2,3\n< bar\n< baz\n---\n> BAR\n", none⟩ ((), [])
    ((), [⟨ascii "3+#0", ascii "qux\n", none⟩])
    ⟨ascii "2,3c2,3", [ascii "bar", ascii "baz"], [[]], [ascii "BAR", ascii "BAZ"]⟩ 4
    (by decide) (by unfold Hunk.WellFormed; decide) (by decide) (by decide) (by decide)

theorem apply_truncated_counterexample :
    parseDiffOp (ascii "0,9223372036854775807d0") =
      .val (⟨0, 9223372036854775807, 0, 0, 100⟩, none) ∧
    NewScanner ⟨ascii "0,9223372036854775807d0\n", none⟩ = [ascii "0,9223372036854775807d0"] ∧
    apply ⟨ascii "0,9223372036854775807d0\n", none⟩ (recording okSink) ((), []) =
      some (((), [⟨ascii "0,9223372036854775807", [], none⟩]), .val none) := by
  refine ⟨by decide, by decide, by decide⟩

/-! ## The scanner on a stream of lines -/

theorem scanTokens_cons (b : UInt8) (bs cur : Bytes) :
    scanTokens (b :: bs) cur =
      if b = 10 then (dropCR cur :: (scanTokens bs []).1, (scanTokens bs []).2)
      else if maxScanTokenSize ≤ cur.length + 1 then ([], some .ErrTooLong)
      else scanTokens bs (cur ++ [b]) := by
  rw [scanTokens]

theorem scanTokens_line (l : Bytes) : ∀ (cur rest : Bytes), (10 : UInt8) ∉ l →
    (cur ++ l).length < maxScanTokenSize →
    scanTokens (l ++ 10 :: rest) cur =
      (dropCR (cur ++ l) :: (scanTokens rest []).1, (scanTokens rest []).2) := by
  induction l with
  | nil =>
    intro cur rest _ _
    rw [List.nil_append, scanTokens_cons, if_pos rfl, List.append_nil]
  | cons b l ih =>
    intro cur rest hn hl
    have hb : b ≠ 10 := fun e => hn (e ▸ List.mem_cons_self _ _)
    have hl' : ¬ maxScanTokenSize ≤ cur.length + 1 := by
      simp only [List.length_append, List.length_cons] at hl
      omega
    rw [List.cons_append, scanTokens_cons, if_neg hb, if_neg hl',
      ih (cur ++ [b]) rest (fun h => hn (List.mem_cons_of_mem _ h)) (by simpa using hl)]
    simp

theorem scanTokens_encodeLines (ls : List Bytes) (h : ∀ l ∈ ls, ScanLine l) :
    scanTokens (encodeLines ls) [] = (ls.map dropCR, none) := by
  induction ls with
  | nil => rfl
  | cons l ls ih =>
    have hl := h l (List.mem_cons_self _ _)
    unfold encodeLines at ih ⊢
    simp only [List.map_cons, List.flatten_cons, List.append_assoc, List.singleton_append]
    rw [scanTokens_line l [] _ hl.1 (by simpa using hl.2),
      ih (fun x hx => h x (List.mem_cons_of_mem _ hx))]
    rfl

theorem scanTokens_tooLong (l : Bytes) : ∀ (cur rest : Bytes), (10 : UInt8) ∉ l →
    cur.length < maxScanTokenSize → maxScanTokenSize ≤ cur.length + l.length →
    scanTokens (l ++ rest) cur = ([], some .ErrTooLong) := by
  induction l with
  | nil => intro cur rest _ h1 h2; simp only [List.length_nil] at h2; omega
  | cons b l ih =>
    intro cur rest hn h1 h2
    have hb : b ≠ 10 := fun e => hn (e ▸ List.mem_cons_self _ _)
    rw [List.cons_append, scanTokens_cons, if_neg hb]
    by_cases h3 : maxScanTokenSize ≤ cur.length + 1
    · rw [if_pos h3]
    · rw [if_neg h3]
      apply ih _ _ (fun h => hn (List.mem_cons_of_mem _ h))
      · simp only [List.length_append, List.length_singleton]; omega
      · simp only [List.length_append, List.length_singleton, List.length_cons] at h2 ⊢; omega

theorem dropCR_nil : dropCR [] = [] := rfl

theorem dropCR_append (m t : Bytes) (hl : m.getLast? ≠ some 13) :
    dropCR (m ++ t) = m ++ dropCR t := by
  cases t with
  | nil =>
    rw [List.append_nil, dropCR_nil, List.append_nil]
    unfold dropCR
    rw [if_neg hl]
  | cons b t =>
    unfold dropCR
    have e1 : (m ++ b :: t).getLast? = (b :: t).getLast? := by
      rw [List.getLast?_append]
      cases hh : (b :: t).getLast? with
      | none => simp at hh
      | some x => rfl
    rw [e1]
    split
    · exact List.dropLast_append_of_ne_nil _ (List.cons_ne_nil _ _)
    · rfl

theorem streamLines_scanned (hs : List Hunk) :
    (streamLines hs).map dropCR = streamLines (hs.map Hunk.scanned) := by
  induction hs with
  | nil => rfl
  | cons h hs ih =>
    rw [List.map_cons, streamLines_cons, streamLines_cons, List.map_append, ih]
    congr 1
    simp only [Hunk.lines, Hunk.scanned, List.map_cons, List.map_append, List.map_map]
    congr 2
    · apply List.map_congr_left
      intro t _
      exact dropCR_append _ t (by decide)
    · congr 1
      · apply List.map_congr_left
        intro t _
        exact dropCR_append _ t (by decide)
      · apply List.map_congr_left
        intro t _
        exact dropCR_append _ t (by decide)

/-! ## The replacement text -/

theorem payload_scanned (h : Hunk) :
    h.scanned.payload = (h.adds.map (fun t => dropCR t ++ [10])).flatten := by
  simp only [Hunk.payload, Hunk.scanned, List.map_map]
  rfl

theorem newScanner_encodeLines (r : Reader) (hs : List Hunk)
    (hd : r.data = encodeLines (streamLines hs)) (hl : ∀ l ∈ streamLines hs, ScanLine l) :
    NewScanner r = streamLines (hs.map Hunk.scanned) := by
  unfold NewScanner
  rw [hd, scanTokens_encodeLines _ hl, streamLines_scanned]

/-- The payloads that `apply` passes on a diff stream whose bytes are the
lines of the hunks `hs`, each line free of newlines, shorter than the buffer
of the scanner and followed by a newline, the hunks being well formed as the
scanner delivers them and their line counts within the Go `int`: the payload
of an edit is the concatenation, in order, over the added lines `"> " + t` of
its hunk, of `t` without one trailing carriage return, followed by a newline;
for a Delete hunk it is empty. With a sink that never fails and every Add
naming a single line, `apply` succeeds and passes these payloads for all the
hunks, one each. -/
theorem apply_payload {σ : Type} (edit : σ → Bytes → Bytes → σ × Option GoError)
    (hs : List Hunk) (r : Reader) (s : σ) (hd : r.data = encodeLines (streamLines hs))
    (hl : ∀ l ∈ streamLines hs, ScanLine l)
    (hwf : ∀ h ∈ hs, h.scanned.WellFormed ∧ h.scanned.InRange) :
    ∃ s' log res, apply r (recording edit) (s, []) = some ((s', log), res) ∧
      (∀ (i : Nat) (c : Call), log[i]? = some c →
        ∃ h, hs[i]? = some h ∧ c.data = (h.adds.map (fun t => dropCR t ++ [10])).flatten ∧
          (h.scanned.op.op = 100 → c.data = [])) ∧
      ((∀ s a d, (edit s a d).2 = none) → (∀ h ∈ hs, h.scanned.PointAdd) →
        res = .val none ∧
        log.map Call.data = hs.map (fun h => (h.adds.map (fun t => dropCR t ++ [10])).flatten)) := by
  have hwf' : ∀ h ∈ hs.map Hunk.scanned, h.WellFormed ∧ h.InRange := by
    intro h hh
    obtain ⟨x, hx, rfl⟩ := List.mem_map.1 hh
    exact hwf x hx
  have hr := newScanner_encodeLines r hs hd hl
  obtain ⟨s', log, res, a1, a2⟩ := apply_hunks_any edit (hs.map Hunk.scanned) r s hr hwf'
  refine ⟨s', log, res, a1, ?_, ?_⟩
  · intro i c hc
    have hi := (List.getElem?_eq_some.1 hc).1
    have e1 : ((log.map Call.args)[i]?).map Prod.snd = some c.data := by
      rw [List.getElem?_map, hc]; rfl
    rw [a2, List.getElem?_take_of_lt hi, codeEdits_getElem?_snd, List.getElem?_map] at e1
    cases hh : hs[i]? with
    | none => rw [hh] at e1; cases e1
    | some h =>
      rw [hh] at e1
      simp only [Option.map_some', Option.some.injEq] at e1
      have hmem : h ∈ hs := List.getElem?_mem hh
      refine ⟨h, rfl, ?_, ?_⟩
      · rw [← e1, payload_scanned]
      · intro ho
        have ha := (hwf h hmem).1.2.2.2
        rw [if_pos ho] at ha
        rw [← e1, Hunk.payload, List.length_eq_zero.1 ha]
        rfl
  · intro h2 hp
    obtain ⟨t', ext, res2, b1, -, b3⟩ := apply_hunks edit h2 (hs.map Hunk.scanned) r s hr hwf'
    rw [a1] at b1
    simp only [Option.some.injEq, Prod.mk.injEq] at b1
    obtain ⟨⟨-, rfl⟩, rfl⟩ := b1
    obtain ⟨c1, c2, -⟩ := b3 (by
      intro h hh
      obtain ⟨x, hx, rfl⟩ := List.mem_map.1 hh
      exact hp x hx)
    refine ⟨c2, ?_⟩
    have e := congrArg (List.map Prod.snd) c1
    rw [codeEdits_map_snd, List.map_map, List.map_map] at e
    rw [show Call.data = Prod.snd ∘ Call.args from rfl, e]
    apply List.map_congr_left
    intro h _
    exact payload_scanned h

theorem apply_payload_witness :
    ∃ s' log res, apply ⟨ascii "2c2\n< bar\n---\n> BAR\r\n3a4,5\n> qux\n> \n", none⟩
        (recording okSink) ((), []) = some ((s', log), res) ∧
      (∀ (i : Nat) (c : Call), log[i]? = some c →
        ∃ h, [(⟨ascii "2c2", [ascii "bar"], [[]], [ascii "BAR\r"]⟩ : Hunk),
            ⟨ascii "3a4,5", [], [], [ascii "qux", []]⟩][i]? = some h ∧
          c.data = (h.adds.map (fun t => dropCR t ++ [10])).flatten ∧
          (h.scanned.op.op = 100 → c.data = [])) ∧
      ((∀ s a d, (okSink s a d).2 = none) →
        (∀ h ∈ [(⟨ascii "2c2", [ascii "bar"], [[]], [ascii "BAR\r"]⟩ : Hunk),
            ⟨ascii "3a4,5", [], [], [ascii "qux", []]⟩], h.scanned.PointAdd) →
        res = .val none ∧
        log.map Call.data =
          [(⟨ascii "2c2", [ascii "bar"], [[]], [ascii "BAR\r"]⟩ : Hunk),
            ⟨ascii "3a4,5", [], [], [ascii "qux", []]⟩].map
            (fun h => (h.adds.map (fun t => dropCR t ++ [10])).flatten)) :=
  apply_payload okSink
    [⟨ascii "2c2", [ascii "bar"], [[]], [ascii "BAR\r"]⟩, ⟨ascii "3a4,5", [], [], [ascii "qux", []]⟩]
    ⟨ascii "2c2\n< bar\n---\n> BAR\r\n3a4,5\n> qux\n> \n", none⟩ () (by decide)
    (by
      intro l hl
      simp only [streamLines, List.flatMap_cons, List.flatMap_nil, Hunk.lines, List.map_cons,
        List.map_nil, List.append_nil, List.cons_append, List.nil_append, List.mem_cons,
        List.mem_singleton, List.not_mem_nil, or_false] at hl
      unfold ScanLine maxScanTokenSize
      rcases hl with rfl | rfl | rfl | rfl | rfl | rfl | rfl <;> decide)
    (by
      intro h hh
      simp only [List.mem_cons, List.mem_singleton, List.not_mem_nil, or_false] at hh
      rcases hh with rfl | rfl
      · exact ⟨by unfold Hunk.WellFormed; decide, by unfold Hunk.InRange; decide⟩
      · exact ⟨by unfold Hunk.WellFormed; decide, by unfold Hunk.InRange; decide⟩)

/-- C4, at the failing input. The diff stream `0a1 / > x\r`, whose one added
line is the marker `> ` followed by the text `x\r`, a text without a newline
that ends in a carriage return: the scanner hands `apply` the line `> x`, the
carriage return gone, and `apply` passes the payload `x\n` to the edit sink,
which is not the text `x\r` followed by a newline. Applied to the empty
document, the edit leaves the line `x`, where the added line is `x\r`. -/
theorem apply_payload_carriage_return :
    NewScanner ⟨ascii "0a1\n> x\r\n", none⟩ = [ascii "0a1", ascii "> x"] ∧
    apply ⟨ascii "0a1\n> x\r\n", none⟩ (recording okSink) ((), []) =
      some (((), [⟨ascii "0+#0", ascii "x\n", none⟩]), .val none) ∧
    ascii "x\n" ≠ ascii "x\r" ++ ascii "\n" ∧
    apply ⟨ascii "0a1\n> x\r\n", none⟩ memEdit [] = some ([ascii "x"], .val none) ∧
    ascii "x" ≠ ascii "x\r" := by
  refine ⟨by decide, by decide, by decide, by decide, by decide⟩

/-! ## Addresses and payloads read back -/

theorem payloadLines_cons (b : UInt8) (bs cur : Bytes) :
    payloadLines (b :: bs) cur =
      if b = 10 then cur :: payloadLines bs [] else payloadLines bs (cur ++ [b]) := by
  rw [payloadLines]

theorem payloadLines_line (l : Bytes) : ∀ (cur rest : Bytes), (10 : UInt8) ∉ l →
    payloadLines (l ++ 10 :: rest) cur = (cur ++ l) :: payloadLines rest [] := by
  induction l with
  | nil =>
    intro cur rest _
    rw [List.nil_append, payloadLines_cons, if_pos rfl, List.append_nil]
  | cons b l ih =>
    intro cur rest hn
    have hb : b ≠ 10 := fun e => hn (e ▸ List.mem_cons_self _ _)
    rw [List.cons_append, payloadLines_cons, if_neg hb,
      ih (cur ++ [b]) rest (fun h => hn (List.mem_cons_of_mem _ h))]
    simp

theorem payloadLines_texts (ts : List Bytes) (h : ∀ t ∈ ts, (10 : UInt8) ∉ t) :
    payloadLines ((ts.map (fun t => t ++ [10])).flatten) [] = ts := by
  induction ts with
  | nil => rfl
  | cons t ts ih =>
    simp only [List.map_cons, List.flatten_cons, List.append_assoc, List.singleton_append]
    rw [payloadLines_line t [] _ (h t (List.mem_cons_self _ _)),
      ih (fun x hx => h x (List.mem_cons_of_mem _ hx))]
    rfl

theorem fmtInt_of_nat (n : Nat) : fmtInt (n : Int) = fmtNat n := by
  unfold fmtInt
  rw [if_neg (by omega)]
  rfl

theorem parseAddress_line (n : Nat) : parseAddress (fmtNat n) = some (.line n) := by
  have hs := span_digits (fmtNat n) [] (fmtNat_spec n).2.1 (by intro c t h; cases h)
  rw [List.append_nil] at hs
  unfold parseAddress
  rw [hs]
  dsimp only
  rw [if_neg (fmtNat_spec n).1, if_pos rfl, digitsVal_fmtNat]

theorem parseAddress_after (n : Nat) :
    parseAddress (fmtNat n ++ ascii "+#0") = some (.after n) := by
  have hs := span_digits (fmtNat n) (ascii "+#0") (fmtNat_spec n).2.1
    (by intro c t h; cases h; decide)
  unfold parseAddress
  rw [hs]
  dsimp only
  rw [if_neg (fmtNat_spec n).1, if_neg (by decide), if_pos rfl, digitsVal_fmtNat]

theorem parseAddress_range (n m : Nat) :
    parseAddress (fmtNat n ++ ascii "," ++ fmtNat m) = some (.range n m) := by
  have hs := span_digits (fmtNat n) (ascii "," ++ fmtNat m) (fmtNat_spec n).2.1
    (by intro c t h; cases h; decide)
  have hall : (fmtNat m).all isDigit = true := List.all_eq_true.2 (fmtNat_spec m).2.1
  unfold parseAddress
  rw [List.append_assoc, hs]
  dsimp only
  rw [if_neg (fmtNat_spec n).1, if_neg (by simp [ascii]), if_neg (by simp [ascii])]
  show (if (44 : UInt8) = 44 ∧ fmtNat m ≠ [] ∧ (fmtNat m).all isDigit = true then _ else _) = _
  rw [if_pos ⟨rfl, (fmtNat_spec m).1, hall⟩, digitsVal_fmtNat]
  exact congrArg (fun x => some (Address.range n x)) (digitsVal_fmtNat m)

/-! ## Splicing a document -/

theorem splice_take (O N : List Bytes) (pos npos k : Nat) (hn : npos ≤ N.length)
    (hk : (O.drop pos).take k = (N.drop npos).take k) :
    (N.take npos ++ O.drop pos).take (npos + k) = N.take (npos + k) := by
  have hl : (N.take npos).length = npos := List.length_take_of_le hn
  have := @List.take_append _ (N.take npos) (O.drop pos) k
  rw [hl] at this
  rw [this, hk, List.take_add]

theorem splice_drop (O N : List Bytes) (pos npos j : Nat) (hn : npos ≤ N.length) :
    (N.take npos ++ O.drop pos).drop (npos + j) = O.drop (pos + j) := by
  have hl : (N.take npos).length = npos := List.length_take_of_le hn
  have := @List.drop_append _ (N.take npos) (O.drop pos) j
  rw [hl] at this
  rw [this, List.drop_drop]

theorem splice_length (O N : List Bytes) (pos npos : Nat) (hn : npos ≤ N.length) :
    (N.take npos ++ O.drop pos).length = npos + (O.length - pos) := by
  rw [List.length_append, List.length_take_of_le hn, List.length_drop]

theorem memEdit_after (doc : List Bytes) (n : Nat) (ts : List Bytes)
    (ht : ∀ t ∈ ts, (10 : UInt8) ∉ t) (hn : n ≤ doc.length) :
    memEdit doc (fmtInt (n : Int) ++ ascii "+#0") ((ts.map (fun t => t ++ [10])).flatten) =
      (doc.take n ++ ts ++ doc.drop n, none) := by
  unfold memEdit
  rw [fmtInt_of_nat, parseAddress_after]
  dsimp only
  rw [if_pos hn, payloadLines_texts ts ht]

theorem memEdit_line (doc : List Bytes) (n : Nat) (ts : List Bytes)
    (ht : ∀ t ∈ ts, (10 : UInt8) ∉ t) (h1 : 1 ≤ n) (hn : n ≤ doc.length) :
    memEdit doc (fmtInt (n : Int) ++ []) ((ts.map (fun t => t ++ [10])).flatten) =
      (doc.take (n - 1) ++ ts ++ doc.drop n, none) := by
  unfold memEdit
  rw [List.append_nil, fmtInt_of_nat, parseAddress_line]
  dsimp only
  rw [if_pos ⟨h1, hn⟩, payloadLines_texts ts ht]

theorem memEdit_range (doc : List Bytes) (n m : Nat) (ts : List Bytes)
    (ht : ∀ t ∈ ts, (10 : UInt8) ∉ t) (h1 : 1 ≤ n) (h2 : n ≤ m) (hn : m ≤ doc.length) :
    memEdit doc (fmtInt (n : Int) ++ ascii "," ++ fmtInt (m : Int))
        ((ts.map (fun t => t ++ [10])).flatten) =
      (doc.take (n - 1) ++ ts ++ doc.drop m, none) := by
  unfold memEdit
  rw [fmtInt_of_nat, fmtInt_of_nat, parseAddress_range]
  dsimp only
  rw [if_pos ⟨h1, h2, hn⟩, payloadLines_texts ts ht]

/-! ## Round trip: the loop on a described pair of documents -/

theorem Hunk.op_eq (h : Hunk) (op : diffOp) (e : Option GoError)
    (hp : parseDiffOp h.cmd = .val (op, e)) : h.op = op := by
  unfold Hunk.op
  rw [hp]

theorem memEdit_replace (O N : List Bytes) (pos npos k d : Nat) (ts : List Bytes) (op : diffOp)
    (hop : op.op ≠ 97) (h1 : op.n1 = ((pos + k + 1 : Nat) : Int))
    (h2 : op.n2 = ((pos + k + d : Nat) : Int)) (hd : 1 ≤ d) (hpos : pos ≤ O.length)
    (hO : pos + k + d ≤ O.length) (hn : npos + k ≤ N.length)
    (hk : (O.drop pos).take k = (N.drop npos).take k)
    (hsize : (O.length : Int) + N.length < maxInt) (ht : ∀ t ∈ ts, (10 : UInt8) ∉ t) :
    ∃ addr, hunkAddr op ((npos : Int) - pos) = (addr, none) ∧
      memEdit (N.take npos ++ O.drop pos) addr ((ts.map (fun t => t ++ [10])).flatten) =
        (N.take (npos + k) ++ ts ++ O.drop (pos + k + d), none) := by
  have hmin : minInt = -9223372036854775808 := rfl
  have hmax : maxInt = 9223372036854775807 := rfl
  have hnp : npos ≤ N.length := by omega
  have hlen := splice_length O N pos npos hnp
  have e1 : iadd op.n1 ((npos : Int) - pos) = ((npos + k + 1 : Nat) : Int) := by
    rw [h1, iadd_of_range _ _ (by push_cast; omega) (by push_cast; omega)]
    push_cast; omega
  have e2 : iadd op.n2 ((npos : Int) - pos) = ((npos + k + d : Nat) : Int) := by
    rw [h2, iadd_of_range _ _ (by push_cast; omega) (by push_cast; omega)]
    push_cast; omega
  have etake : (N.take npos ++ O.drop pos).take (npos + k + 1 - 1) = N.take (npos + k) := by
    rw [Nat.add_sub_cancel]
    exact splice_take O N pos npos k hnp hk
  have edrop : (N.take npos ++ O.drop pos).drop (npos + k + d) = O.drop (pos + k + d) := by
    rw [Nat.add_assoc, Nat.add_assoc]
    exact splice_drop O N pos npos (k + d) hnp
  unfold hunkAddr
  by_cases h12 : op.n1 = op.n2
  · have hd1 : d = 1 := by rw [h1, h2] at h12; omega
    subst hd1
    rw [if_pos h12, if_neg hop, e1]
    refine ⟨_, rfl, ?_⟩
    rw [memEdit_line _ _ ts ht (by omega) (by omega), etake, edrop]
  · rw [if_neg h12, if_neg hop, e1, e2]
    refine ⟨_, rfl, ?_⟩
    rw [memEdit_range _ _ _ ts ht (by omega) (by omega) (by omega), etake, edrop]

theorem memEdit_insert (O N : List Bytes) (pos npos k : Nat) (ts : List Bytes) (op : diffOp)
    (hop : op.op = 97) (h1 : op.n1 = ((pos + k : Nat) : Int))
    (h2 : op.n2 = ((pos + k : Nat) : Int)) (hpos : pos ≤ O.length)
    (hO : pos + k ≤ O.length) (hn : npos + k ≤ N.length)
    (hk : (O.drop pos).take k = (N.drop npos).take k)
    (hsize : (O.length : Int) + N.length < maxInt) (ht : ∀ t ∈ ts, (10 : UInt8) ∉ t) :
    ∃ addr, hunkAddr op ((npos : Int) - pos) = (addr, none) ∧
      memEdit (N.take npos ++ O.drop pos) addr ((ts.map (fun t => t ++ [10])).flatten) =
        (N.take (npos + k) ++ ts ++ O.drop (pos + k), none) := by
  have hmin : minInt = -9223372036854775808 := rfl
  have hmax : maxInt = 9223372036854775807 := rfl
  have hnp : npos ≤ N.length := by omega
  have hlen := splice_length O N pos npos hnp
  have e1 : iadd op.n1 ((npos : Int) - pos) = ((npos + k : Nat) : Int) := by
    rw [h1, iadd_of_range _ _ (by push_cast; omega) (by push_cast; omega)]
    push_cast; omega
  unfold hunkAddr
  rw [if_pos (by rw [h1, h2]), if_pos hop, e1]
  refine ⟨_, rfl, ?_⟩
  rw [memEdit_after _ _ ts ht (by omega), splice_take O N pos npos k hnp hk,
    splice_drop O N pos npos k hnp]

theorem applyLoop_describes (O N : List Bytes) (hsize : (O.length : Int) + N.length < maxInt)
    (hNl : ∀ l ∈ N, (10 : UInt8) ∉ l) (pos npos : Nat) (hs : List Hunk)
    (hdesc : Describes O N pos npos hs) :
    pos ≤ O.length → npos ≤ N.length → ∀ f : Nat, (streamLines hs).length < f →
      applyLoop memEdit f (streamLines hs) ((npos : Int) - pos) (N.take npos ++ O.drop pos) =
        some (N, .val none) := by
  have hmin : minInt = -9223372036854775808 := rfl
  have hmax : maxInt = 9223372036854775807 := rfl
  induction hdesc with
  | done pos npos h =>
    intro _ _ f hf
    cases f with
    | zero => omega
    | succ f =>
      rw [h, List.take_append_drop]
      rfl
  | add pos npos k m cmd hs hp hc hm hO hN hk hrest ih =>
    intro hpos hnpos f hf
    have hopeq := Hunk.op_eq ⟨cmd, [], [], (N.drop (npos + k)).take m⟩ _ _ hp
    have hlenA : ((N.drop (npos + k)).take m).length = m := by
      rw [List.length_take, List.length_drop]; omega
    have hw : Hunk.WellFormed ⟨cmd, [], [], (N.drop (npos + k)).take m⟩ := by
      unfold Hunk.WellFormed
      rw [hopeq]
      refine ⟨hp, ?_, ?_, ?_⟩
      · rfl
      · rfl
      · dsimp only
        rw [if_neg (by decide), hlenA]
        omega
    have hr : Hunk.InRange ⟨cmd, [], [], (N.drop (npos + k)).take m⟩ := by
      unfold Hunk.InRange
      rw [hopeq]
      dsimp only
      exact ⟨fun _ => by omega, fun _ => by omega⟩
    have ht : ∀ t ∈ (N.drop (npos + k)).take m, (10 : UInt8) ∉ t :=
      fun t h => hNl t (List.mem_of_mem_drop (List.mem_of_mem_take h))
    obtain ⟨addr, ha, he⟩ := memEdit_insert O N pos npos k _
      (Hunk.op ⟨cmd, [], [], (N.drop (npos + k)).take m⟩) (by rw [hopeq]) (by rw [hopeq])
      (by rw [hopeq]) hpos hO (by omega) hk hsize ht
    have hoff : nextOffset (Hunk.op ⟨cmd, [], [], (N.drop (npos + k)).take m⟩)
        ((npos : Int) - pos) = ((npos + k + m : Nat) : Int) - ((pos + k : Nat) : Int) := by
      rw [nextOffset_eq _ _ hw.valid.2.2.2.2, hopeq]
      unfold delta
      dsimp only
      rw [if_pos rfl, wrapInt_of_range _ (by push_cast; omega) (by push_cast; omega)]
      push_cast; omega
    rw [streamLines_cons] at hf ⊢
    have hposl := Hunk.lines_length_pos ⟨cmd, [], [], (N.drop (npos + k)).take m⟩
    rw [List.length_append] at hf
    cases f with
    | zero => omega
    | succ f =>
      rw [applyLoop_hunk memEdit _ hw hr, ha]
      dsimp only
      rw [show Hunk.payload ⟨cmd, [], [], (N.drop (npos + k)).take m⟩ =
        (((N.drop (npos + k)).take m).map (fun t => t ++ [10])).flatten from rfl, he]
      dsimp only
      rw [hoff, ← List.take_add]
      exact ih hO hN f (by omega)
  | delete pos npos k d n3 n4 cmd hs hp hc hd hO hN hk hrest ih =>
    intro hpos hnpos f hf
    have hopeq := Hunk.op_eq ⟨cmd, (O.drop (pos + k)).take d, [], []⟩ _ _ hp
    have hlenD : ((O.drop (pos + k)).take d).length = d := by
      rw [List.length_take, List.length_drop]; omega
    have hw : Hunk.WellFormed ⟨cmd, (O.drop (pos + k)).take d, [], []⟩ := by
      unfold Hunk.WellFormed
      rw [hopeq]
      refine ⟨hp, ?_, ?_, ?_⟩
      · dsimp only
        rw [if_neg (by decide), hlenD]
        omega
      · rfl
      · rfl
    have hr : Hunk.InRange ⟨cmd, (O.drop (pos + k)).take d, [], []⟩ := by
      unfold Hunk.InRange
      rw [hopeq]
      dsimp only
      exact ⟨fun _ => by omega, fun h => absurd rfl h⟩
    obtain ⟨addr, ha, he⟩ := memEdit_replace O N pos npos k d []
      (Hunk.op ⟨cmd, (O.drop (pos + k)).take d, [], []⟩) (by rw [hopeq]; dsimp only; decide) (by rw [hopeq])
      (by rw [hopeq]) hd hpos hO hN hk hsize (by simp)
    have hoff : nextOffset (Hunk.op ⟨cmd, (O.drop (pos + k)).take d, [], []⟩)
        ((npos : Int) - pos) = ((npos + k : Nat) : Int) - ((pos + k + d : Nat) : Int) := by
      rw [nextOffset_eq _ _ hw.valid.2.2.2.2, hopeq]
      unfold delta
      dsimp only
      rw [if_neg (by decide), if_pos rfl,
        wrapInt_of_range _ (by push_cast; omega) (by push_cast; omega)]
      push_cast; omega
    rw [streamLines_cons] at hf ⊢
    have hposl := Hunk.lines_length_pos ⟨cmd, (O.drop (pos + k)).take d, [], []⟩
    rw [List.length_append] at hf
    cases f with
    | zero => omega
    | succ f =>
      rw [applyLoop_hunk memEdit _ hw hr, ha]
      dsimp only
      rw [show Hunk.payload ⟨cmd, (O.drop (pos + k)).take d, [], []⟩ =
        (([] : List Bytes).map (fun t => t ++ [10])).flatten from rfl, he]
      dsimp only
      rw [hoff, List.append_nil]
      exact ih hO hN f (by omega)
  | change pos npos k d m cmd hs hp hc hd hm hO hN hk hrest ih =>
    intro hpos hnpos f hf
    have hopeq := Hunk.op_eq
      ⟨cmd, (O.drop (pos + k)).take d, [[]], (N.drop (npos + k)).take m⟩ _ _ hp
    have hlenD : ((O.drop (pos + k)).take d).length = d := by
      rw [List.length_take, List.length_drop]; omega
    have hlenA : ((N.drop (npos + k)).take m).length = m := by
      rw [List.length_take, List.length_drop]; omega
    have hw : Hunk.WellFormed
        ⟨cmd, (O.drop (pos + k)).take d, [[]], (N.drop (npos + k)).take m⟩ := by
      unfold Hunk.WellFormed
      rw [hopeq]
      refine ⟨hp, ?_, ?_, ?_⟩
      · dsimp only
        rw [if_neg (by decide), hlenD]
        omega
      · rfl
      · dsimp only
        rw [if_neg (by decide), hlenA]
        omega
    have hr : Hunk.InRange
        ⟨cmd, (O.drop (pos + k)).take d, [[]], (N.drop (npos + k)).take m⟩ := by
      unfold Hunk.InRange
      rw [hopeq]
      dsimp only
      exact ⟨fun _ => by omega, fun _ => by omega⟩
    have ht : ∀ t ∈ (N.drop (npos + k)).take m, (10 : UInt8) ∉ t :=
      fun t h => hNl t (List.mem_of_mem_drop (List.mem_of_mem_take h))
    obtain ⟨addr, ha, he⟩ := memEdit_replace O N pos npos k d _
      (Hunk.op ⟨cmd, (O.drop (pos + k)).take d, [[]], (N.drop (npos + k)).take m⟩)
      (by rw [hopeq]; dsimp only; decide) (by rw [hopeq]) (by rw [hopeq]) hd hpos hO (by omega) hk hsize ht
    have hoff : nextOffset
        (Hunk.op ⟨cmd, (O.drop (pos + k)).take d, [[]], (N.drop (npos + k)).take m⟩)
        ((npos : Int) - pos) = ((npos + k + m : Nat) : Int) - ((pos + k + d : Nat) : Int) := by
      rw [nextOffset_eq _ _ hw.valid.2.2.2.2, hopeq]
      unfold delta
      dsimp only
      rw [if_neg (by decide), if_neg (by decide),
        wrapInt_of_range _ (by push_cast; omega) (by push_cast; omega)]
      push_cast; omega
    rw [streamLines_cons] at hf ⊢
    have hposl := Hunk.lines_length_pos
      ⟨cmd, (O.drop (pos + k)).take d, [[]], (N.drop (npos + k)).take m⟩
    rw [List.length_append] at hf
    cases f with
    | zero => omega
    | succ f =>
      rw [applyLoop_hunk memEdit _ hw hr, ha]
      dsimp only
      rw [show Hunk.payload
          ⟨cmd, (O.drop (pos + k)).take d, [[]], (N.drop (npos + k)).take m⟩ =
        (((N.drop (npos + k)).take m).map (fun t => t ++ [10])).flatten from rfl, he]
      dsimp only
      rw [hoff, ← List.take_add]
      exact ih hO hN f (by omega)

/-! ## Round trip -/

theorem dropCR_of_not_mem (l : Bytes) (h : (13 : UInt8) ∉ l) : dropCR l = l := by
  unfold dropCR
  rw [if_neg (fun e => h (List.mem_of_getLast?_eq_some e))]

theorem parseDiffOp_no_cr (cmd : Bytes) (op : diffOp) (h : parseDiffOp cmd = .val (op, none)) :
    (13 : UInt8) ∉ cmd := by
  have hne : cmdPatFind cmd ≠ [] := by
    intro e
    unfold parseDiffOp at h
    rw [e] at h
    simp at h
  obtain ⟨d1, d2, o, d3, d4, h1, h2, ho, h3, h4, rfl⟩ := cmdPatFind_grammar cmd hne
  have hd : ∀ d : Bytes, (∀ b ∈ d, isDigit b = true) → (13 : UInt8) ∉ d := by
    intro d hd hm
    have := hd 13 hm
    revert this
    decide
  have hopt : ∀ d2 : Option Bytes, (∀ d, d2 = some d → IsDigits d) → (13 : UInt8) ∉ optPart d2 := by
    intro d2 h2 hm
    cases d2 with
    | none => simp [optPart] at hm
    | some d =>
      simp only [optPart, List.mem_cons] at hm
      rcases hm with hm | hm
      · revert hm; decide
      · exact hd d (h2 d rfl).2 hm
  intro hm
  simp only [headerLine, List.mem_append, List.mem_cons] at hm
  rcases hm with (hm | hm) | hm | hm | hm
  · exact hd d1 h1.2 hm
  · exact hopt d2 h2 hm
  · rcases ho with e | e | e <;> rw [e] at hm <;> revert hm <;> decide
  · exact hd d3 h3.2 hm
  · exact hopt d4 h4 hm

theorem marker_line (m t : Bytes) (hm10 : (10 : UInt8) ∉ m) (hm13 : (13 : UInt8) ∉ m)
    (hlen : m.length ≤ 2) (ht : TextLine t) :
    ScanLine (m ++ t) ∧ (13 : UInt8) ∉ m ++ t := by
  refine ⟨⟨?_, ?_⟩, ?_⟩
  · intro h; rcases List.mem_append.1 h with h | h
    · exact hm10 h
    · exact ht.1 h
  · rw [List.length_append]; have := ht.2.2; omega
  · intro h; rcases List.mem_append.1 h with h | h
    · exact hm13 h
    · exact ht.2.1 h

theorem describes_lines (O N : List Bytes) (hO : ∀ l ∈ O, TextLine l) (hN : ∀ l ∈ N, TextLine l)
    (pos npos : Nat) (hs : List Hunk) (hdesc : Describes O N pos npos hs) :
    ∀ l ∈ streamLines hs, ScanLine l ∧ (13 : UInt8) ∉ l := by
  have hOd : ∀ (a b : Nat), ∀ t ∈ (O.drop a).take b, TextLine t :=
    fun a b t h => hO t (List.mem_of_mem_drop (List.mem_of_mem_take h))
  have hNd : ∀ (a b : Nat), ∀ t ∈ (N.drop a).take b, TextLine t :=
    fun a b t h => hN t (List.mem_of_mem_drop (List.mem_of_mem_take h))
  have hnil : TextLine [] := ⟨by simp, by simp, by decide⟩
  induction hdesc with
  | done pos npos h => intro l hl; simp [streamLines] at hl
  | add pos npos k m cmd hs hp hc hm hO' hN' hk hrest ih =>
    intro l hl
    rw [streamLines_cons, List.mem_append] at hl
    rcases hl with hl | hl
    · simp only [Hunk.lines, List.map_nil, List.nil_append, List.mem_cons, List.mem_map] at hl
      rcases hl with rfl | ⟨t, ht, rfl⟩
      · exact ⟨hc, parseDiffOp_no_cr _ _ hp⟩
      · exact marker_line _ t (by decide) (by decide) (by decide) (hNd _ _ t ht)
    · exact ih l hl
  | delete pos npos k d n3 n4 cmd hs hp hc hd hO' hN' hk hrest ih =>
    intro l hl
    rw [streamLines_cons, List.mem_append] at hl
    rcases hl with hl | hl
    · simp only [Hunk.lines, List.map_nil, List.append_nil, List.mem_cons, List.mem_map] at hl
      rcases hl with rfl | ⟨t, ht, rfl⟩
      · exact ⟨hc, parseDiffOp_no_cr _ _ hp⟩
      · exact marker_line _ t (by decide) (by decide) (by decide) (hOd _ _ t ht)
    · exact ih l hl
  | change pos npos k d m cmd hs hp hc hd hm hO' hN' hk hrest ih =>
    intro l hl
    rw [streamLines_cons, List.mem_append] at hl
    rcases hl with hl | hl
    · simp only [Hunk.lines, List.map_cons, List.map_nil, List.mem_cons, List.mem_append,
        List.mem_map, List.mem_singleton, List.not_mem_nil, or_false] at hl
      rcases hl with rfl | ⟨t, ht, rfl⟩ | rfl | ⟨t, ht, rfl⟩
      · exact ⟨hc, parseDiffOp_no_cr _ _ hp⟩
      · exact marker_line _ t (by decide) (by decide) (by decide) (hOd _ _ t ht)
      · exact ⟨⟨by decide, by decide⟩, by decide⟩
      · exact marker_line _ t (by decide) (by decide) (by decide) (hNd _ _ t ht)
    · exact ih l hl

theorem map_dropCR_id (ls : List Bytes) (h : ∀ l ∈ ls, (13 : UInt8) ∉ l) : ls.map dropCR = ls := by
  induction ls with
  | nil => rfl
  | cons l ls ih =>
    rw [List.map_cons, dropCR_of_not_mem l (h l (List.mem_cons_self _ _)),
      ih (fun x hx => h x (List.mem_cons_of_mem _ hx))]

/-- C1 (as amended). Round trip: for an original document `O` and a
transformed document `N`, taken as lists of lines without newline or carriage
return, each line shorter than 65534 bytes and the two documents together
shorter than the largest Go `int`, and for a diff stream, each line followed
by a newline, of hunks that correctly describe `O` against `N`, `apply` run
with the in-memory copy of `O` as its edit sink (the address `N` replaces the
line `N`, `N+#0` inserts after the line `N`, `N,M` replaces the lines `N` to
`M`, an empty payload removes them) returns success and leaves exactly `N`. -/
theorem apply_round_trip (O N : List Bytes) (hs : List Hunk) (r : Reader)
    (hO : ∀ l ∈ O, TextLine l) (hN : ∀ l ∈ N, TextLine l)
    (hsize : (O.length : Int) + N.length < maxInt) (hdesc : Describes O N 0 0 hs)
    (hd : r.data = encodeLines (streamLines hs)) :
    apply r memEdit O = some (N, .val none) := by
  have hl := describes_lines O N hO hN 0 0 hs hdesc
  have htok : NewScanner r = streamLines hs := by
    unfold NewScanner
    rw [hd, scanTokens_encodeLines _ (fun l h => (hl l h).1),
      map_dropCR_id _ (fun l h => (hl l h).2)]
  unfold apply
  rw [htok]
  have := applyLoop_describes O N hsize (fun l h => (hN l h).1) 0 0 hs hdesc (Nat.zero_le _)
    (Nat.zero_le _) _ (Nat.lt_succ_self _)
  simpa using this

theorem apply_round_trip_witness :
    apply ⟨ascii "2c2\n< bar\n---\n> BAR\n3a4\n> qux\n", none⟩ memEdit
        [ascii "foo", ascii "bar", ascii "baz"] =
      some ([ascii "foo", ascii "BAR", ascii "baz", ascii "qux"], .val none) :=
  apply_round_trip [ascii "foo", ascii "bar", ascii "baz"]
    [ascii "foo", ascii "BAR", ascii "baz", ascii "qux"]
    [⟨ascii "2c2", [ascii "bar"], [[]], [ascii "BAR"]⟩, ⟨ascii "3a4", [], [], [ascii "qux"]⟩]
    ⟨ascii "2c2\n< bar\n---\n> BAR\n3a4\n> qux\n", none⟩
    (by
      intro l hl
      simp only [List.mem_cons, List.mem_singleton, List.not_mem_nil, or_false] at hl
      unfold TextLine maxScanTokenSize
      rcases hl with rfl | rfl | rfl <;> decide)
    (by
      intro l hl
      simp only [List.mem_cons, List.mem_singleton, List.not_mem_nil, or_false] at hl
      unfold TextLine maxScanTokenSize
      rcases hl with rfl | rfl | rfl | rfl <;> decide)
    (by decide)
    (Describes.change 0 0 1 1 1 (ascii "2c2") _ (by decide)
      ⟨by decide, by decide⟩ (by decide) (by decide) (by decide) (by decide) (by decide)
      (Describes.add 2 2 1 1 (ascii "3a4") _ (by decide) ⟨by decide, by decide⟩ (by decide)
        (by decide) (by decide) (by decide) (Describes.done 3 4 (by decide))))
    (by decide)

theorem apply_round_trip_counterexample :
    (∀ l ∈ [longLine], (10 : UInt8) ∉ l ∧ (13 : UInt8) ∉ l) ∧
    Describes [] [longLine] 0 0 [⟨ascii "0a1", [], [], [longLine]⟩] ∧
    apply ⟨encodeLines (streamLines [⟨ascii "0a1", [], [], [longLine]⟩]), none⟩ memEdit [] =
      some ([], .val (some .ErrUnexpectedEOF)) := by
  have hx : ∀ c : UInt8, c ≠ 120 → c ∉ longLine := by
    intro c hc hm
    exact hc (List.eq_of_mem_replicate hm)
  refine ⟨?_, ?_, ?_⟩
  · intro l hl
    simp only [List.mem_singleton] at hl
    subst hl
    exact ⟨hx 10 (by decide), hx 13 (by decide)⟩
  · exact Describes.add 0 0 0 1 (ascii "0a1") [] (by decide) ⟨by decide, by decide⟩ (by decide)
      (by decide) (by decide) rfl (Describes.done 0 1 rfl)
  · have h10 : (10 : UInt8) ∉ ascii "> " ++ longLine := by
      intro h
      rcases List.mem_append.1 h with h | h
      · revert h; decide
      · exact hx 10 (by decide) h
    have hlen : (ascii "> " ++ longLine).length = 65536 := by
      rw [List.length_append, longLine, List.length_replicate]
      rfl
    have htok : NewScanner ⟨encodeLines (streamLines [⟨ascii "0a1", [], [], [longLine]⟩]), none⟩ =
        [ascii "0a1"] := by
      unfold NewScanner
      have e : encodeLines (streamLines [⟨ascii "0a1", [], [], [longLine]⟩]) =
          ascii "0a1" ++ 10 :: ((ascii "> " ++ longLine) ++ [10]) := by
        simp [encodeLines, streamLines, Hunk.lines]
      dsimp only
      rw [e, scanTokens_line (ascii "0a1") [] _ (by decide) (by decide),
        scanTokens_tooLong (ascii "> " ++ longLine) [] [10] h10 (by decide)
          (by rw [hlen]; decide)]
      rfl
    unfold apply
    rw [htok]
    decide

/-! ## Lines without their marker -/

theorem hunkBody_bad_deleted (op : diffOp) (good : List Bytes) (l : Bytes) (rest : List Bytes)
    (hv : op.Valid) (ho : op.op = 99 ∨ op.op = 100) (hr : op.n2 - op.n1 < maxInt)
    (hg : good.length < (op.n2 - op.n1 + 1).toNat) (hl : HasPrefix l (ascii "< ") = false) :
    hunkBody op (good.map (fun t => ascii "< " ++ t) ++ l :: rest) =
      (rest, [], some (.Errorf "line %q does not have expected prefix %q" [l, ascii "< "])) := by
  have hmin : minInt = -9223372036854775808 := rfl
  have hmax : maxInt = 9223372036854775807 := rfl
  obtain ⟨v1, v2, -, -, -⟩ := hv
  unfold hunkBody
  rw [if_pos ho, count_eq _ _ v1 v2 hr]
  unfold eatLines
  rw [eatLinesLoop_block (ascii "< ") _ _ (by omega) good 0 (by omega) (by omega),
    eatLinesLoop_cons, if_pos (by omega), hl]
  rfl

theorem hunkBody_bad_added (op : diffOp) (dels seps good : List Bytes) (l : Bytes)
    (rest : List Bytes) (hv : op.Valid) (ho : op.op = 97 ∨ op.op = 99)
    (hd : dels.length = if op.op = 97 then 0 else (op.n2 - op.n1 + 1).toNat)
    (hs : seps.length = if op.op = 99 then 1 else 0)
    (hg : good.length < (op.n4 - op.n3 + 1).toNat) (hl : HasPrefix l (ascii "> ") = false) :
    ∃ e, (hunkBody op (dels.map (fun t => ascii "< " ++ t) ++
      (seps.map (fun t => ascii "---" ++ t) ++
        (good.map (fun t => ascii "> " ++ t) ++ l :: rest)))).2.2 = some e := by
  have hmin : minInt = -9223372036854775808 := rfl
  have hmax : maxInt = 9223372036854775807 := rfl
  obtain ⟨v1, v2, v3, v4, -⟩ := hv
  have hadd : ∀ buf, addedLoop op.n4 op.n3 (good.map (fun t => ascii "> " ++ t) ++ l :: rest) buf =
      (rest, buf ++ (good.map (fun t => t ++ [10])).flatten,
        some (.Errorf "expected line starting with '> ', got %q" [l])) := by
    intro buf
    rw [addedLoop_block op.n4 _ good op.n3 buf (by omega) (by omega) (by omega),
      addedLoop_cons, if_pos (by omega), hl]
    rfl
  unfold hunkBody
  rcases ho with ho | ho
  · have h99 : ¬ (op.op = 99 ∨ op.op = 100) := by rw [ho]; decide
    have h99b : ¬ op.op = 99 := by rw [ho]; decide
    have h100 : op.op ≠ 100 := by rw [ho]; decide
    rw [if_pos ho] at hd
    rw [if_neg h99b] at hs
    rw [List.length_eq_zero.1 hd, List.length_eq_zero.1 hs, if_neg h99]
    dsimp only
    rw [if_neg h99b]
    dsimp only
    rw [if_pos h100]
    simp only [List.map_nil, List.nil_append]
    rw [hadd]
    exact ⟨_, rfl⟩
  · have h97 : ¬ op.op = 97 := by rw [ho]; decide
    have h100 : op.op ≠ 100 := by rw [ho]; decide
    rw [if_neg h97] at hd
    rw [if_pos ho] at hs
    rw [if_pos (Or.inl ho)]
    by_cases hr : op.n2 - op.n1 < maxInt
    · rw [eatLines_texts (ascii "< ") (iadd (isub op.n2 op.n1) 1) dels _ (wrapInt_inRange _).2
        (by rw [count_eq _ _ v1 v2 hr]; exact hd)]
      dsimp only
      rw [if_pos ho, eatLines_texts (ascii "---") 1 seps _ (by omega) (by rw [hs]; rfl)]
      dsimp only
      rw [if_pos h100, hadd]
      exact ⟨_, rfl⟩
    · have hn : iadd (isub op.n2 op.n1) 1 ≤ 0 := by
        unfold iadd isub wrapInt; omega
      unfold eatLines
      rw [eatLinesLoop_done _ _ _ _ hn]
      dsimp only
      rw [if_pos ho]
      cases dels with
      | nil => simp only [List.length_nil] at hd; omega
      | cons t ts =>
        simp only [List.map_cons, List.cons_append]
        rw [eatLinesLoop_cons, if_pos (by omega), hasPrefix_lt_sep]
        exact ⟨_, rfl⟩

/-- C11 (as amended). Marker prefix check, for a hunk met where a header is
expected after a stream `r0` that `apply` has applied in full. Deleted block:
for a Change or Delete hunk whose count `n2 - n1 + 1` does not overflow the Go
`int`, if one of the `n2 - n1 + 1` lines after the header, the line `l` after
fewer than `n2 - n1 + 1` lines that start with `< `, does not start with `< `,
`apply` returns the error that names `l`. Added block: for an Add or Change
hunk, if one of the `n4 - n3 + 1` lines of the added block, the line `l` after
fewer than `n4 - n3 + 1` lines that start with `> `, does not start with `> `,
`apply` returns an error. In both cases the edit sink is left in the state
`st1` it was in after `r0`: it is not invoked for that hunk. -/
theorem apply_bad_marker :
    (∀ (σ : Type) (edit : σ → Bytes → Bytes → σ × Option GoError) (r0 r : Reader) (st st1 : σ)
      (cmd : Bytes) (op : diffOp) (good : List Bytes) (l : Bytes) (rest : List Bytes),
      apply r0 edit st = some (st1, .val none) →
      NewScanner r = NewScanner r0 ++ cmd :: (good.map (fun t => ascii "< " ++ t) ++ l :: rest) →
      parseDiffOp cmd = .val (op, none) → (op.op = 99 ∨ op.op = 100) →
      op.n2 - op.n1 < maxInt → good.length < (op.n2 - op.n1 + 1).toNat →
      HasPrefix l (ascii "< ") = false →
      apply r edit st = some (st1, .val (some
        (.Errorf "line %q does not have expected prefix %q" [l, ascii "< "])))) ∧
    (∀ (σ : Type) (edit : σ → Bytes → Bytes → σ × Option GoError) (r0 r : Reader) (st st1 : σ)
      (cmd : Bytes) (op : diffOp) (dels seps good : List Bytes) (l : Bytes) (rest : List Bytes),
      apply r0 edit st = some (st1, .val none) →
      NewScanner r = NewScanner r0 ++ cmd :: (dels.map (fun t => ascii "< " ++ t) ++
        (seps.map (fun t => ascii "---" ++ t) ++
          (good.map (fun t => ascii "> " ++ t) ++ l :: rest))) →
      parseDiffOp cmd = .val (op, none) → (op.op = 97 ∨ op.op = 99) →
      dels.length = (if op.op = 97 then 0 else (op.n2 - op.n1 + 1).toNat) →
      seps.length = (if op.op = 99 then 1 else 0) →
      good.length < (op.n4 - op.n3 + 1).toNat →
      HasPrefix l (ascii "> ") = false →
      ∃ e, apply r edit st = some (st1, .val (some e))) := by
  constructor
  · intro σ edit r0 r st st1 cmd op good l rest h0 hr hp ho hrange hg hl
    obtain ⟨off1, h⟩ := apply_after edit r0 r st st1 _ h0 hr
    rw [h, List.length_cons, applyLoop_cons, hp]
    dsimp only
    rw [hunkBody_bad_deleted op good l rest (parseDiffOp_valid cmd op hp) ho hrange hg hl]
  · intro σ edit r0 r st st1 cmd op dels seps good l rest h0 hr hp ho hd hs hg hl
    obtain ⟨off1, h⟩ := apply_after edit r0 r st st1 _ h0 hr
    obtain ⟨e, he⟩ := hunkBody_bad_added op dels seps good l rest (parseDiffOp_valid cmd op hp)
      ho hd hs hg hl
    refine ⟨e, ?_⟩
    rw [h, List.length_cons, applyLoop_cons, hp]
    dsimp only
    rcases hb : hunkBody op (dels.map (fun t => ascii "< " ++ t) ++
      (seps.map (fun t => ascii "---" ++ t) ++
        (good.map (fun t => ascii "> " ++ t) ++ l :: rest))) with ⟨s1, buf, e1⟩
    rw [hb] at he
    dsimp only at he
    subst he
    rfl

theorem apply_bad_marker_witness :
    apply ⟨ascii "3a4\n> qux\n2,3d1\n< bar\n<baz\n", none⟩ (recording okSink) ((), []) =
        some (((), [⟨ascii "3+#0", ascii "qux\n", none⟩]), .val (some
          (.Errorf "line %q does not have expected prefix %q" [ascii "<baz", ascii "< "]))) ∧
    ∃ e, apply ⟨ascii "3a4\n> qux\n2c2,3\n< bar\n---\n> BAR\n>BAZ\n", none⟩ (recording okSink)
        ((), []) =
      some (((), [⟨ascii "3+#0", ascii "qux\n", none⟩]), .val (some e)) :=
  ⟨apply_bad_marker.1 (Unit × List Call) (recording okSink) ⟨ascii "3a4\n> qux\n", none⟩
      ⟨ascii "3a4\n> qux\n2,3d1\n< bar\n<baz\n", none⟩ ((), [])
      ((), [⟨ascii "3+#0", ascii "qux\n", none⟩]) (ascii "2,3d1") ⟨2, 3, 1, 1, 100⟩ [ascii "bar"]
      (ascii "<baz") [] (by decide) (by decide) (by decide) (by decide) (by decide) (by decide)
      (by decide),
    apply_bad_marker.2 (Unit × List Call) (recording okSink) ⟨ascii "3a4\n> qux\n", none⟩
      ⟨ascii "3a4\n> qux\n2c2,3\n< bar\n---\n> BAR\n>BAZ\n", none⟩ ((), [])
      ((), [⟨ascii "3+#0", ascii "qux\n", none⟩]) (ascii "2c2,3") ⟨2, 2, 2, 3, 99⟩ [ascii "bar"]
      [[]] [ascii "BAR"] (ascii ">BAZ") [] (by decide) (by decide) (by decide) (by decide)
      (by decide) (by decide) (by decide) (by decide)⟩

theorem apply_bad_marker_counterexample :
    parseDiffOp (ascii "0,9223372036854775807c1") =
      .val (⟨0, 9223372036854775807, 1, 1, 99⟩, none) ∧
    HasPrefix (ascii "---") (ascii "< ") = false ∧
    apply ⟨ascii "0,9223372036854775807c1\n---\n> x\n", none⟩ (recording okSink) ((), []) =
      some (((), [⟨ascii "0,9223372036854775807", ascii "x\n", none⟩]), .val none) := by
  refine ⟨by decide, by decide, by decide⟩

/-! ## Read failures, numbers out of range, reversed ranges -/

theorem scanErr_of_scanTokens (r : Reader) (toks : List Bytes) (e : GoError)
    (h : scanTokens r.data [] = (toks, some e)) : scanErr r = some e := by
  unfold scanErr
  rw [h]

/-- C16, at the failing inputs. A reader that yields the Delete hunk
`1d0 / < a` and then fails with an error that is not `io.EOF`, and a reader
that yields the same hunk followed by a line of 65536 bytes, which stops the
scanner with `ErrTooLong`: in both, reading fails where the next header would
be read, `scan.Err()` holds the error, and `apply` issues the edit of the hunk
and returns `nil`. -/
theorem apply_read_failure :
    scanErr ⟨ascii "1d0\n< a\n", some (.other "read failed")⟩ = some (.other "read failed") ∧
    apply ⟨ascii "1d0\n< a\n", some (.other "read failed")⟩ (recording okSink) ((), []) =
      some (((), [⟨ascii "1", [], none⟩]), .val none) ∧
    scanErr ⟨ascii "1d0\n< a\n" ++ List.replicate 65536 120, none⟩ = some .ErrTooLong ∧
    apply ⟨ascii "1d0\n< a\n" ++ List.replicate 65536 120, none⟩ (recording okSink) ((), []) =
      some (((), [⟨ascii "1", [], none⟩]), .val none) := by
  have h10 : (10 : UInt8) ∉ List.replicate 65536 (120 : UInt8) := by
    intro hm
    exact absurd (List.eq_of_mem_replicate hm) (by decide)
  have hs : scanTokens (ascii "1d0\n< a\n" ++ List.replicate 65536 120) [] =
      ([ascii "1d0", ascii "< a"], some .ErrTooLong) := by
    have e : ascii "1d0\n< a\n" ++ List.replicate 65536 (120 : UInt8) =
        ascii "1d0" ++ 10 :: (ascii "< a" ++ 10 :: (List.replicate 65536 120 ++ [])) := by
      rw [List.append_nil]; rfl
    rw [e, scanTokens_line (ascii "1d0") [] _ (by decide) (by decide),
      scanTokens_line (ascii "< a") [] _ (by decide) (by decide),
      scanTokens_tooLong (List.replicate 65536 120) [] [] h10 (by decide)
        (by rw [List.length_replicate]; decide)]
    rfl
  refine ⟨by decide, by decide, scanErr_of_scanTokens _ _ _ hs, ?_⟩
  · unfold apply NewScanner
    dsimp only
    rw [hs]
    decide

/-- C19, at the failing input. The line `99999999999999999999d1` matches the
header pattern, `strconv.Atoi` fails on its first number, which is above the
largest Go `int`, and `parseDiffOp` neither returns a descriptor nor an error:
`atoi` panics with `unexpected bad number`. -/
theorem parseDiffOp_panic :
    cmdPatFind (ascii "99999999999999999999d1") ≠ [] ∧
    strconvAtoi (ascii "99999999999999999999") = none ∧
    parseDiffOp (ascii "99999999999999999999d1") =
      .panic (.Errorf "unexpected bad number %q" [ascii "99999999999999999999"]) := by
  refine ⟨by decide, by decide, by decide⟩

/-- C18 (as amended). Descriptor invariant: an Add hunk for which `apply`
invokes the edit sink has `n1 = n2`: on an Add header with `n1 ≠ n2`, met
where a header is expected after a stream `r0` that `apply` has applied in
full, whatever follows it, `apply` returns an error and leaves the sink in the
state `st1` it was in after `r0`. The ranges of a Change and of a Delete are
not checked; the body lines consumed for a hunk are `n2 - n1 + 1` deleted
lines and `n4 - n3 + 1` added lines, a count below zero counting as zero,
where `n2 - n1` and `n4` are below the largest Go `int`. -/
theorem apply_descriptor :
    (∀ (σ : Type) (edit : σ → Bytes → Bytes → σ × Option GoError) (r0 r : Reader) (st st1 : σ)
      (cmd : Bytes) (op : diffOp) (rest : List Bytes),
      apply r0 edit st = some (st1, .val none) →
      NewScanner r = NewScanner r0 ++ cmd :: rest →
      parseDiffOp cmd = .val (op, none) → op.op = 97 → op.n1 ≠ op.n2 →
      ∃ e, apply r edit st = some (st1, .val (some e))) ∧
    (∀ (h : Hunk) (rest : List Bytes), h.WellFormed → h.InRange →
      h.dels.length = (if h.op.op = 97 then 0 else (h.op.n2 - h.op.n1 + 1).toNat) ∧
      h.adds.length = (if h.op.op = 100 then 0 else (h.op.n4 - h.op.n3 + 1).toNat) ∧
      hunkBody h.op (h.dels.map (fun t => ascii "< " ++ t) ++
        (h.seps.map (fun t => ascii "---" ++ t) ++
          (h.adds.map (fun t => ascii "> " ++ t) ++ rest))) = (rest, h.payload, none)) := by
  constructor
  · intro σ edit r0 r st st1 cmd op rest h0 hr hp ho hne
    obtain ⟨off1, h⟩ := apply_after edit r0 r st st1 _ h0 hr
    rw [h, List.length_cons, applyLoop_cons, hp]
    dsimp only
    rcases hunkBody op rest with ⟨s1, buf, _ | e1⟩
    · dsimp only
      unfold hunkAddr
      rw [if_neg hne, if_pos ho]
      exact ⟨_, rfl⟩
    · exact ⟨e1, rfl⟩
  · intro h rest hw hr
    refine ⟨hw.2.1, hw.2.2.2, ?_⟩
    have := hunkBody_wellFormed h hw hr rest
    simpa only [List.append_assoc] using this

theorem apply_descriptor_witness :
    (∃ e, apply ⟨ascii "3a4\n> qux\n1,2a5\njunk\n", none⟩ (recording okSink) ((), []) =
      some (((), [⟨ascii "3+#0", ascii "qux\n", none⟩]), .val (some e))) ∧
    hunkBody ⟨2, 3, 2, 2, 99⟩ [ascii "< bar", ascii "< baz", ascii "---", ascii "> BAR",
      ascii "3a4"] = ([ascii "3a4"], ascii "BAR\n", none) :=
  ⟨apply_descriptor.1 (Unit × List Call) (recording okSink) ⟨ascii "3a4\n> qux\n", none⟩
      ⟨ascii "3a4\n> qux\n1,2a5\njunk\n", none⟩ ((), [])
      ((), [⟨ascii "3+#0", ascii "qux\n", none⟩]) (ascii "1,2a5") ⟨1, 2, 5, 5, 97⟩ [ascii "junk"]
      (by decide) (by decide) (by decide) (by decide) (by decide),
    (apply_descriptor.2 ⟨ascii "2,3c2", [ascii "bar", ascii "baz"], [[]], [ascii "BAR"]⟩
      [ascii "3a4"] (by unfold Hunk.WellFormed; decide) (by unfold Hunk.InRange; decide)).2.2⟩

theorem apply_descriptor_counterexample :
    parseDiffOp (ascii "5,3c2") = .val (⟨5, 3, 2, 2, 99⟩, none) ∧ ¬ ((5 : Int) ≤ 3) ∧
    apply ⟨ascii "5,3c2\n---\n> x\n", none⟩ (recording okSink) ((), []) =
      some (((), [⟨ascii "5,3", ascii "x\n", none⟩]), .val none) := by
  refine ⟨by decide, by decide, by decide⟩

/-! ## The text of deleted lines -/

theorem Hunk.SameButDeleted.same_op {h1 h2 : Hunk} (h : h1.SameButDeleted h2) : h2.op = h1.op := by
  unfold Hunk.op
  rw [h.1]

theorem Hunk.SameButDeleted.payload_eq {h1 h2 : Hunk} (h : h1.SameButDeleted h2) :
    h2.payload = h1.payload := by
  unfold Hunk.payload
  rw [h.2.2.2]

theorem Hunk.SameButDeleted.wellFormed {h1 h2 : Hunk} (h : h1.SameButDeleted h2)
    (hw : h1.WellFormed) : h2.WellFormed := by
  obtain ⟨w1, w2, w3, w4⟩ := hw
  refine ⟨?_, ?_, ?_, ?_⟩
  · rw [h.same_op, ← h.1]; exact w1
  · rw [h.same_op, ← h.2.1]; exact w2
  · rw [h.same_op, ← h.2.2.1]; exact w3
  · rw [h.same_op, ← h.2.2.2]; exact w4

theorem Hunk.SameButDeleted.inRange {h1 h2 : Hunk} (h : h1.SameButDeleted h2)
    (hr : h1.InRange) : h2.InRange := by
  unfold Hunk.InRange
  rw [h.same_op]
  exact hr

theorem Hunk.SameButDeleted.lines_length {h1 h2 : Hunk} (h : h1.SameButDeleted h2) :
    h2.lines.length = h1.lines.length := by
  unfold Hunk.lines
  simp only [List.length_cons, List.length_append, List.length_map]
  rw [h.2.1, h.2.2.1, h.2.2.2]

theorem streamLines_length_same (hs1 hs2 : List Hunk)
    (hrel : List.Forall₂ Hunk.SameButDeleted hs1 hs2) :
    (streamLines hs2).length = (streamLines hs1).length := by
  induction hrel with
  | nil => rfl
  | cons h _ ih =>
    rw [streamLines_cons, streamLines_cons, List.length_append, List.length_append, ih,
      h.lines_length]

theorem applyLoop_same_but_deleted {σ : Type} (edit : σ → Bytes → Bytes → σ × Option GoError)
    (hs1 hs2 : List Hunk) (tail : List Bytes) (hrel : List.Forall₂ Hunk.SameButDeleted hs1 hs2) :
    (∀ h ∈ hs1, h.WellFormed ∧ h.InRange) → ∀ (fuel : Nat) (off : Int) (st : σ),
      applyLoop edit fuel (streamLines hs1 ++ tail) off st =
        applyLoop edit fuel (streamLines hs2 ++ tail) off st := by
  induction hrel with
  | nil => intro _ fuel off st; rfl
  | @cons h1 h2 t1 t2 h _ ih =>
    intro hwf fuel off st
    have hw1 := hwf h1 (List.mem_cons_self _ _)
    cases fuel with
    | zero => rfl
    | succ fuel =>
      rw [streamLines_cons, streamLines_cons, List.append_assoc, List.append_assoc,
        applyLoop_hunk edit h1 hw1.1 hw1.2, applyLoop_hunk edit h2 (h.wellFormed hw1.1)
          (h.inRange hw1.2), h.same_op, h.payload_eq]
      rcases hunkAddr h1.op off with ⟨addr, _ | e⟩
      · dsimp only
        rcases edit st addr h1.payload with ⟨st1, _ | e1⟩
        · dsimp only
          exact ih (fun x hx => hwf x (List.mem_cons_of_mem _ hx)) _ _ _
        · rfl
      · rfl

/-- C20 (as amended). Deleted-line text does not influence the edits: for two
diff streams that the scanner delivers line by line as well-formed hunks
followed by the same remaining lines `tail`, the hunks of the two streams
identical except for the texts after the `< ` marker on deleted lines and
after `---` on separator lines, and the line counts of the hunks computed
without overflow of the Go `int`, `apply` returns the same result, leaves the
sink in the same state and issues the identical sequence of edits. -/
theorem apply_deleted_text {σ : Type} (edit : σ → Bytes → Bytes → σ × Option GoError)
    (hs1 hs2 : List Hunk) (tail : List Bytes) (r1 r2 : Reader) (st : σ)
    (hrel : List.Forall₂ Hunk.SameButDeleted hs1 hs2)
    (hwf : ∀ h ∈ hs1, h.WellFormed ∧ h.InRange)
    (h1 : NewScanner r1 = streamLines hs1 ++ tail)
    (h2 : NewScanner r2 = streamLines hs2 ++ tail) :
    apply r1 (recording edit) (st, []) = apply r2 (recording edit) (st, []) := by
  unfold apply
  rw [h1, h2, List.length_append, List.length_append, streamLines_length_same hs1 hs2 hrel]
  exact applyLoop_same_but_deleted (recording edit) hs1 hs2 tail hrel hwf _ _ _

theorem apply_deleted_text_witness :
    apply ⟨ascii "2,3c2\n< bar\n< baz\n---\n> BAR\n3a4\nqux\n", none⟩ (recording okSink)
        ((), []) =
      apply ⟨ascii "2,3c2\n< \n< other text\n--- separator\n> BAR\n3a4\nqux\n", none⟩
        (recording okSink) ((), []) :=
  apply_deleted_text okSink [⟨ascii "2,3c2", [ascii "bar", ascii "baz"], [[]], [ascii "BAR"]⟩]
    [⟨ascii "2,3c2", [[], ascii "other text"], [ascii " separator"], [ascii "BAR"]⟩]
    [ascii "3a4", ascii "qux"] _ _ ()
    (List.Forall₂.cons ⟨rfl, rfl, rfl, rfl⟩ List.Forall₂.nil)
    (by
      intro h hh
      rw [List.mem_singleton] at hh
      subst hh
      exact ⟨by unfold Hunk.WellFormed; decide, by unfold Hunk.InRange; decide⟩)
    (by decide) (by decide)

theorem apply_deleted_text_counterexample :
    apply ⟨ascii "1d0\n< a\n", none⟩ (recording okSink) ((), []) =
      some (((), [⟨ascii "1", [], none⟩]), .val none) ∧
    apply ⟨ascii "1d0" ++ 10 :: ((ascii "< " ++ longLine) ++ [10]), none⟩ (recording okSink)
        ((), []) =
      some (((), []), .val (some .ErrUnexpectedEOF)) := by
  have h10 : (10 : UInt8) ∉ ascii "< " ++ longLine := by
    intro h
    rcases List.mem_append.1 h with h | h
    · revert h; decide
    · exact absurd (List.eq_of_mem_replicate h) (by decide)
  have hlen : (ascii "< " ++ longLine).length = 65536 := by
    rw [List.length_append, longLine, List.length_replicate]
    rfl
  refine ⟨by decide, ?_⟩
  unfold apply NewScanner
  dsimp only
  rw [scanTokens_line (ascii "1d0") [] _ (by decide) (by decide),
    scanTokens_tooLong (ascii "< " ++ longLine) [] [10] h10 (by decide) (by rw [hlen]; decide)]
  decide

/-! ## The chunked writer -/

theorem trimLoop_le (len : Nat) : ∀ (s : Bytes) (i ls : Nat), ls ≤ len → i + s.length ≤ len →
    trimLoop len s i ls ≤ len := by
  intro s
  induction s with
  | nil => intro i ls h _; exact h
  | cons x rest ih =>
    intro i ls h1 h2
    rw [List.length_cons] at h2
    unfold trimLoop
    split
    · exact ih _ _ (le_refl _) (by omega)
    · split
      · exact ih _ _ (by omega) (by omega)
      · exact ih _ _ h1 (by omega)

theorem le_trimLoop (len lo : Nat) (hlen : lo ≤ len) : ∀ (s : Bytes) (i ls : Nat), lo ≤ ls →
    lo ≤ i → lo ≤ trimLoop len s i ls := by
  intro s
  induction s with
  | nil => intro i ls h _; exact h
  | cons x rest ih =>
    intro i ls h1 h2
    unfold trimLoop
    split
    · exact ih _ _ hlen (by omega)
    · split
      · exact ih _ _ h2 (by omega)
      · exact ih _ _ h1 (by omega)

theorem trimIncompleteRune_length (b : Bytes) :
    (trimIncompleteRune b).length ≤ b.length ∧ b.length ≤ (trimIncompleteRune b).length + UTFMax := by
  have h1 := trimLoop_le b.length (b.drop (b.length - UTFMax)) (b.length - UTFMax) b.length
    (le_refl _) (by rw [List.length_drop]; omega)
  have h2 := le_trimLoop b.length (b.length - UTFMax) (Nat.sub_le _ _)
    (b.drop (b.length - UTFMax)) (b.length - UTFMax) b.length (Nat.sub_le _ _) (le_refl _)
  unfold trimIncompleteRune
  rw [List.length_take]
  omega

theorem trimIncompleteRune_take (b : Bytes) :
    trimIncompleteRune b = b.take (trimIncompleteRune b).length := by
  have h1 := trimLoop_le b.length (b.drop (b.length - UTFMax)) (b.length - UTFMax) b.length
    (le_refl _) (by rw [List.length_drop]; omega)
  unfold trimIncompleteRune
  rw [List.length_take, Nat.min_eq_left h1]

theorem writeDataLoop_succ {σ : Type} (write : σ → Bytes → σ × Int × Option GoError) (fuel : Nat)
    (data : Bytes) (st : σ) :
    writeDataLoop write (fuel + 1) data st =
      if data.length > 0 then
        match write st (if data.length > 8000 then trimIncompleteRune (data.take 8000) else data) with
        | (st1, _, some err) => (st1, some (.val (some err)))
        | (st1, n, none) =>
          if n < 0 ∨ (data.length : Int) < n then
            (st1, some (.panic (.other "slice bounds out of range")))
          else writeDataLoop write fuel (data.drop n.toNat) st1
      else (st, some (.val none)) := rfl

/-- The chunk that one iteration of the loop of `writeData` writes. -/
theorem chunk_spec (data : Bytes) (h : 0 < data.length) :
    ∃ m, 0 < m ∧ m ≤ 8000 ∧ m ≤ data.length ∧
      (if data.length > 8000 then trimIncompleteRune (data.take 8000) else data) = data.take m := by
  by_cases hl : data.length > 8000
  · rw [if_pos hl]
    have hb := trimIncompleteRune_length (data.take 8000)
    have ht := trimIncompleteRune_take (data.take 8000)
    rw [List.length_take] at hb
    have hU : UTFMax = 4 := rfl
    refine ⟨(trimIncompleteRune (data.take 8000)).length, by omega, by omega, by omega, ?_⟩
    rw [List.take_take, Nat.min_eq_left (by omega)] at ht
    exact ht
  · rw [if_neg hl]
    exact ⟨data.length, h, by omega, le_refl _, (List.take_length _).symm⟩

theorem writeDataLoop_bound {σ : Type} (write : σ → Bytes → σ × Int × Option GoError) :
    ∀ (fuel : Nat) (data : Bytes) (st : σ) (log : List Bytes), (∀ c ∈ log, c.length ≤ 8000) →
      ∀ c ∈ (writeDataLoop (recordingWrites write) fuel data (st, log)).1.2, c.length ≤ 8000 := by
  intro fuel
  induction fuel with
  | zero => intro data st log h; exact h
  | succ fuel ih =>
    intro data st log h
    rw [writeDataLoop_succ]
    by_cases hd : data.length > 0
    · rw [if_pos hd]
      obtain ⟨m, -, hm, -, e⟩ := chunk_spec data hd
      rw [e]
      have hlog : ∀ c ∈ log ++ [data.take m], c.length ≤ 8000 := by
        intro c hc
        rcases List.mem_append.1 hc with hc | hc
        · exact h c hc
        · rw [List.mem_singleton] at hc
          rw [hc, List.length_take]
          omega
      unfold recordingWrites
      dsimp only
      rcases write st (data.take m) with ⟨st1, n, _ | err⟩
      · dsimp only
        split
        · exact hlog
        · exact ih _ _ _ hlog
      · exact hlog
    · rw [if_neg hd]
      exact h

theorem writeDataLoop_accept {σ : Type} (write : σ → Bytes → σ × Int × Option GoError)
    (hw : ∀ s d, (write s d).2 = ((d.length : Int), none)) :
    ∀ (fuel : Nat) (data : Bytes) (st : σ) (log : List Bytes), data.length < fuel →
      ∃ s' chunks, writeDataLoop (recordingWrites write) fuel data (st, log) =
          ((s', log ++ chunks), some (.val none)) ∧
        chunks.flatten = data ∧ ∀ c ∈ chunks, c ≠ [] := by
  intro fuel
  induction fuel with
  | zero => intro data st log h; omega
  | succ fuel ih =>
    intro data st log h
    rw [writeDataLoop_succ]
    by_cases hd : data.length > 0
    · rw [if_pos hd]
      obtain ⟨m, hm0, -, hm, e⟩ := chunk_spec data hd
      rw [e]
      have hlen : (data.take m).length = m := by rw [List.length_take]; omega
      have hr : recordingWrites write (st, log) (data.take m) =
          (((write st (data.take m)).1, log ++ [data.take m]), ((m : Int), none)) := by
        unfold recordingWrites
        rw [hw, hlen]
      rw [hr]
      dsimp only
      rw [if_neg (by omega)]
      obtain ⟨s', chunks, e1, e2, e3⟩ := ih (data.drop (m : Int).toNat) (write st (data.take m)).1
        (log ++ [data.take m]) (by rw [List.length_drop, Int.toNat_ofNat]; omega)
      refine ⟨s', data.take m :: chunks, ?_, ?_, ?_⟩
      · rw [e1, List.append_assoc]
        rfl
      · rw [List.flatten_cons, e2, Int.toNat_ofNat, List.take_append_drop]
      · intro c hc
        rcases List.mem_cons.1 hc with hc | hc
        · rw [hc]
          intro h0
          rw [h0, List.length_nil] at hlen
          omega
        · exact e3 c hc
    · rw [if_neg hd]
      refine ⟨st, [], by rw [List.append_nil], ?_, fun c hc => absurd hc (List.not_mem_nil c)⟩
      rw [List.flatten_nil]
      exact (List.length_eq_zero.1 (by omega)).symm

/-- C17. Empty payload: for the empty payload `writeData` issues exactly one
write to the sink, carrying zero bytes, and returns the error result of that
write. -/
theorem writeData_empty {σ : Type} (write : σ → Bytes → σ × Int × Option GoError) (fuel : Nat)
    (st : σ) :
    writeData (recordingWrites write) fuel [] (st, []) =
      (((write st []).1, [[]]), some (.val (write st []).2.2)) := rfl

/-- C15. Chunk size bound: for every payload and every sink, whatever counts
and errors the sink returns and however long the loop runs, every single write
that `writeData` issues to the sink carries at most 8000 bytes. -/
theorem writeData_chunk_bound {σ : Type} (write : σ → Bytes → σ × Int × Option GoError)
    (fuel : Nat) (data : Bytes) (st : σ) :
    ∀ c ∈ (writeData (recordingWrites write) fuel data (st, [])).1.2, c.length ≤ 8000 := by
  unfold writeData
  by_cases hd : data.length = 0
  · rw [if_pos hd]
    intro c hc
    have : c = [] := by
      revert hc
      unfold recordingWrites
      simp
    rw [this]
    exact Nat.zero_le _
  · rw [if_neg hd]
    exact writeDataLoop_bound write fuel data st [] (fun c hc => absurd hc (List.not_mem_nil c))

theorem writeData_chunk_bound_witness :
    (writeData (recordingWrites acceptAll) 3 [0x61, 0xE2, 0x82] ((), [])).1.2 =
      [[0x61, 0xE2, 0x82]] ∧ ([0x61, 0xE2, 0x82] : Bytes).length ≤ 8000 :=
  ⟨by decide, writeData_chunk_bound acceptAll 3 [0x61, 0xE2, 0x82] () [0x61, 0xE2, 0x82]
    (by decide)⟩

/-- C12. Chunk reconstruction: for every payload, with a sink that accepts
each write in full (it returns the length of the chunk and no error),
`writeData` terminates, within `len(data) + 1` iterations of its loop, returns
`nil`, and the concatenation of the chunks it writes, in the order written,
equals the payload; every chunk written for a non-empty payload is non-empty,
and `trimIncompleteRune` removes at most `utf8.UTFMax = 4` bytes. -/
theorem writeData_reconstructs {σ : Type} (write : σ → Bytes → σ × Int × Option GoError)
    (hw : ∀ s d, (write s d).2 = ((d.length : Int), none)) (data : Bytes) (st : σ) (fuel : Nat)
    (hf : data.length < fuel) :
    (∃ s' chunks, writeData (recordingWrites write) fuel data (st, []) =
        ((s', chunks), some (.val none)) ∧
      chunks.flatten = data ∧ (data ≠ [] → ∀ c ∈ chunks, c ≠ [])) ∧
    (∀ b : Bytes, (trimIncompleteRune b).length ≤ b.length ∧
      b.length ≤ (trimIncompleteRune b).length + 4) := by
  refine ⟨?_, trimIncompleteRune_length⟩
  unfold writeData
  by_cases hd : data.length = 0
  · rw [if_pos hd]
    have e0 : data = [] := List.length_eq_zero.1 hd
    refine ⟨(write st []).1, [[]], ?_, ?_, fun h => absurd e0 h⟩
    · have h2 : (write st []).2.2 = none := by rw [hw]
      unfold recordingWrites
      dsimp only
      rw [h2]
      rfl
    · rw [e0]; rfl
  · rw [if_neg hd]
    obtain ⟨s', chunks, e1, e2, e3⟩ := writeDataLoop_accept write hw fuel data st [] hf
    exact ⟨s', chunks, by rw [e1]; rfl, e2, fun _ => e3⟩

theorem writeData_reconstructs_witness :
    (∃ s' chunks, writeData (recordingWrites acceptAll) 4 [0x61, 0xE2, 0x82] ((), []) =
        ((s', chunks), some (.val none)) ∧
      chunks.flatten = [0x61, 0xE2, 0x82] ∧
      (([0x61, 0xE2, 0x82] : Bytes) ≠ [] → ∀ c ∈ chunks, c ≠ [])) ∧
    (∀ b : Bytes, (trimIncompleteRune b).length ≤ b.length ∧
      b.length ≤ (trimIncompleteRune b).length + 4) :=
  writeData_reconstructs acceptAll (fun _ _ => rfl) [0x61, 0xE2, 0x82] () 4 (by decide)

/-! ## Decoding one character -/

set_option maxRecDepth 100000 in
theorem runeStart_nat : ∀ n, n < 256 →
    (((n &&& 0xC0) != 0x80) = true ↔ ¬ (0x80 ≤ n ∧ n ≤ 0xBF)) := by decide

theorem runeStart_iff (b : UInt8) : RuneStart b = true ↔ ¬ IsCont b := by
  unfold RuneStart IsCont
  exact runeStart_nat b.toNat (UInt8.toNat_lt b)

theorem runeStart_of_cont (b : UInt8) (h : IsCont b) : RuneStart b = false := by
  cases hb : RuneStart b with
  | false => rfl
  | true => exact absurd h ((runeStart_iff b).1 hb)

theorem first_cont (n : Nat) (h1 : 0x80 ≤ n) (h2 : n ≤ 0xBF) : first n = 0xF1 := by
  unfold first
  rw [if_neg (by omega), if_pos (by omega)]

theorem first_ascii (n : Nat) (h : n ≤ 0x7F) : first n = 0xF0 := by
  unfold first
  rw [if_pos (by omega)]

theorem first_two (n : Nat) (h1 : 0xC2 ≤ n) (h2 : n ≤ 0xDF) : first n = 0x02 := by
  unfold first
  rw [if_neg (by omega), if_neg (by omega), if_pos (by omega)]

theorem first_three (n : Nat) (h1 : 0xE1 ≤ n) (h2 : n ≤ 0xEF) (h3 : n ≠ 0xED) : first n = 0x03 := by
  unfold first
  by_cases h : n < 0xED
  · rw [if_neg (by omega), if_neg (by omega), if_neg (by omega), if_neg (by omega), if_pos h]
  · rw [if_neg (by omega), if_neg (by omega), if_neg (by omega), if_neg (by omega), if_neg h,
      if_neg h3, if_pos (by omega)]

theorem first_four (n : Nat) (h1 : 0xF1 ≤ n) (h2 : n ≤ 0xF3) : first n = 0x04 := by
  unfold first
  rw [if_neg (by omega), if_neg (by omega), if_neg (by omega), if_neg (by omega),
    if_neg (by omega), if_neg (by omega), if_neg (by omega), if_neg (by omega), if_pos (by omega)]

theorem decodeRune_cont (x : UInt8) (rest : Bytes) (h : IsCont x) :
    DecodeRune (x :: rest) = (RuneError, 1) := by
  obtain ⟨h1, h2⟩ := h
  have hf : first x.toNat = 0xF1 := first_cont _ h1 h2
  unfold DecodeRune
  simp [hf]

theorem first_E0 : first 0xE0 = 0x13 := by decide

theorem first_ED : first 0xED = 0x23 := by decide

theorem first_F0 : first 0xF0 = 0x34 := by decide

theorem first_F4 : first 0xF4 = 0x44 := by decide

theorem decodeRune_lead (b0 : UInt8) (ps : Bytes) (x : Nat) (hf : first b0.toNat = x)
    (hx : x < 0xF0) :
    DecodeRune (b0 :: ps) =
      if ps.length + 1 < x &&& 7 then (RuneError, 1)
      else if (ps.getD 0 0).toNat < (acceptRanges (x >>> 4)).1 ∨
          (acceptRanges (x >>> 4)).2 < (ps.getD 0 0).toNat then (RuneError, 1)
      else if x &&& 7 ≤ 2 then
        ((b0.toNat &&& 0x1F) <<< 6 ||| ((ps.getD 0 0).toNat &&& 0x3F), 2)
      else if (ps.getD 1 0).toNat < 0x80 ∨ 0xBF < (ps.getD 1 0).toNat then (RuneError, 1)
      else if x &&& 7 ≤ 3 then
        ((b0.toNat &&& 0x0F) <<< 12 ||| ((ps.getD 0 0).toNat &&& 0x3F) <<< 6 |||
          ((ps.getD 1 0).toNat &&& 0x3F), 3)
      else if (ps.getD 2 0).toNat < 0x80 ∨ 0xBF < (ps.getD 2 0).toNat then (RuneError, 1)
      else
        ((b0.toNat &&& 0x07) <<< 18 ||| ((ps.getD 0 0).toNat &&& 0x3F) <<< 12 |||
          ((ps.getD 1 0).toNat &&& 0x3F) <<< 6 ||| ((ps.getD 2 0).toNat &&& 0x3F), 4) := by
  have h1 : ¬ (b0 :: ps).length < 1 := by simp
  have h2 : ¬ x ≥ 0xF0 := by omega
  unfold DecodeRune
  rw [if_neg h1]
  simp only [List.getD_cons_zero, List.getD_cons_succ, hf, List.length_cons]
  rw [if_neg h2]

theorem encoding_lead (b0 : UInt8) (c : Bytes) (h : IsEncoding (b0 :: c)) (hc : c ≠ []) :
    ∃ x, first b0.toNat = x ∧ x < 0xF0 ∧ x &&& 7 = c.length + 1 ∧
      (acceptRanges (x >>> 4)).1 ≤ (c.getD 0 0).toNat ∧
      (c.getD 0 0).toNat ≤ (acceptRanges (x >>> 4)).2 ∧
      0x80 ≤ (acceptRanges (x >>> 4)).1 ∧ (acceptRanges (x >>> 4)).2 ≤ 0xBF ∧
      ∀ y ∈ c.tail, IsCont y := by
  match c, h, hc with
  | [], _, hc => exact absurd rfl hc
  | [b1], h, _ =>
    obtain ⟨h1, h2, h3, h4⟩ := h
    exact ⟨0x02, first_two _ h1 h2, by decide,
        (by decide : (0x02 : Nat) &&& 7 = 2), h3, h4, by decide, by decide,
      fun y hy => absurd hy (List.not_mem_nil y)⟩
  | [b1, b2], h, _ =>
    obtain ⟨h1, h2⟩ := h
    have ht : ∀ y ∈ [b1, b2].tail, IsCont y := by
      intro y hy
      rw [List.tail_cons, List.mem_singleton] at hy
      rw [hy]; exact h2
    rcases h1 with ⟨e, l, u⟩ | ⟨l0, u0, l, u⟩ | ⟨e, l, u⟩ | ⟨l0, u0, l, u⟩
    · exact ⟨0x13, by rw [e]; exact first_E0, by decide,
        (by decide : (0x13 : Nat) &&& 7 = 3), l, u, by decide, by decide, ht⟩
    · exact ⟨0x03, first_three _ l0 (by omega) (by omega), by decide,
        (by decide : (0x03 : Nat) &&& 7 = 3), l, u, by decide,
        by decide, ht⟩
    · exact ⟨0x23, by rw [e]; exact first_ED, by decide,
        (by decide : (0x23 : Nat) &&& 7 = 3), l, u, by decide, by decide, ht⟩
    · exact ⟨0x03, first_three _ (by omega) u0 (by omega), by decide,
        (by decide : (0x03 : Nat) &&& 7 = 3), l, u, by decide,
        by decide, ht⟩
  | [b1, b2, b3], h, _ =>
    obtain ⟨h1, h2, h3⟩ := h
    have ht : ∀ y ∈ [b1, b2, b3].tail, IsCont y := by
      intro y hy
      rw [List.tail_cons] at hy
      rcases List.mem_cons.1 hy with hy | hy
      · rw [hy]; exact h2
      · rw [List.mem_singleton] at hy
        rw [hy]; exact h3
    rcases h1 with ⟨e, l, u⟩ | ⟨l0, u0, l, u⟩ | ⟨e, l, u⟩
    · exact ⟨0x34, by rw [e]; exact first_F0, by decide,
        (by decide : (0x34 : Nat) &&& 7 = 4), l, u, by decide, by decide, ht⟩
    · exact ⟨0x04, first_four _ l0 u0, by decide,
        (by decide : (0x04 : Nat) &&& 7 = 4), l, u, by decide, by decide, ht⟩
    · exact ⟨0x44, by rw [e]; exact first_F4, by decide,
        (by decide : (0x44 : Nat) &&& 7 = 4), l, u, by decide, by decide, ht⟩
  | _ :: _ :: _ :: _ :: _, h, _ => exact absurd h (by simp [IsEncoding])

theorem encoding_length (c : Bytes) (h : IsEncoding c) : 1 ≤ c.length ∧ c.length ≤ 4 := by
  match c, h with
  | [], h => exact absurd h (by simp [IsEncoding])
  | [_], _ => exact ⟨by simp, by simp⟩
  | [_, _], _ => exact ⟨by simp, by simp⟩
  | [_, _, _], _ => exact ⟨by simp, by simp⟩
  | [_, _, _, _], _ => exact ⟨by simp, by simp⟩
  | _ :: _ :: _ :: _ :: _ :: _, h => exact absurd h (by simp [IsEncoding])

theorem encoding_shape (c : Bytes) (h : IsEncoding c) :
    ∃ x c1, c = x :: c1 ∧ ¬ IsCont x ∧ ∀ y ∈ c1, IsCont y := by
  match c, h with
  | [], h => exact absurd h (by simp [IsEncoding])
  | [b0], h =>
    refine ⟨b0, [], rfl, ?_, fun y hy => absurd hy (List.not_mem_nil y)⟩
    intro hc
    have h1 : b0.toNat ≤ 0x7F := h
    have h2 := hc.1
    omega
  | b0 :: b1 :: c2, h =>
    obtain ⟨x, hf, hx, -, l, u, l0, u0, ht⟩ := encoding_lead b0 (b1 :: c2) h (List.cons_ne_nil _ _)
    refine ⟨b0, b1 :: c2, rfl, ?_, ?_⟩
    · intro hc
      rw [first_cont _ hc.1 hc.2] at hf
      omega
    · intro y hy
      rcases List.mem_cons.1 hy with hy | hy
      · rw [hy]
        rw [List.getD_cons_zero] at l u
        exact ⟨by omega, by omega⟩
      · exact ht y hy

theorem decodeRune_encoding (c rest : Bytes) (h : IsEncoding c) :
    (DecodeRune (c ++ rest)).1 ≠ RuneError ∨ (DecodeRune (c ++ rest)).2 > 1 := by
  match c, h with
  | [], h => exact absurd h (by simp [IsEncoding])
  | [b0], h =>
    have h1 : b0.toNat ≤ 0x7F := h
    left
    have hf := first_ascii _ h1
    unfold DecodeRune
    simp only [List.singleton_append, List.length_cons, List.getD_cons_zero, hf]
    rw [if_neg (by omega), if_pos (by omega), if_neg (by omega)]
    unfold RuneError
    dsimp only
    omega
  | b0 :: b1 :: c2, h =>
    obtain ⟨x, hf, hx, hsz, l, u, l0, u0, ht⟩ :=
      encoding_lead b0 (b1 :: c2) h (List.cons_ne_nil _ _)
    right
    rw [List.cons_append, decodeRune_lead b0 _ x hf hx, hsz]
    rw [List.getD_cons_zero] at l u
    simp only [List.cons_append, List.getD_cons_zero, List.getD_cons_succ, List.length_cons,
      List.length_append]
    rw [if_neg (by omega), if_neg (by omega)]
    match c2, h, ht with
    | [], _, _ =>
      rw [if_pos (by simp)]
      exact Nat.lt_succ_self 1
    | [b2], _, ht =>
      have c2 := ht b2 (by simp)
      simp only [List.cons_append, List.getD_cons_zero, List.length_cons, List.length_nil]
      rw [if_neg (by omega), if_neg (by have := c2.1; have := c2.2; omega), if_pos (by omega)]
      dsimp only
      omega
    | [b2, b3], _, ht =>
      have c2 := ht b2 (by simp)
      have c3 := ht b3 (by simp)
      simp only [List.cons_append, List.getD_cons_zero, List.getD_cons_succ, List.length_cons,
        List.length_nil]
      rw [if_neg (by omega), if_neg (by have := c2.1; have := c2.2; omega), if_neg (by omega),
        if_neg (by have := c3.1; have := c3.2; omega)]
      dsimp only
      omega
    | _ :: _ :: _ :: _, h, _ => exact absurd h (by simp [IsEncoding])

theorem incomplete_shape (p : Bytes) (h : IsIncomplete p) :
    DecodeRune p = (RuneError, 1) ∧ p.length ≤ 3 ∧
      ∃ x p1, p = x :: p1 ∧ ¬ IsCont x ∧ ∀ y ∈ p1, IsCont y := by
  obtain ⟨hp, q, hq, he⟩ := h
  match p, hp with
  | [], hp => exact absurd rfl hp
  | b0 :: p1, _ =>
    have hne : p1 ++ q ≠ [] := by
      intro h0
      exact hq (List.append_eq_nil.1 h0).2
    obtain ⟨x, hf, hx, hsz, -, -, -, -, -⟩ := encoding_lead b0 (p1 ++ q) he hne
    obtain ⟨y, c1, e, hy, hc⟩ := encoding_shape _ he
    rw [List.cons_append] at e
    have e1 : b0 = y := List.head_eq_of_cons_eq e
    have e2 : p1 ++ q = c1 := List.tail_eq_of_cons_eq e
    have hq0 : 0 < q.length := List.length_pos.2 hq
    have hlen : (p1 ++ q).length + 1 ≤ 4 := (encoding_length _ he).2
    rw [List.length_append] at hsz hlen
    refine ⟨?_, by rw [List.length_cons]; omega, b0, p1, rfl, e1 ▸ hy, ?_⟩
    · rw [decodeRune_lead b0 p1 x hf hx, hsz, if_pos (by omega)]
    · intro z hz
      exact hc z (e2 ▸ List.mem_append_left _ hz)

/-! ## Trimming an incomplete character -/

theorem trimLoop_cons (len : Nat) (x : UInt8) (rest : Bytes) (i ls : Nat) :
    trimLoop len (x :: rest) i ls =
      if (DecodeRune (x :: rest)).1 ≠ RuneError ∨ (DecodeRune (x :: rest)).2 > 1 then
        trimLoop len rest (i + 1) len
      else if RuneStart x then trimLoop len rest (i + 1) i
      else trimLoop len rest (i + 1) ls := by
  rw [trimLoop]

theorem decodeRune_error_not_ok (s : Bytes) (h : DecodeRune s = (RuneError, 1)) :
    ¬ ((DecodeRune s).1 ≠ RuneError ∨ (DecodeRune s).2 > 1) := by
  rw [h]
  intro hc
  rcases hc with hc | hc
  · exact hc rfl
  · exact absurd hc (by decide)

theorem trimLoop_conts (len : Nat) (k : Bytes) (hk : ∀ y ∈ k, IsCont y) :
    ∀ (s : Bytes) (i ls : Nat), trimLoop len (k ++ s) i ls = trimLoop len s (i + k.length) ls := by
  induction k with
  | nil => intro s i ls; rfl
  | cons y k ih =>
    intro s i ls
    have hy := hk y (List.mem_cons_self _ _)
    rw [List.cons_append, trimLoop_cons,
      if_neg (decodeRune_error_not_ok _ (decodeRune_cont y (k ++ s) hy)),
      runeStart_of_cont y hy, if_neg (by decide),
      ih (fun z hz => hk z (List.mem_cons_of_mem _ hz)), List.length_cons,
      show i + (k.length + 1) = i + 1 + k.length from by omega]

theorem trimLoop_encoding (len : Nat) (c : Bytes) (h : IsEncoding c) (s : Bytes) (i ls : Nat) :
    trimLoop len (c ++ s) i ls = trimLoop len s (i + c.length) len := by
  obtain ⟨x, c1, e, -, hc⟩ := encoding_shape c h
  have hok := decodeRune_encoding c s h
  rw [e] at hok ⊢
  rw [List.cons_append] at hok ⊢
  rw [trimLoop_cons, if_pos hok, trimLoop_conts len c1 hc, List.length_cons,
    show i + (c1.length + 1) = i + 1 + c1.length from by omega]

theorem trimLoop_valid (len : Nat) (cs : List Bytes) (h : ∀ c ∈ cs, IsEncoding c) :
    ∀ (s : Bytes) (i ls : Nat), trimLoop len (cs.flatten ++ s) i ls =
      trimLoop len s (i + cs.flatten.length) (if cs = [] then ls else len) := by
  induction cs with
  | nil => intro s i ls; rfl
  | cons c cs ih =>
    intro s i ls
    rw [List.flatten_cons, List.append_assoc,
      trimLoop_encoding len c (h c (List.mem_cons_self _ _)),
      ih (fun z hz => h z (List.mem_cons_of_mem _ hz)), if_neg (List.cons_ne_nil _ _),
      List.length_append]
    have e : (if cs = [] then len else len) = len := by split <;> rfl
    rw [e, show i + (c.length + cs.flatten.length) = i + c.length + cs.flatten.length from by omega]

theorem trimLoop_incomplete (len : Nat) (p : Bytes) (h : IsIncomplete p) (i ls : Nat) :
    trimLoop len p i ls = i := by
  obtain ⟨hd, -, x, p1, e, hx, hc⟩ := incomplete_shape p h
  have hs : RuneStart x = true := (runeStart_iff x).2 hx
  rw [e] at hd ⊢
  rw [trimLoop_cons, if_neg (decodeRune_error_not_ok _ hd), hs, if_pos rfl]
  have := trimLoop_conts len p1 hc [] (i + 1) i
  rw [List.append_nil] at this
  rw [this]
  rfl

theorem valid_drop (cs : List Bytes) (h : ∀ c ∈ cs, IsEncoding c) : ∀ j, j ≤ cs.flatten.length →
    ∃ (k : Bytes) (cs1 : List Bytes), (∀ y ∈ k, IsCont y) ∧ (∀ c ∈ cs1, IsEncoding c) ∧
      cs.flatten.drop j = k ++ cs1.flatten := by
  induction cs with
  | nil =>
    intro j _
    exact ⟨[], [], fun y hy => absurd hy (List.not_mem_nil y),
      fun y hy => absurd hy (List.not_mem_nil y), by simp⟩
  | cons c cs ih =>
    intro j hj
    have hc := h c (List.mem_cons_self _ _)
    have hcs : ∀ z ∈ cs, IsEncoding z := fun z hz => h z (List.mem_cons_of_mem _ hz)
    rw [List.flatten_cons, List.length_append] at hj
    by_cases hjc : c.length ≤ j
    · obtain ⟨k, cs1, h1, h2, h3⟩ := ih hcs (j - c.length) (by omega)
      refine ⟨k, cs1, h1, h2, ?_⟩
      rw [List.flatten_cons, List.drop_append_eq_append_drop, List.drop_of_length_le hjc,
        List.nil_append, h3]
    · have hlt : j ≤ c.length := by omega
      rw [List.flatten_cons, List.drop_append_of_le_length hlt]
      by_cases h0 : j = 0
      · subst h0
        refine ⟨[], c :: cs, fun y hy => absurd hy (List.not_mem_nil y), h, ?_⟩
        rw [List.drop_zero, List.nil_append, List.flatten_cons]
      · obtain ⟨x, c1, e, -, hcont⟩ := encoding_shape c hc
        refine ⟨c.drop j, cs, ?_, hcs, rfl⟩
        intro y hy
        rw [e] at hy
        obtain ⟨j1, rfl⟩ := Nat.exists_eq_succ_of_ne_zero h0
        rw [List.drop_succ_cons] at hy
        exact hcont y (List.mem_of_mem_drop hy)

theorem trimIncompleteRune_valid_incomplete (v p : Bytes) (hv : ValidUTF8 v)
    (hp : p = [] ∨ IsIncomplete p) : trimIncompleteRune (v ++ p) = v := by
  obtain ⟨cs, hcs, rfl⟩ := hv
  have hU : UTFMax = 4 := rfl
  have hp3 : p.length ≤ 3 := by
    rcases hp with rfl | hp
    · simp
    · exact (incomplete_shape p hp).2.1
  have hi : (cs.flatten ++ p).length - UTFMax ≤ cs.flatten.length := by
    rw [List.length_append]; omega
  obtain ⟨k, cs1, hk, hcs1, hd⟩ := valid_drop cs hcs _ hi
  have hlen : (cs.flatten ++ p).length - UTFMax + k.length + cs1.flatten.length =
      cs.flatten.length := by
    have := congrArg List.length hd
    simp only [List.length_drop, List.length_append] at this hi ⊢
    omega
  unfold trimIncompleteRune
  rw [List.drop_append_of_le_length hi, hd, List.append_assoc, trimLoop_conts _ k hk,
    trimLoop_valid _ cs1 hcs1, hlen]
  have hfin : trimLoop (cs.flatten ++ p).length p cs.flatten.length
      (if cs1 = [] then (cs.flatten ++ p).length else (cs.flatten ++ p).length) =
        cs.flatten.length := by
    rcases hp with rfl | hp
    · rw [List.append_nil]
      split <;> rfl
    · exact trimLoop_incomplete _ p hp _ _
  rw [hfin, List.take_left]

/-- On a byte that starts no character the trimming cuts as well: `0xFF`
decodes as an error of width 1 and `RuneStart` holds for it, so `a` followed
by `0xFF` is cut to `a`. -/
theorem trimIncompleteRune_invalid_byte :
    DecodeRune [0xFF] = (RuneError, 1) ∧ RuneStart 0xFF = true ∧
    trimIncompleteRune [0x61, 0xFF] = [0x61] := by
  refine ⟨by decide, by decide, by decide⟩

/-! ## The longest valid initial part -/

theorem encoding_size (b0 : UInt8) (c : Bytes) (h : IsEncoding (b0 :: c)) :
    (b0 :: c).length = if first b0.toNat ≥ 0xF0 then 1 else first b0.toNat &&& 7 := by
  cases c with
  | nil =>
    have h1 : b0.toNat ≤ 0x7F := h
    rw [first_ascii _ h1, if_pos (by decide)]
    rfl
  | cons b1 c2 =>
    obtain ⟨x, hf, hx, hsz, -⟩ := encoding_lead b0 (b1 :: c2) h (List.cons_ne_nil _ _)
    rw [hf, if_neg (by omega), hsz]
    rfl

theorem encoding_unique (c1 c2 r1 r2 : Bytes) (h1 : IsEncoding c1) (h2 : IsEncoding c2)
    (e : c1 ++ r1 = c2 ++ r2) : c1 = c2 ∧ r1 = r2 := by
  obtain ⟨x1, t1, rfl, -, -⟩ := encoding_shape c1 h1
  obtain ⟨x2, t2, rfl, -, -⟩ := encoding_shape c2 h2
  have hx : x1 = x2 := by
    rw [List.cons_append, List.cons_append] at e
    exact List.head_eq_of_cons_eq e
  subst hx
  have hl : (x1 :: t1).length = (x1 :: t2).length := by
    rw [encoding_size x1 t1 h1, encoding_size x1 t2 h2]
  exact List.append_inj e hl

theorem validUTF8_nil : ValidUTF8 [] :=
  ⟨[], fun c hc => absurd hc (List.not_mem_nil c), rfl⟩

theorem validUTF8_append_encoding (c v : Bytes) (hc : IsEncoding c) (hv : ValidUTF8 v) :
    ValidUTF8 (c ++ v) := by
  obtain ⟨cs, hcs, rfl⟩ := hv
  refine ⟨c :: cs, ?_, by rw [List.flatten_cons]⟩
  intro z hz
  rcases List.mem_cons.1 hz with hz | hz
  · rw [hz]; exact hc
  · exact hcs z hz

theorem valid_suffix_aux (cs : List Bytes) : (∀ c ∈ cs, IsEncoding c) → ∀ r : Bytes,
    ValidUTF8 (cs.flatten ++ r) → ValidUTF8 r := by
  induction cs with
  | nil => intro _ r hvr; exact hvr
  | cons c cs ih =>
    intro hcs r hvr
    have hc := hcs c (List.mem_cons_self _ _)
    obtain ⟨ds, hds, e⟩ := hvr
    cases ds with
    | nil =>
      rw [List.flatten_cons, List.append_assoc, List.flatten_nil] at e
      have := (encoding_length c hc).1
      have h0 := congrArg List.length e
      rw [List.length_append, List.length_nil] at h0
      omega
    | cons d ds =>
      rw [List.flatten_cons, List.flatten_cons, List.append_assoc] at e
      obtain ⟨-, e2⟩ := encoding_unique c d _ _ hc (hds d (List.mem_cons_self _ _)) e
      exact ih (fun z hz => hcs z (List.mem_cons_of_mem _ hz)) r
        ⟨ds, fun z hz => hds z (List.mem_cons_of_mem _ hz), e2⟩

theorem valid_suffix (v r : Bytes) (hv : ValidUTF8 v) (hvr : ValidUTF8 (v ++ r)) :
    ValidUTF8 r := by
  obtain ⟨cs, hcs, rfl⟩ := hv
  exact valid_suffix_aux cs hcs r hvr

theorem valid_prefix_split_aux (cs : List Bytes) : (∀ c ∈ cs, IsEncoding c) → ∀ b t : Bytes,
    b ++ t = cs.flatten →
      ∃ v p, b = v ++ p ∧ ValidUTF8 v ∧ (p = [] ∨ IsIncomplete p) := by
  induction cs with
  | nil =>
    intro _ b t e
    rw [List.flatten_nil] at e
    exact ⟨[], [], by rw [(List.append_eq_nil.1 e).1]; rfl, validUTF8_nil, Or.inl rfl⟩
  | cons c cs ih =>
    intro hcs b t e
    have hc := hcs c (List.mem_cons_self _ _)
    rw [List.flatten_cons] at e
    rcases List.append_eq_append_iff.1 e with ⟨a, e1, e2⟩ | ⟨a, e1, e2⟩
    · by_cases hb : b = []
      · exact ⟨[], [], by rw [hb]; rfl, validUTF8_nil, Or.inl rfl⟩
      · by_cases ha : a = []
        · rw [ha, List.append_nil] at e1
          refine ⟨c, [], by rw [e1, List.append_nil], ?_, Or.inl rfl⟩
          have := validUTF8_append_encoding c [] hc validUTF8_nil
          rw [List.append_nil] at this
          exact this
        · exact ⟨[], b, rfl, validUTF8_nil, Or.inr ⟨hb, a, ha, e1 ▸ hc⟩⟩
    · obtain ⟨v, p, e3, hv, hp⟩ := ih (fun z hz => hcs z (List.mem_cons_of_mem _ hz)) a t e2.symm
      exact ⟨c ++ v, p, by rw [e1, e3, List.append_assoc],
        validUTF8_append_encoding c v hc hv, hp⟩

theorem valid_prefix_split (b t : Bytes) (h : ValidUTF8 (b ++ t)) :
    ∃ v p, b = v ++ p ∧ ValidUTF8 v ∧ (p = [] ∨ IsIncomplete p) := by
  obtain ⟨cs, hcs, e⟩ := h
  exact valid_prefix_split_aux cs hcs b t e

theorem incomplete_no_valid_start (p : Bytes) (hp : IsIncomplete p) (q t : Bytes)
    (hq : ValidUTF8 q) (e : q ++ t = p) : q = [] := by
  obtain ⟨ds, hds, rfl⟩ := hq
  cases ds with
  | nil => rfl
  | cons d ds =>
    exfalso
    obtain ⟨-, r, hr, hc⟩ := hp
    rw [← e, List.flatten_cons, List.append_assoc, List.append_assoc] at hc
    have hu := encoding_unique d (d ++ (ds.flatten ++ t ++ r)) (ds.flatten ++ t ++ r) []
      (hds d (List.mem_cons_self _ _)) (by rw [List.append_assoc]; exact hc)
      (by rw [List.append_nil])
    have := (List.append_eq_nil.1 hu.2).2
    exact hr this

theorem valid_prefix_le (v p q t : Bytes) (hv : ValidUTF8 v) (hp : p = [] ∨ IsIncomplete p)
    (hq : ValidUTF8 q) (e : q ++ t = v ++ p) : q.length ≤ v.length := by
  rcases List.append_eq_append_iff.1 e with ⟨a, e1, _⟩ | ⟨a, e1, e2⟩
  · rw [e1, List.length_append]
    exact Nat.le_add_right _ _
  · have ha : ValidUTF8 a := valid_suffix v a hv (e1 ▸ hq)
    rcases hp with hp | hp
    · rw [hp] at e2
      rw [e1, (List.append_eq_nil.1 e2.symm).1, List.append_nil]
    · have := incomplete_no_valid_start p hp a t ha e2.symm
      rw [e1, this, List.append_nil]

/-- C14. Rune-boundary trimming: for every byte sequence `b` that is an
initial part, cut at an arbitrary byte position, of a valid UTF-8 text
`b ++ t`, `trimIncompleteRune b` is `b` with exactly its trailing incomplete
character `p`, of at most 3 bytes, removed; it is valid UTF-8 and no longer
initial part of `b` is; and `trimIncompleteRune b = b` whenever `b` is valid
UTF-8, as for `a` followed by the encoded replacement character U+FFFD. -/
theorem trimIncompleteRune_longest_valid :
    (∀ b t : Bytes, ValidUTF8 (b ++ t) →
      ∃ p, b = trimIncompleteRune b ++ p ∧ (p = [] ∨ IsIncomplete p) ∧ p.length ≤ 3 ∧
        ValidUTF8 (trimIncompleteRune b) ∧
        (∀ q, q <+: b → ValidUTF8 q → q.length ≤ (trimIncompleteRune b).length) ∧
        (ValidUTF8 b → trimIncompleteRune b = b)) ∧
    (ValidUTF8 [0x61, 0xEF, 0xBF, 0xBD] ∧
      trimIncompleteRune [0x61, 0xEF, 0xBF, 0xBD] = [0x61, 0xEF, 0xBF, 0xBD]) := by
  constructor
  · intro b t h
    obtain ⟨v, p, e, hv, hp⟩ := valid_prefix_split b t h
    have ht : trimIncompleteRune b = v := by
      rw [e]
      exact trimIncompleteRune_valid_incomplete v p hv hp
    rw [ht]
    refine ⟨p, e, hp, ?_, hv, ?_, ?_⟩
    · rcases hp with hp | hp
      · rw [hp]
        exact Nat.zero_le _
      · exact (incomplete_shape p hp).2.1
    · rintro q ⟨s, hs⟩ hq
      exact valid_prefix_le v p q s hv hp hq (hs.trans e)
    · intro hb
      have := trimIncompleteRune_valid_incomplete b [] hb (Or.inl rfl)
      rw [List.append_nil] at this
      rw [← ht]
      exact this
  · refine ⟨⟨[[0x61], [0xEF, 0xBF, 0xBD]], ?_, rfl⟩, by decide⟩
    intro c hc
    rcases List.mem_cons.1 hc with hc | hc
    · rw [hc]
      unfold IsEncoding
      decide
    · rw [List.mem_singleton] at hc
      rw [hc]
      unfold IsEncoding IsCont
      decide

theorem trimIncompleteRune_longest_valid_witness :
    ∃ p, ([0x61, 0xE2, 0x82] : Bytes) = trimIncompleteRune [0x61, 0xE2, 0x82] ++ p ∧
      (p = [] ∨ IsIncomplete p) ∧ p.length ≤ 3 ∧
      ValidUTF8 (trimIncompleteRune [0x61, 0xE2, 0x82]) ∧
      (∀ q, q <+: ([0x61, 0xE2, 0x82] : Bytes) → ValidUTF8 q →
        q.length ≤ (trimIncompleteRune [0x61, 0xE2, 0x82]).length) ∧
      (ValidUTF8 [0x61, 0xE2, 0x82] → trimIncompleteRune [0x61, 0xE2, 0x82] = [0x61, 0xE2, 0x82]) :=
  trimIncompleteRune_longest_valid.1 [0x61, 0xE2, 0x82] [0xAC]
    ⟨[[0x61], [0xE2, 0x82, 0xAC]], by
      intro c hc
      rcases List.mem_cons.1 hc with hc | hc
      · rw [hc]
        unfold IsEncoding
        decide
      · rw [List.mem_singleton] at hc
        rw [hc]
        unfold IsEncoding IsCont
        decide, rfl⟩

/-! ## Writes of whole characters -/

theorem trimLoop_shift (len k : Nat) : ∀ (s : Bytes) (i ls : Nat),
    trimLoop (len + k) s (i + k) (ls + k) = trimLoop len s i ls + k := by
  intro s
  induction s with
  | nil => intro i ls; rfl
  | cons x rest ih =>
    intro i ls
    rw [trimLoop_cons, trimLoop_cons, show i + k + 1 = i + 1 + k from by omega]
    by_cases hc : (DecodeRune (x :: rest)).1 ≠ RuneError ∨ (DecodeRune (x :: rest)).2 > 1
    · rw [if_pos hc, if_pos hc]
      exact ih _ _
    · rw [if_neg hc, if_neg hc]
      by_cases hs : RuneStart x = true
      · rw [if_pos hs, if_pos hs]
        exact ih _ _
      · rw [if_neg hs, if_neg hs]
        exact ih _ _

theorem trimIncompleteRune_append_left (pre s : Bytes) (h : UTFMax ≤ s.length) :
    trimIncompleteRune (pre ++ s) = pre ++ trimIncompleteRune s := by
  have e1 : (pre ++ s).length - UTFMax = pre.length + (s.length - UTFMax) := by
    rw [List.length_append]; omega
  have e3 : (pre ++ s).length = s.length + pre.length := by
    rw [List.length_append]; omega
  unfold trimIncompleteRune
  rw [e1, List.drop_append, e3, Nat.add_comm pre.length (s.length - UTFMax), trimLoop_shift,
    Nat.add_comm _ pre.length, List.take_append]

theorem endsIncomplete_append_left (pre w : Bytes) (h : EndsIncomplete w) :
    EndsIncomplete (pre ++ w) := by
  obtain ⟨u, p, e, hp⟩ := h
  exact ⟨pre ++ u, p, by rw [e, List.append_assoc], hp⟩

theorem valid_not_endsIncomplete (w : Bytes) (hw : ValidUTF8 w) : ¬ EndsIncomplete w := by
  rintro ⟨u, p, rfl, hp⟩
  obtain ⟨v1, p1, e, hv1, hp1⟩ := valid_prefix_split u p hw
  rcases hp1 with hp1 | hp1
  · rw [hp1, List.append_nil] at e
    subst e
    have hpv : ValidUTF8 p := valid_suffix u p hv1 hw
    exact hp.1 (incomplete_no_valid_start p hp p [] hpv (List.append_nil p))
  · subst e
    rw [List.append_assoc] at hw
    obtain ⟨ds, hds, e⟩ := valid_suffix v1 _ hv1 hw
    obtain ⟨-, -, y, p2, ep1, -, -⟩ := incomplete_shape p1 hp1
    obtain ⟨-, -, z, p3, ep, hz, -⟩ := incomplete_shape p hp
    obtain ⟨-, q1, hq1, hc1⟩ := hp1
    cases ds with
    | nil =>
      rw [ep1] at e
      exact absurd e (by simp)
    | cons d ds =>
      have hd := hds d (List.mem_cons_self _ _)
      obtain ⟨x, d1, ed, -, hd1⟩ := encoding_shape d hd
      rw [List.flatten_cons, ed, ep1, List.cons_append, List.cons_append] at e
      have hxy : y = x := List.head_eq_of_cons_eq e
      have et : p2 ++ p = d1 ++ ds.flatten := List.tail_eq_of_cons_eq e
      rw [ed] at hd
      rw [ep1, List.cons_append, hxy] at hc1
      have hl : (x :: d1).length = (x :: (p2 ++ q1)).length := by
        rw [encoding_size x d1 hd, encoding_size x (p2 ++ q1) hc1]
      have hq0 : 0 < q1.length := List.length_pos.2 hq1
      simp only [List.length_cons, List.length_append] at hl
      rcases List.append_eq_append_iff.1 et with ⟨a, e1, e2⟩ | ⟨a, e1, _⟩
      · have ha : a ≠ [] := by
          intro h0
          rw [h0, List.append_nil] at e1
          rw [e1] at hl
          omega
        rw [ep] at e2
        cases a with
        | nil => exact ha rfl
        | cons a0 a1 =>
          rw [List.cons_append] at e2
          have hza : z = a0 := List.head_eq_of_cons_eq e2
          apply hz
          apply hd1
          rw [e1, hza]
          exact List.mem_append_right _ (List.mem_cons_self _ _)
      · have := congrArg List.length e1
        rw [List.length_append] at this
        omega

theorem chunk_no_split (pre data : Bytes) (hv : ValidUTF8 (pre ++ data)) :
    ¬ EndsIncomplete (if data.length > 8000 then trimIncompleteRune (data.take 8000) else data) := by
  by_cases hl : data.length > 8000
  · rw [if_pos hl]
    have hlen : (data.take 8000).length = 8000 := by rw [List.length_take]; omega
    have hsplit : ValidUTF8 ((pre ++ data.take 8000) ++ data.drop 8000) := by
      rw [List.append_assoc, List.take_append_drop]
      exact hv
    obtain ⟨v, p, e, hvv, hp⟩ := valid_prefix_split _ _ hsplit
    have ht : trimIncompleteRune (pre ++ data.take 8000) = v := by
      rw [e]
      exact trimIncompleteRune_valid_incomplete v p hvv hp
    rw [trimIncompleteRune_append_left pre _ (by rw [hlen]; decide)] at ht
    intro hc
    exact valid_not_endsIncomplete v hvv (ht ▸ endsIncomplete_append_left pre _ hc)
  · rw [if_neg hl]
    intro hc
    exact valid_not_endsIncomplete _ hv (endsIncomplete_append_left pre _ hc)

theorem chunk_valid (data : Bytes) (hv : ValidUTF8 data) :
    ValidUTF8 (if data.length > 8000 then trimIncompleteRune (data.take 8000) else data) ∧
    ValidUTF8 (data.drop
      (if data.length > 8000 then trimIncompleteRune (data.take 8000) else data).length) := by
  by_cases hl : data.length > 8000
  · rw [if_pos hl]
    have hsplit : ValidUTF8 (data.take 8000 ++ data.drop 8000) := by
      rw [List.take_append_drop]
      exact hv
    obtain ⟨v, p, e, hvv, hp⟩ := valid_prefix_split _ _ hsplit
    have ht : trimIncompleteRune (data.take 8000) = v := by
      rw [e]
      exact trimIncompleteRune_valid_incomplete v p hvv hp
    rw [ht]
    refine ⟨hvv, ?_⟩
    have ed : data = v ++ (p ++ data.drop 8000) := by
      rw [← List.append_assoc, ← e, List.take_append_drop]
    have hdrop : data.drop v.length = p ++ data.drop 8000 := by
      conv_lhs => rw [ed]
      exact List.drop_left _ _
    rw [hdrop]
    exact valid_suffix v _ hvv (ed ▸ hv)
  · rw [if_neg hl, List.drop_length]
    exact ⟨hv, validUTF8_nil⟩

theorem writeDataLoop_no_split {σ : Type} (write : σ → Bytes → σ × Int × Option GoError) :
    ∀ (fuel : Nat) (data : Bytes) (st : σ) (log : List Bytes) (pre : Bytes),
      ValidUTF8 (pre ++ data) → (∀ c ∈ log, ¬ EndsIncomplete c) →
      ∀ c ∈ (writeDataLoop (recordingWrites write) fuel data (st, log)).1.2,
        ¬ EndsIncomplete c := by
  intro fuel
  induction fuel with
  | zero => intro data st log pre _ h; exact h
  | succ fuel ih =>
    intro data st log pre hv h
    rw [writeDataLoop_succ]
    by_cases hd : data.length > 0
    · rw [if_pos hd]
      have hch := chunk_no_split pre data hv
      generalize (if data.length > 8000 then trimIncompleteRune (data.take 8000) else data) = d
        at hch ⊢
      have hlog : ∀ c ∈ log ++ [d], ¬ EndsIncomplete c := by
        intro c hc
        rcases List.mem_append.1 hc with hc | hc
        · exact h c hc
        · rw [List.mem_singleton] at hc
          rw [hc]
          exact hch
      unfold recordingWrites
      dsimp only
      rcases write st d with ⟨st1, n, _ | err⟩
      · dsimp only
        split
        · exact hlog
        · refine ih _ _ _ (pre ++ data.take n.toNat) ?_ hlog
          rw [List.append_assoc, List.take_append_drop]
          exact hv
      · exact hlog
    · rw [if_neg hd]
      exact h

theorem writeDataLoop_valid {σ : Type} (write : σ → Bytes → σ × Int × Option GoError)
    (hw : ∀ s d, (write s d).2 = ((d.length : Int), none)) :
    ∀ (fuel : Nat) (data : Bytes) (st : σ) (log : List Bytes), ValidUTF8 data →
      (∀ c ∈ log, ValidUTF8 c) →
      ∀ c ∈ (writeDataLoop (recordingWrites write) fuel data (st, log)).1.2, ValidUTF8 c := by
  intro fuel
  induction fuel with
  | zero => intro data st log _ h; exact h
  | succ fuel ih =>
    intro data st log hv h
    rw [writeDataLoop_succ]
    by_cases hd : data.length > 0
    · rw [if_pos hd]
      obtain ⟨hch, hrest⟩ := chunk_valid data hv
      obtain ⟨m, -, -, hm, em⟩ := chunk_spec data hd
      rw [em] at hch hrest ⊢
      have hlen : (data.take m).length = m := by rw [List.length_take]; omega
      rw [hlen] at hrest
      have hlog : ∀ c ∈ log ++ [data.take m], ValidUTF8 c := by
        intro c hc
        rcases List.mem_append.1 hc with hc | hc
        · exact h c hc
        · rw [List.mem_singleton] at hc
          rw [hc]
          exact hch
      have hr : recordingWrites write (st, log) (data.take m) =
          (((write st (data.take m)).1, log ++ [data.take m]), ((m : Int), none)) := by
        unfold recordingWrites
        rw [hw, hlen]
      rw [hr]
      dsimp only
      rw [if_neg (by omega)]
      exact ih _ _ _ (by rw [Int.toNat_ofNat]; exact hrest) hlog
    · rw [if_neg hd]
      exact h

theorem not_endsIncomplete_nil : ¬ EndsIncomplete [] := by
  rintro ⟨u, p, e, hp⟩
  exact hp.1 (List.append_eq_nil.1 e.symm).2

/-- C13 (as amended). Chunk character safety: for any payload that is valid
UTF-8, and any sink, no write emitted by `writeData` ends on an incomplete
multi-byte character; with a sink that accepts each write in full, every
write is itself valid UTF-8, a sequence of whole characters. -/
theorem writeData_whole_characters {σ : Type} (write : σ → Bytes → σ × Int × Option GoError)
    (fuel : Nat) (data : Bytes) (st : σ) (hv : ValidUTF8 data) :
    (∀ c ∈ (writeData (recordingWrites write) fuel data (st, [])).1.2, ¬ EndsIncomplete c) ∧
    ((∀ s d, (write s d).2 = ((d.length : Int), none)) →
      ∀ c ∈ (writeData (recordingWrites write) fuel data (st, [])).1.2, ValidUTF8 c) := by
  unfold writeData
  by_cases hd : data.length = 0
  · rw [if_pos hd]
    have hlog : (recordingWrites write (st, []) []).1.2 = [[]] := rfl
    constructor
    · intro c hc
      have hc2 : c ∈ [([] : Bytes)] := hlog ▸ hc
      rw [List.mem_singleton] at hc2
      rw [hc2]
      exact not_endsIncomplete_nil
    · intro _ c hc
      have hc2 : c ∈ [([] : Bytes)] := hlog ▸ hc
      rw [List.mem_singleton] at hc2
      rw [hc2]
      exact validUTF8_nil
  · rw [if_neg hd]
    constructor
    · exact writeDataLoop_no_split write fuel data st [] [] hv
        (fun c hc => absurd hc (List.not_mem_nil c))
    · intro hw
      exact writeDataLoop_valid write hw fuel data st [] hv
        (fun c hc => absurd hc (List.not_mem_nil c))

theorem writeData_whole_characters_witness :
    (∀ c ∈ (writeData (recordingWrites acceptAll) 3 [0x61, 0xE2, 0x82, 0xAC] ((), [])).1.2,
      ¬ EndsIncomplete c) ∧
    ((∀ s d, (acceptAll s d).2 = ((d.length : Int), none)) →
      ∀ c ∈ (writeData (recordingWrites acceptAll) 3 [0x61, 0xE2, 0x82, 0xAC] ((), [])).1.2,
        ValidUTF8 c) :=
  writeData_whole_characters acceptAll 3 [0x61, 0xE2, 0x82, 0xAC] ()
    ⟨[[0x61], [0xE2, 0x82, 0xAC]], by
      intro c hc
      rcases List.mem_cons.1 hc with hc | hc
      · rw [hc]
        unfold IsEncoding
        decide
      · rw [List.mem_singleton] at hc
        rw [hc]
        unfold IsEncoding IsCont
        decide, rfl⟩

theorem writeData_whole_characters_counterexample :
    (writeData (recordingWrites acceptAll) 3 [0xE2, 0x82] ((), [])).1.2 = [[0xE2, 0x82]] ∧
    IsEncoding [0xE2, 0x82, 0xAC] ∧ EndsIncomplete [0xE2, 0x82] := by
  have he : IsEncoding [0xE2, 0x82, 0xAC] := by
    unfold IsEncoding IsCont
    decide
  exact ⟨by decide, he, [], [0xE2, 0x82], rfl, by decide, [0xAC], by decide, he⟩

end Apipe
